import Mathlib

/-!
# Verification of the beachcomb record-processing and planning engine

A shallow embedding, in Lean 4, of the core of the `beachcomb` file-recovery
tool (`src/beachcomb/core.py` and `src/beachcomb/exiftoold.py`), together with
proofs and refutations of the behavioural properties stated in the tool's
design specification.

The embedding follows the Python source closely:

* `Rec` mirrors the per-file record dictionary built by `Planner.process_file`
  (only the fields read or written by the deduplication and bin-planning
  stages are carried).
* `stage_full_hash_for_collisions` mirrors `Planner.stage_full_hash_for_collisions`;
  the full-content hash of the file behind a record is supplied by an oracle
  function `hashOf : String → String` mapping a source path to the computed
  digest (the empty string standing for a hash that could not be computed),
  since the actual hashing is file I/O.
* `planBins` mirrors `Planner.plan_bins`.  The imperative
  `while` loop of `Planner._greedy_merge` does not terminate when the first
  unconsumed period's population exceeds the cap (the inner accumulation loop
  then makes no progress), so the loop is embedded with an explicit fuel
  parameter: `none` models non-termination of the source, and every theorem
  about produced plans quantifies over the fuel.
* `ExifToolDaemon._worker` is embedded as a function over an explicit trace of
  read events (`Ev`), each carrying the cumulative elapsed time at which
  `readline` returns it; a finite trace that runs out models a `readline`
  that blocks forever.
-/

namespace Beachcomb

/-! ## Timestamps and the ISO date strings stored in records

`datetime` values are compared lexicographically by
(year, month, day, hour, minute, second); sub-second resolution is folded into
`second` (it never influences anything the claims mention).  A record stores
dates as ISO strings which `plan_bins` re-parses with
`datetime.fromisoformat`; `DateStr` models such a string by what that parse
does with it: the empty (falsy) string, a non-empty string the parse rejects,
or a string that parses to a timestamp. -/

structure Ts where
  year : Nat
  month : Nat
  day : Nat
  hour : Nat
  minute : Nat
  second : Nat
deriving DecidableEq, Repr

instance : Inhabited Ts := ⟨⟨0, 0, 0, 0, 0, 0⟩⟩

/-- Python `datetime` ≤ (lexicographic by field), as used by
`dated.sort(key=lambda x: x[1])`. -/
def tsLe (a b : Ts) : Prop :=
  a.year < b.year ∨ (a.year = b.year ∧
    (a.month < b.month ∨ (a.month = b.month ∧
      (a.day < b.day ∨ (a.day = b.day ∧
        (a.hour < b.hour ∨ (a.hour = b.hour ∧
          (a.minute < b.minute ∨ (a.minute = b.minute ∧
            a.second ≤ b.second)))))))))

instance : DecidableRel tsLe := fun a b => by unfold tsLe; infer_instance

def tsLeB (a b : Ts) : Bool := decide (tsLe a b)

/-- A date-bearing string field of a record, modelled by the outcome of
`datetime.fromisoformat` on it: `empty` is the empty string (falsy),
`bad s` is a non-empty string the parse raises on, `good t` parses to `t`. -/
inductive DateStr where
  | empty : DateStr
  | bad : String → DateStr
  | good : Ts → DateStr
deriving DecidableEq, Repr

instance : Inhabited DateStr := ⟨DateStr.empty⟩

/-! ## Records

One `Rec` per discovered file, mirroring the dictionary literal built at the
end of `Planner.process_file` (core.py lines 178-213).  Fields that the
deduplication and planning stages never touch (EXIF software, pixel sizes,
PDF metadata, ...) are omitted; every field below is read or written by
`stage_full_hash_for_collisions`, `promote_other_types`,
`collect_make_model_counts`, `plan_bins` or `_assign_dest`. -/

structure Rec where
  source_path : String
  family : String
  subtype : String
  size_bytes : Nat
  mtime_local : DateStr
  integrity : String
  undated_flag : Nat
  date_source : String
  date_local : DateStr
  sig : String
  fullhash : String
  duplicate_of : String
  dest_path : String
  guessed_ext : String
  type_label : String
  img_kind : String
  exif_make : String
  exif_model : String
deriving DecidableEq, Repr

instance : Inhabited Rec :=
  ⟨⟨"", "", "", 0, DateStr.empty, "", 0, "", DateStr.empty, "", "", "", "", "", "", "", "", ""⟩⟩

/-- `self.records[i]` (list indexing). All code paths below only index with
in-range indices; `default` is returned out of range. -/
def getRec (rs : List Rec) (i : Nat) : Rec := rs.getD i default

/-! ## Decimal rendering and zero padding

Python renders bucket labels with f-strings: `f"{y1}"`, `f"{y:04d}"`,
`f"{pi:03d}"`, `f"undated-{n:04d}"`.  `natStr` is plain decimal rendering and
`padNum w n` is decimal rendering left-padded with `'0'` to width `w`. -/

def natDigitsAux (fuel n : Nat) : List Char :=
  match fuel with
  | 0 => []
  | fuel + 1 =>
    if n < 10 then [Char.ofNat (48 + n)]
    else natDigitsAux fuel (n / 10) ++ [Char.ofNat (48 + n % 10)]

def natDigits (n : Nat) : List Char := natDigitsAux (n + 1) n

def natStr (n : Nat) : String := ⟨natDigits n⟩

/-- `f"{n:0wd}"`: left-pad the decimal rendering with zeros to width `w`
(longer renderings are kept unchanged, as in Python). -/
def padNum (w n : Nat) : String := ⟨List.replicate (w - (natDigits n).length) '0' ++ natDigits n⟩

/-- First character of a string (`' '` for the empty string). -/
def headChar (s : String) : Char := s.data.headD ' '

/-! ## Reducible string primitives

Python string operations used by the planner and the daemon, implemented
structurally over the character list so that concrete runs of the model
evaluate: code-point comparison (`str < str`), prefix/suffix tests,
lower-casing, whitespace strip, single-character split and join.  Each
mirrors the CPython semantics for the ASCII inputs the source feeds them. -/

def listCharLe : List Char → List Char → Bool
  | [], _ => true
  | _ :: _, [] => false
  | a :: as, b :: bs =>
    if a.toNat < b.toNat then true
    else if b.toNat < a.toNat then false
    else listCharLe as bs

/-- Python `a <= b` on strings (lexicographic by code point). -/
def strLe (a b : String) : Bool := listCharLe a.data b.data

def listStarts : List Char → List Char → Bool
  | _, [] => true
  | [], _ :: _ => false
  | a :: as, b :: bs => decide (a = b) && listStarts as bs

/-- Python `s.startswith(pre)`. -/
def strStarts (s pre : String) : Bool := listStarts s.data pre.data

/-- Python `s.endswith(suf)`. -/
def strEnds (s suf : String) : Bool := listStarts s.data.reverse suf.data.reverse

/-- Python `s.lower()` (ASCII). -/
def strToLower (s : String) : String := ⟨s.data.map Char.toLower⟩

/-- Python `s.strip()` (ASCII whitespace). -/
def trimStr (s : String) : String :=
  ⟨((s.data.dropWhile Char.isWhitespace).reverse.dropWhile Char.isWhitespace).reverse⟩

def splitOnCharAux (c : Char) : List Char → List (List Char)
  | [] => [[]]
  | a :: t =>
    match splitOnCharAux c t with
    | [] => [[]]
    | cur :: rest => if a = c then [] :: cur :: rest else (a :: cur) :: rest

/-- Python `s.split(c)` for a single-character separator. -/
def splitChar (c : Char) (s : String) : List String :=
  (splitOnCharAux c s.data).map (fun l => (⟨l⟩ : String))

/-- Python `sep.join(l)`. -/
def joinWith (sep : String) : List String → String
  | [] => ""
  | [a] => a
  | a :: b :: t => a ++ sep ++ joinWith sep (b :: t)

/-! ## A stable sort modelling Python `sorted` / `list.sort`

Python's sort is stable; any stable sort is extensionally the same function
on a total preorder, and insertion sort is the simplest one that also
evaluates by kernel reduction. -/

def sInsert {α : Type} (le : α → α → Bool) (a : α) : List α → List α
  | [] => [a]
  | b :: t => if le a b then a :: b :: t else b :: sInsert le a t

def sortBy {α : Type} (le : α → α → Bool) : List α → List α
  | [] => []
  | a :: t => sInsert le a (sortBy le t)

/-! ## Insertion-ordered grouping (`dict.setdefault(key, []).append(value)`)

Every grouping step of the source — signature buckets, `by_full` sub-groups,
the `(family, subtype)` cohorts, and the `years` / `months` / `days` /
`minutes` frequency tables — is a Python loop of the form
`d.setdefault(k, []).append(v)` over a list of key/value pairs.  `groupPairs`
is that loop: an association list in key-first-occurrence order, each key
paired with its values in traversal order. -/

section Grouping

variable {κ : Type} [DecidableEq κ] {α : Type}

/-- One `d.setdefault(k, []).append(v)` step on the association list. -/
def addGroup (g : List (κ × List α)) (k : κ) (v : α) : List (κ × List α) :=
  match g with
  | [] => [(k, [v])]
  | (k', l) :: t => if k = k' then (k', l ++ [v]) :: t else (k', l) :: addGroup t k v

def groupPairs (ps : List (κ × α)) : List (κ × List α) :=
  ps.foldl (fun g p => addGroup g p.1 p.2) []

/-- The invariant carried through the `setdefault` fold: after consuming the
pair list `done`, the accumulator has duplicate-free keys, each key's value
list is exactly the values of `done` carrying that key (in order), every
consumed key is present, and every present key was consumed. -/
def GroupInv (done : List (κ × α)) (g : List (κ × List α)) : Prop :=
  (g.map Prod.fst).Nodup ∧
  (∀ e ∈ g, e.2 = (done.filter (fun p => decide (p.1 = e.1))).map Prod.snd) ∧
  (∀ p ∈ done, p.1 ∈ g.map Prod.fst) ∧
  (∀ e ∈ g, e.1 ∈ done.map Prod.fst)

end Grouping

/-! ## Slices and fixed-size chunks

`slice keys s e` is the Python slice `keys_sorted[s:e]`; `chunkList cap l` is
`[l[x:x+cap] for x in range(0, len(l), cap)]`.  Note: when `cap = 0` the
Python `range(0, len, 0)` raises `ValueError` for a non-empty list; callers
below guard that case explicitly (returning `none`, i.e. "no plan is ever
produced"), and `chunkList` itself returns `[]` on `cap = 0` to stay total. -/

def slice {α : Type} (l : List α) (s e : Nat) : List α := (l.drop s).take (e - s)

def chunkListAux {α : Type} (cap : Nat) (fuel : Nat) (l : List α) : List (List α) :=
  match fuel with
  | 0 => []
  | fuel + 1 =>
    if cap = 0 ∨ l.length = 0 then []
    else l.take cap :: chunkListAux cap fuel (l.drop cap)

def chunkList {α : Type} (cap : Nat) (l : List α) : List (List α) :=
  chunkListAux cap l.length l

/-! ## The greedy merge loop (`Planner._greedy_merge`, core.py 313-326)

```python
def _greedy_merge(self, keys_sorted, counts, max_per_bin):
    bins = []
    if not keys_sorted: return bins
    start = 0
    while start < len(keys_sorted):
        total = 0
        end = start
        while end < len(keys_sorted) and total + counts[keys_sorted[end]] <= max_per_bin:
            total += counts[keys_sorted[end]]
            end += 1
        bins.append((start, end))
        start = end
    return bins
```

The inner `while` makes no progress when `counts[keys_sorted[start]] >
max_per_bin` (then `end == start`), in which case the outer loop appends the
empty span `(start, start)` forever and `_greedy_merge` never terminates.
`greedyTake` is the inner loop; `greedyLoop` is the outer loop with an
explicit fuel argument, `none` modelling non-termination. -/

section Greedy

variable {κ : Type}

def greedyTakeAux (keys : List κ) (counts : κ → Nat) (cap : Nat) :
    Nat → Nat → Nat → Nat
  | 0, _, endI => endI
  | fuel + 1, total, endI =>
    if h : endI < keys.length then
      if total + counts (keys.get ⟨endI, h⟩) ≤ cap then
        greedyTakeAux keys counts cap fuel (total + counts (keys.get ⟨endI, h⟩)) (endI + 1)
      else endI
    else endI

/-- The inner `while` of `_greedy_merge`; `keys.length - endI` steps always
suffice, since each iteration increments `endI`. -/
def greedyTake (keys : List κ) (counts : κ → Nat) (cap : Nat) (total endI : Nat) : Nat :=
  greedyTakeAux keys counts cap (keys.length - endI) total endI

def greedyLoop (keys : List κ) (counts : κ → Nat) (cap : Nat) : Nat → Nat → Option (List (Nat × Nat))
  | 0, _ => none
  | fuel + 1, start =>
    if start < keys.length then
      match greedyLoop keys counts cap fuel (greedyTake keys counts cap 0 start) with
      | none => none
      | some spans => some ((start, greedyTake keys counts cap 0 start) :: spans)
    else some []

/-- `Planner._greedy_merge` itself, fuelled.  `some spans` is the returned
list of `(start, end)` index spans; `none` means the source loop runs
forever. -/
def greedyMerge (fuel : Nat) (keys : List κ) (counts : κ → Nat) (cap : Nat) :
    Option (List (Nat × Nat)) :=
  greedyLoop keys counts cap fuel 0

/-- Sum of `counts` over the slice `keys[s:e]`. -/
def sliceSum (keys : List κ) (counts : κ → Nat) (s e : Nat) : Nat :=
  ((slice keys s e).map counts).sum

end Greedy

/-! ## Deduplication (`Planner.stage_full_hash_for_collisions`, core.py 216-255)

```python
def stage_full_hash_for_collisions(self):
    buckets = {}
    for idx, r in enumerate(self.records):
        buckets.setdefault(r["sig"], []).append(idx)
    multi = [idxs for idxs in buckets.values() if len(idxs) > 1]
    if not multi:
        return
    ...
    with cf.ThreadPoolExecutor(...) as ex:
        list(ex.map(do_hash, itertools.chain.from_iterable(multi)))
    for idxs in multi:
        by_full = {}
        for i in idxs:
            fh = self.records[i]["fullhash"]
            if not fh: continue
            by_full.setdefault(fh, []).append(i)
        for fh, group in by_full.items():
            keeper = min(group)
            for j in group:
                if j != keeper:
                    self.records[j]["duplicate_of"] = self.records[keeper]["source_path"]
```

`do_hash` computes the full content hash of the file at
`records[idx]["source_path"]` (BLAKE3/openssl/hashlib) and stores it in the
record's `fullhash` field; being file I/O it is modelled by the oracle
`hashOf : String → String` from source path to digest, the empty string
standing for "could not be computed".  The hash of a file is a function of
its path within one run, and the thread pool writes each record's own field,
so the post-hashing state is order-independent. -/

def setFullhash (rs : List Rec) (i : Nat) (h : String) : List Rec :=
  rs.set i {getRec rs i with fullhash := h}

def setDupOf (rs : List Rec) (j : Nat) (v : String) : List Rec :=
  rs.set j {getRec rs j with duplicate_of := v}

/-- `for idx, r in enumerate(self.records): buckets.setdefault(r["sig"], []).append(idx)`. -/
def sigBuckets (rs : List Rec) : List (String × List Nat) :=
  groupPairs ((List.range rs.length).map (fun i => ((getRec rs i).sig, i)))

/-- `multi = [idxs for idxs in buckets.values() if len(idxs) > 1]`. -/
def multiGroups (rs : List Rec) : List (List Nat) :=
  ((sigBuckets rs).map Prod.snd).filter (fun idxs => decide (1 < idxs.length))

/-- The thread-pool hashing pass over `itertools.chain.from_iterable(multi)`:
each listed record gets `fullhash := hashOf source_path`. -/
def applyHashes (hashOf : String → String) (rs : List Rec) (idxs : List Nat) : List Rec :=
  idxs.foldl (fun rs i => setFullhash rs i (hashOf (getRec rs i).source_path)) rs

/-- `by_full` for one signature group: group the members that have a
non-empty `fullhash` by it (`setdefault` again, skipping falsy hashes). -/
def byFull (rs : List Rec) (idxs : List Nat) : List (String × List Nat) :=
  groupPairs (idxs.filterMap (fun i =>
    if (getRec rs i).fullhash = "" then none else some ((getRec rs i).fullhash, i)))

/-- `min(group)` on a non-empty Python list of indices. -/
def listMin (l : List Nat) : Nat :=
  match l with
  | [] => 0
  | h :: t => t.foldl Nat.min h

/-- Mark every non-keeper of one full-hash group. -/
def markGroup (rs : List Rec) (group : List Nat) : List Rec :=
  group.foldl
    (fun rs j => if j ≠ listMin group then setDupOf rs j (getRec rs (listMin group)).source_path else rs)
    rs

def markMulti (rs : List Rec) (idxs : List Nat) : List Rec :=
  (byFull rs idxs).foldl (fun rs g => markGroup rs g.2) rs

/-- `Planner.stage_full_hash_for_collisions` with the hashing I/O supplied by
`hashOf`. -/
def stage_full_hash_for_collisions (hashOf : String → String) (rs : List Rec) : List Rec :=
  let multi := multiGroups rs
  if multi = [] then rs
  else
    let rs1 := applyHashes hashOf rs (multi.flatMap id)
    multi.foldl (fun rs idxs => markMulti rs idxs) rs1

/-! ## The fail-open fallback record and the run-level record list (C7)

`Planner.run` (core.py 688-722) appends, for every file whose classification
raised and when `BC_FAIL_OPEN` is set, a *minimal* dictionary

```python
rec = {"source_path": str(p), "family": "Other", "subtype": "Unknown",
       "mime": None, "mtime_local": mtime_local, "size": p.stat().st_size,
       "duplicate_of": None, "integrity": "unknown", "notes": "fail-open"}
```

which, unlike the full records from `process_file`, has **no** `"sig"` key
(nor `"fullhash"`, `"dest_path"`, ...).  Python dictionary subscripting of a
missing key raises `KeyError`.  `PyRec` distinguishes the two dictionary
shapes that can reach `self.records`, and `pyRecSig` is the subscript
`r["sig"]` in the `Except` monad, erroring exactly when the key is absent. -/

structure FallbackRec where
  source_path : String
  family : String
  subtype : String
  mtime_local : DateStr
  size : Nat
  integrity : String
  notes : String
deriving DecidableEq, Repr

instance : Inhabited FallbackRec := ⟨⟨"", "", "", DateStr.empty, 0, "", ""⟩⟩

inductive PyRec where
  | full : Rec → PyRec
  | fallback : FallbackRec → PyRec
deriving DecidableEq, Repr

/-- `r["sig"]`: a full record has the key, the fail-open fallback dictionary
does not, so the subscript raises `KeyError: 'sig'`. -/
def pyRecSig (r : PyRec) : Except String String :=
  match r with
  | PyRec.full r => Except.ok r.sig
  | PyRec.fallback _ => Except.error "KeyError: 'sig'"

/-- The first loop of `stage_full_hash_for_collisions` over a record list
that may contain fallback records: `buckets.setdefault(r["sig"], []).append(idx)`.
The `KeyError` from a missing `"sig"` key propagates (nothing in `run`
catches it), aborting the stage and with it the run. -/
def sigBucketsRun (rs : List PyRec) : Except String (List (String × List Nat)) :=
  (List.range rs.length).foldlM
    (fun g i =>
      match pyRecSig ((rs.getD i (PyRec.fallback default))) with
      | Except.error e => Except.error e
      | Except.ok s => Except.ok (addGroup g s i))
    []

def pyRecFull (r : PyRec) : Option Rec :=
  match r with
  | PyRec.full r => some r
  | PyRec.fallback _ => none

/-- `stage_full_hash_for_collisions` at the run level: it begins with the
bucket loop, so a single fallback record in `self.records` makes the whole
stage raise before any hashing or marking happens; a list of full records
proceeds exactly as `stage_full_hash_for_collisions`. -/
def stageFullHashRun (hashOf : String → String) (rs : List PyRec) :
    Except String (List PyRec) :=
  match sigBucketsRun rs with
  | Except.error e => Except.error e
  | Except.ok _buckets =>
    Except.ok ((stage_full_hash_for_collisions hashOf (rs.filterMap pyRecFull)).map PyRec.full)

/-! ## The ExifTool daemon (`exiftoold.py`)

`ExifToolDaemon._worker` (exiftoold.py 106-190) serves one request at a time:
it spawns the subprocess if absent (`FileNotFoundError` when the executable is
missing), writes the argument lines plus an `-echo3 "{ready} <id>"` marker,
then loops reading stdout lines:

```python
out_lines = []
start = time.time()
while True:
    remaining = req.timeout - (time.time() - start)
    if remaining <= 0:
        self._restart(); req.result = (124, "", "timeout"); break
    line = self._proc.stdout.readline()
    if line == "":   # EOF
        self._restart(); req.result = (111, "", "eof"); break
    line = line.rstrip("\r\n")
    if line == ready_token:
        text = "\n".join(out_lines).strip()
        rc = 1 if any(l.lower().startswith("error") for l in out_lines) else 0
        req.result = (rc, text, ""); break
    else:
        out_lines.append(line)
except (BrokenPipeError, OSError): self._restart(); req.result = (32, "", "epipe")
except FileNotFoundError:          req.result = (127, "", "exiftool-not-found")
except Exception as e:             self._restart(); req.result = (1, "", f"exception: {e}")
finally: req.done.set()
```

The embedding drives this loop with an explicit trace of read events.  Each
event carries the *cumulative elapsed time* (an abstract clock value) at
which `readline` returns it; the timeout test at the top of an iteration uses
the time consumed so far, i.e. the arrival time of the previously consumed
event (`0` before the first read).  A trace that runs out while the loop
still wants to read models a `readline` that blocks forever — the loop never
finishes, `req.done` is never set, and the caller blocks.  Times are natural
numbers in an arbitrary unit.

Two points of the exception plumbing are load-bearing:

* `FileNotFoundError` is a subclass of `OSError`, and the
  `except (BrokenPipeError, OSError)` clause comes *first*, so the
  `except FileNotFoundError` clause returning `(127, "", "exiftool-not-found")`
  is dead code.  A failing `self._spawn()` (executable absent) lands in the
  `(BrokenPipeError, OSError)` handler instead.
* every failure status is assigned *after* the preceding `self._restart()`
  returns.  `_restart` calls `_kill()` (which swallows all exceptions) and
  then `_spawn()`, which raises `FileNotFoundError` when the executable is
  absent.  A restart raising inside the `try` block falls into the
  `(BrokenPipeError, OSError)` handler (so the request is reported as
  `(32, "", "epipe")` if the handler's own restart succeeds); a restart
  raising inside an `except` handler propagates: `req.result` is never
  assigned, the `finally` still sets `req.done` — so `call` returns the
  fallback `(1, "", "no-result")` — and the exception escapes `_worker`,
  killing the worker thread.

The outcomes of the successive `_spawn()` attempts made by `_restart()`
during one request (at most two) are an oracle `restarts : Nat → Bool`;
`restarts k = true` means the `k`-th restart attempt of this request
returns normally. -/

/-- A read event on the daemon's stdout: a (already `rstrip`-ped) line
arriving at cumulative elapsed time `t`, end-of-file, an
`OSError`/`BrokenPipeError` raised by the read, or some other exception
(the generic `except Exception` branch). -/
inductive Ev where
  | line : Nat → String → Ev
  | eofEv : Nat → Ev
  | pipeErr : Nat → Ev
  | otherExc : Nat → String → Ev
deriving DecidableEq, Repr

/-- The `-echo3` correlation marker `f"{_READY_PREFIX}{req.req_id}"` with
`_READY_PREFIX = "{ready} "`. -/
def readyMarker (reqId : Nat) : String := "\x7bready\x7d " ++ natStr reqId

/-- `rc = 1 if any(l.lower().startswith("error") for l in out_lines) else 0`. -/
def heuristicRc (outLines : List String) : Int :=
  if outLines.any (fun l => strStarts (strToLower l) "error") then 1 else 0

/-- `"\n".join(out_lines).strip()`. -/
def joinedOutput (outLines : List String) : String :=
  trimStr (joinWith "\n" outLines)

/-- How one request handling ends: `hangs` (the read loop never finishes, so
the `finally` never runs and `req.done` is never set), or `completes slot
restarted` (the `finally` ran: `req.done` is set with the result slot holding
`slot`; `restarted = true` means a `self._restart()` call returned normally —
the subprocess was killed and a fresh one spawned).  `completes none false`
is the escaped-exception ending: the result slot was never assigned (so
`call` returns the `(1, "", "no-result")` fallback) and the exception
propagates out of `_worker`, killing the worker thread. -/
inductive ReqOutcome where
  | hangs : ReqOutcome
  | completes : Option (Int × String × String) → Bool → ReqOutcome
deriving DecidableEq, Repr

/-- `self._restart(); req.result = st` on a failure path *inside the `try`
block* (timeout / EOF).  If the restart returns, `st` is assigned.  If it
raises (`FileNotFoundError ⊂ OSError`), control falls into the
`(BrokenPipeError, OSError)` handler, whose own `self._restart()` either
returns — the request is reported as `(32, "", "epipe")` — or raises again,
escaping with the result slot unset. -/
def restartThen (restarts : Nat → Bool) (st : Int × String × String) : ReqOutcome :=
  if restarts 0 then ReqOutcome.completes (some st) true
  else if restarts 1 then ReqOutcome.completes (some (32, "", "epipe")) true
  else ReqOutcome.completes none false

/-- `self._restart(); req.result = st` *inside an `except` handler* (the
`(BrokenPipeError, OSError)` and generic `Exception` clauses): a raising
restart is not caught by anything, so the result slot stays unset. -/
def handlerRestartThen (restarts : Nat → Bool) (st : Int × String × String) : ReqOutcome :=
  if restarts 0 then ReqOutcome.completes (some st) true
  else ReqOutcome.completes none false

/-- The read loop.  `elapsed` is the time consumed so far (arrival time of
the last consumed event); the loop-top timeout test compares it with the
request timeout *before* the next (blocking) `readline`.  `restarts` is the
oracle for the `_spawn()` attempts made by `self._restart()` on the failure
paths. -/
def readLoop (restarts : Nat → Bool) (timeout : Nat) (ready : String) (elapsed : Nat)
    (acc : List String) : List Ev → ReqOutcome
  | [] => ReqOutcome.hangs
  | ev :: rest =>
    if timeout ≤ elapsed then restartThen restarts (124, "", "timeout")
    else
      match ev with
      | Ev.line t s =>
        if s = ready then
          ReqOutcome.completes (some (heuristicRc acc, joinedOutput acc, "")) false
        else readLoop restarts timeout ready t (acc ++ [s]) rest
      | Ev.eofEv _ => restartThen restarts (111, "", "eof")
      | Ev.pipeErr _ => handlerRestartThen restarts (32, "", "epipe")
      | Ev.otherExc _ msg => handlerRestartThen restarts (1, "", "exception: " ++ msg)

/-- One request served by `_worker`: spawn, write the argument stream, then
the read loop.  A failing spawn raises `FileNotFoundError`, which — being a
subclass of `OSError` — is caught by the `(BrokenPipeError, OSError)` clause,
*not* by the dead `except FileNotFoundError` clause: no 127 status is ever
produced here.  A `BrokenPipeError` during the write lands in the same
handler. -/
def handleRequest (restarts : Nat → Bool) (spawnOk : Bool) (writeFails : Bool)
    (events : List Ev) (timeout : Nat) (reqId : Nat) : ReqOutcome :=
  if ¬ spawnOk then handlerRestartThen restarts (32, "", "epipe")
  else if writeFails then handlerRestartThen restarts (32, "", "epipe")
  else readLoop restarts timeout (readyMarker reqId) 0 [] events

/-- `ExifToolDaemon.call` tail: `return req.result if req.result else
(1, "", "no-result")` — but only after `req.done.wait()` returns, i.e. only
for a completing outcome.  `none` models a call that never returns. -/
def callReturn (o : ReqOutcome) : Option (Int × String × String) :=
  match o with
  | ReqOutcome.hangs => none
  | ReqOutcome.completes slot _ =>
    some (match slot with
          | some r => r
          | none => (1, "", "no-result"))

/-! ### Availability caching (`available()` / `exiftool()`, exiftoold.py 212-237)

```python
def available() -> bool:
    global _available_checked, _available
    if not _available_checked:
        _available_checked = True
        _available = bool(which("exiftool"))
    return _available

def exiftool(args, timeout=20.0):
    if not available():
        return (127, "", "exiftool-not-found")
    return get().call([str(a) for a in args], timeout=timeout)
```

`AvailState` is the pair of module globals; `whichNow : Bool` stands for the
result `bool(which("exiftool"))` would give *at this call* (so a second call
with a different `whichNow` exercises the caching). -/

structure AvailState where
  checked : Bool
  avail : Bool
deriving DecidableEq, Repr

def availableFn (whichNow : Bool) (st : AvailState) : Bool × AvailState :=
  if st.checked then (st.avail, st)
  else (whichNow, ⟨true, whichNow⟩)

/-- What one `exiftool(args)` call does before reaching the daemon:
either the cached 127 short-circuit (no daemon, no spawn) or a dispatch to
`get().call(...)`.  `spawned` records whether the call could cause a
subprocess spawn (only the dispatch path can). -/
structure ExiftoolCallResult where
  shortCircuit : Option (Int × String × String)
  dispatched : Bool
  spawned : Bool
  state : AvailState
deriving DecidableEq, Repr

def exiftoolCall (whichNow : Bool) (st : AvailState) : ExiftoolCallResult :=
  match availableFn whichNow st with
  | (false, st1) => ⟨some (127, "", "exiftool-not-found"), false, false, st1⟩
  | (true, st1) => ⟨none, true, true, st1⟩

/-! ## Bin planning (`Planner.plan_bins`, core.py 348-540)

`plan_bins` first rewrites some families/subtypes (`promote_other_types` and
the camera make/model promotion loop), then groups `ok`-integrity records into
`(family, subtype)` cohorts and plans each cohort's buckets: records with a
resolvable instant are tabulated by year/month/day/minute and greedily merged
(heavy periods recursing one level finer, the fuelled `greedyMerge` above
modelling the non-terminating merge loop), records with no instant are split
into fixed-size path-ordered `undated-NNNN` chunks; finally every bucket
member gets a destination path.

Two pieces of I/O are oracles in `PlanCfg` below:
`genName` stands for `renaming.generate_new_name(src, self.rename, r)` (the
content-aware renamer; an empty string is its falsy "no usable name" result),
and `uniquify` stands for `utils.ensure_unique_path` (which probes the
destination filesystem for collisions and appends ` (n)` to the stem until
the path is free; it always returns a non-empty path for a non-empty
candidate). -/

/-- `image_processing.sanitize_token`: strip, replace every character
outside `[\w\-.+]` by `_`, collapse runs of `_`.  Python's `\w` is
Unicode-aware; it is approximated here by ASCII alphanumerics plus `_`
(nothing in the claims inspects these strings). -/
def isWordLike (c : Char) : Bool := c.isAlphanum || c = '_' || c = '-' || c = '.' || c = '+'

def collapseUAux : Nat → List Char → List Char
  | 0, l => l
  | fuel + 1, l =>
    match l with
    | [] => []
    | '_' :: '_' :: rest => collapseUAux fuel ('_' :: rest)
    | c :: rest => c :: collapseUAux fuel rest

def collapseU (l : List Char) : List Char := collapseUAux l.length l

def sanitizeToken (s : String) : String :=
  ⟨collapseU ((trimStr s).data.map (fun c => if isWordLike c then c else '_'))⟩

/-- `Planner.promote_other_types` (core.py 257-266): an `Other`-family record
whose `type_label` occurs at least `promote_threshold` times among
`Other`-family records is promoted to its own family/subtype. -/
def promoteOtherTypes (thr : Nat) (rs : List Rec) : List Rec :=
  rs.map (fun r =>
    if r.family = "Other" ∧ r.type_label ≠ "" ∧
        thr ≤ (rs.filter (fun q =>
          decide (q.family = "Other") && decide (q.type_label = r.type_label))).length
    then {r with family := r.type_label, subtype := r.type_label}
    else r)

/-- Records counted by `Planner.collect_make_model_counts` (core.py 268-286):
`Images` family, not a ui-cache/preview/screenshot, not already an
`iPhone-*` subtype. -/
def mmCounted (r : Rec) : Bool :=
  decide (r.family = "Images") &&
  !(decide (r.img_kind = "ui-cache") || decide (r.img_kind = "preview") ||
    decide (r.img_kind = "screenshot")) &&
  !(strStarts r.subtype "iPhone-")

def makeCount (rs : List Rec) (mk : String) : Nat :=
  (rs.filter (fun r => mmCounted r && decide (trimStr r.exif_make = mk))).length

def modelCount (rs : List Rec) (mk md : String) : Nat :=
  (rs.filter (fun r =>
    mmCounted r && decide (trimStr r.exif_make = mk) && decide (trimStr r.exif_model = md))).length

/-- The camera make/model and image-kind subtype rewrite at the top of
`plan_bins` (core.py 356-376). -/
def imageSubtypeRewrite (mkThr mdThr : Nat) (rs : List Rec) : List Rec :=
  rs.map (fun r =>
    if r.family ≠ "Images" then r
    else if r.integrity ≠ "ok" then r
    else if r.img_kind = "ui-cache" then {r with subtype := "_ui-cache"}
    else if r.img_kind = "screenshot" then {r with subtype := "_screenshots"}
    else if r.img_kind = "preview" then {r with subtype := "_previews"}
    else if strStarts r.subtype "iPhone-" then r
    else if trimStr r.exif_make ≠ "" ∧ trimStr r.exif_model ≠ "" ∧
        mdThr ≤ modelCount rs (trimStr r.exif_make) (trimStr r.exif_model) then
      {r with subtype :=
        "Camera-Model/" ++ sanitizeToken r.exif_make ++ "_" ++ sanitizeToken r.exif_model}
    else if trimStr r.exif_make ≠ "" ∧ mkThr ≤ makeCount rs (trimStr r.exif_make) then
      {r with subtype := "Camera-Make/" ++ sanitizeToken r.exif_make}
    else r)

/-! ### The dated/unknown split (core.py 401-426) -/

/-- The per-record instant resolution of the split loop: a parsable
`date_local` wins; otherwise, when the record is not flagged undated, a
parsable `mtime_local`; otherwise no instant.  (A non-empty but unparsable
`date_local` yields no instant without consulting `mtime_local`.) -/
def resolvedTs (r : Rec) : Option Ts :=
  match r.date_local with
  | DateStr.good t => some t
  | DateStr.bad _ => none
  | DateStr.empty =>
    if r.undated_flag = 0 then
      match r.mtime_local with
      | DateStr.good t => some t
      | _ => none
    else none

/-- The split loop itself, including its write-back: when the `mtime_local`
fallback fires, `date_source` defaults to `"mtime"` and `date_local` is set
to the `mtime_local` string. -/
def splitStep (acc : List Rec × List (Nat × Ts) × List Nat) (i : Nat) :
    List Rec × List (Nat × Ts) × List Nat :=
  match acc with
  | (rs, dated, unknown) =>
    let r := getRec rs i
    match r.date_local with
    | DateStr.good t => (rs, dated ++ [(i, t)], unknown)
    | DateStr.bad _ => (rs, dated, unknown ++ [i])
    | DateStr.empty =>
      if r.undated_flag = 0 then
        match r.mtime_local with
        | DateStr.good t =>
          let r1 := {r with
            date_source := if r.date_source = "" then "mtime" else r.date_source,
            date_local := r.mtime_local}
          (rs.set i r1, dated ++ [(i, t)], unknown)
        | _ => (rs, dated, unknown ++ [i])
      else (rs, dated, unknown ++ [i])

def splitDated (rs : List Rec) (idxs : List Nat) : List Rec × List (Nat × Ts) × List Nat :=
  idxs.foldl splitStep (rs, [], [])

/-! ### Frequency tables and labels -/

abbrev K2 := Nat × Nat
abbrev K3 := Nat × Nat × Nat
abbrev K5 := Nat × Nat × Nat × Nat × Nat

/-- Lexicographic ≤ on sorted tuple keys (Python tuple comparison). -/
def k2Le (a b : K2) : Bool :=
  decide (a.1 < b.1) || (decide (a.1 = b.1) && decide (a.2 ≤ b.2))

def k3Le (a b : K3) : Bool :=
  decide (a.1 < b.1) || (decide (a.1 = b.1) && k2Le a.2 b.2)

def k4Le (a b : Nat × Nat × Nat × Nat) : Bool :=
  decide (a.1 < b.1) || (decide (a.1 = b.1) && k3Le a.2 b.2)

def k5Le (a b : K5) : Bool :=
  decide (a.1 < b.1) || (decide (a.1 = b.1) && k4Le a.2 b.2)

def yearsTable (ds : List (Nat × Ts)) : List (Nat × List Nat) :=
  groupPairs (ds.map (fun p => (p.2.year, p.1)))

def monthsTable (ds : List (Nat × Ts)) : List (K2 × List Nat) :=
  groupPairs (ds.map (fun p => ((p.2.year, p.2.month), p.1)))

def daysTable (ds : List (Nat × Ts)) : List (K3 × List Nat) :=
  groupPairs (ds.map (fun p => ((p.2.year, p.2.month, p.2.day), p.1)))

def minutesTable (ds : List (Nat × Ts)) : List (K5 × List Nat) :=
  groupPairs (ds.map (fun p => ((p.2.year, p.2.month, p.2.day, p.2.hour, p.2.minute), p.1)))

/-- Dictionary lookup `table[k]` (every use below is on a present key). -/
def glook {κ : Type} [DecidableEq κ] (g : List (κ × List Nat)) (k : κ) : List Nat :=
  ((g.find? (fun e => decide (e.1 = k))).map Prod.snd).getD []

def labelYearRange (y1 y2 : Nat) : String :=
  if y1 = y2 then natStr y1 else natStr y1 ++ "-" ++ natStr y2

def labelMonthRange (y m1 m2 : Nat) : String :=
  if m1 = m2 then padNum 4 y ++ "-" ++ padNum 2 m1
  else padNum 4 y ++ "-" ++ padNum 2 m1 ++ "-" ++ padNum 4 y ++ "-" ++ padNum 2 m2

def labelDayRange (y m d1 d2 : Nat) : String :=
  if d1 = d2 then padNum 4 y ++ "-" ++ padNum 2 m ++ "-" ++ padNum 2 d1
  else padNum 4 y ++ "-" ++ padNum 2 m ++ "-" ++ padNum 2 d1 ++ "-" ++
    padNum 4 y ++ "-" ++ padNum 2 m ++ "-" ++ padNum 2 d2

def labelMinuteRange (y m d h1 mi1 h2 mi2 : Nat) : String :=
  let lhs := padNum 4 y ++ "-" ++ padNum 2 m ++ "-" ++ padNum 2 d ++ "_" ++
    padNum 2 h1 ++ padNum 2 mi1
  if h1 = h2 ∧ mi1 = mi2 then lhs
  else lhs ++ "-" ++ (padNum 4 y ++ "-" ++ padNum 2 m ++ "-" ++ padNum 2 d ++ "_" ++
    padNum 2 h2 ++ padNum 2 mi2)

/-- A cohort-local bucket: `(label, idxs_in_bin)` as appended to `bins_plan`. -/
abbrev LBin := String × List Nat

/-! ### The four granularity levels (core.py 440-528)

Each level iterates its sorted keys keeping a running segment of non-heavy
keys, flushing the segment through `_greedy_merge` when a heavy key (or the
end) is reached; heavy keys recurse one level finer.  At the year level the
heavy years are processed *after* the loop; at month and day level the heavy
key's finer buckets are emitted in place. -/

def sortByPath (rs : List Rec) (l : List Nat) : List Nat :=
  sortBy (fun a b => strLe (getRec rs a).source_path (getRec rs b).source_path) l

/-- One minute-level span: label from first/last minute key, and the
overflow branch (core.py 516-520) that would chunk a span exceeding the cap
(`range(0, len, 0)` raising `ValueError` is modelled as `none`). -/
def minuteSpanBin (cap : Nat) (rs : List Rec) (mnt : List (K5 × List Nat))
    (y m d : Nat) (mkeys : List K5) (p : Nat × Nat) : Option (List LBin) :=
  let k1 := mkeys.getD p.1 default
  let k2 := mkeys.getD (p.2 - 1) default
  let label := labelMinuteRange y m d k1.2.2.2.1 k1.2.2.2.2 k2.2.2.2.1 k2.2.2.2.2
  let members := (slice mkeys p.1 p.2).flatMap (fun k => glook mnt k)
  if cap < members.length then
    if cap = 0 then none
    else
      some ((chunkList cap (sortByPath rs members)).mapIdx
        (fun pi part => (label ++ "-" ++ padNum 3 (pi + 1), part)))
  else some [(label, members)]

/-- Minute granularity for one heavy day (core.py 507-522). -/
def minutePhase (fuel cap : Nat) (rs : List Rec) (ds : List (Nat × Ts))
    (y m d : Nat) : Option (List LBin) :=
  let mnt := minutesTable ds
  let mkeys := sortBy k5Le ((mnt.map Prod.fst).filter
    (fun k => decide (k.1 = y) && decide (k.2.1 = m) && decide (k.2.2.1 = d)))
  match greedyMerge fuel mkeys (fun k => (glook mnt k).length) cap with
  | none => none
  | some spans =>
    spans.foldlM (fun bs p => (minuteSpanBin cap rs mnt y m d mkeys p).map (fun b => bs ++ b)) []

/-- `flush_day_segment` (core.py 494-502). -/
def flushDays (fuel cap : Nat) (dt : List (K3 × List Nat)) (seg : List K3) :
    Option (List LBin) :=
  if seg = [] then some []
  else
    match greedyMerge fuel seg (fun k => (glook dt k).length) cap with
    | none => none
    | some spans =>
      some (spans.map (fun p =>
        (labelDayRange (seg.getD p.1 default).1 (seg.getD p.1 default).2.1
          (seg.getD p.1 default).2.2 (seg.getD (p.2 - 1) default).2.2,
         (slice seg p.1 p.2).flatMap (fun k => glook dt k))))

/-- The day-key loop of one heavy month (core.py 504-525). -/
def dayLoop (fuel cap : Nat) (rs : List Rec) (ds : List (Nat × Ts))
    (dt : List (K3 × List Nat)) : List K3 → List K3 → Option (List LBin)
  | [], seg => flushDays fuel cap dt seg
  | k :: rest, seg =>
    if cap < (glook dt k).length then
      match flushDays fuel cap dt seg with
      | none => none
      | some b1 =>
        match minutePhase fuel cap rs ds k.1 k.2.1 k.2.2 with
        | none => none
        | some b2 =>
          match dayLoop fuel cap rs ds dt rest [] with
          | none => none
          | some b3 => some (b1 ++ b2 ++ b3)
    else dayLoop fuel cap rs ds dt rest (seg ++ [k])

/-- Day granularity for one heavy month (core.py 489-525). -/
def dayPhase (fuel cap : Nat) (rs : List Rec) (ds : List (Nat × Ts)) (y m : Nat) :
    Option (List LBin) :=
  let dt := daysTable ds
  let dkeys := sortBy k3Le ((dt.map Prod.fst).filter
    (fun k => decide (k.1 = y) && decide (k.2.1 = m)))
  dayLoop fuel cap rs ds dt dkeys []

/-- `flush_segment` (core.py 475-483); the label takes the heavy year `y`
and the first/last months of the span. -/
def flushMonths (fuel cap : Nat) (y : Nat) (mt : List (K2 × List Nat)) (seg : List K2) :
    Option (List LBin) :=
  if seg = [] then some []
  else
    match greedyMerge fuel seg (fun k => (glook mt k).length) cap with
    | none => none
    | some spans =>
      some (spans.map (fun p =>
        (labelMonthRange y (seg.getD p.1 default).2 (seg.getD (p.2 - 1) default).2,
         (slice seg p.1 p.2).flatMap (fun k => glook mt k))))

/-- The month-key loop of one heavy year (core.py 485-528). -/
def monthLoop (fuel cap : Nat) (rs : List Rec) (ds : List (Nat × Ts)) (y : Nat)
    (mt : List (K2 × List Nat)) : List K2 → List K2 → Option (List LBin)
  | [], seg => flushMonths fuel cap y mt seg
  | k :: rest, seg =>
    if cap < (glook mt k).length then
      match flushMonths fuel cap y mt seg with
      | none => none
      | some b1 =>
        match dayPhase fuel cap rs ds k.1 k.2 with
        | none => none
        | some b2 =>
          match monthLoop fuel cap rs ds y mt rest [] with
          | none => none
          | some b3 => some (b1 ++ b2 ++ b3)
    else monthLoop fuel cap rs ds y mt rest (seg ++ [k])

/-- Month granularity for one heavy year (core.py 469-528). -/
def monthPhase (fuel cap : Nat) (rs : List Rec) (ds : List (Nat × Ts)) (y : Nat) :
    Option (List LBin) :=
  let mt := monthsTable ds
  let mkeys := sortBy k2Le ((mt.map Prod.fst).filter (fun k => decide (k.1 = y)))
  monthLoop fuel cap rs ds y mt mkeys []

/-- `if run: ...` flush of a run of light years (core.py 447-467). -/
def flushYears (fuel cap : Nat) (yt : List (Nat × List Nat)) (run : List Nat) :
    Option (List LBin) :=
  if run = [] then some []
  else
    match greedyMerge fuel run (fun y => (glook yt y).length) cap with
    | none => none
    | some spans =>
      some (spans.map (fun p =>
        (labelYearRange (run.getD p.1 0) (run.getD (p.2 - 1) 0),
         (slice run p.1 p.2).flatMap (fun y => glook yt y))))

/-- The year loop (core.py 444-467): light years accumulate into `run`,
a heavy year flushes the run (heavy years themselves are handled after the
loop). -/
def yearRunLoop (fuel cap : Nat) (yt : List (Nat × List Nat)) :
    List Nat → List Nat → Option (List LBin)
  | [], run => flushYears fuel cap yt run
  | y :: rest, run =>
    if cap < (glook yt y).length then
      match flushYears fuel cap yt run with
      | none => none
      | some b1 =>
        match yearRunLoop fuel cap yt rest [] with
        | none => none
        | some b2 => some (b1 ++ b2)
    else yearRunLoop fuel cap yt rest (run ++ [y])

/-- `for y in sorted(heavy_years): ...` (core.py 469).  The heavy years are
passed as the (already ascending, duplicate-free) filter of the sorted year
keys. -/
def heavyYearsLoop (fuel cap : Nat) (rs : List Rec) (ds : List (Nat × Ts)) :
    List Nat → Option (List LBin)
  | [] => some []
  | y :: rest =>
    match monthPhase fuel cap rs ds y with
    | none => none
    | some b1 =>
      match heavyYearsLoop fuel cap rs ds rest with
      | none => none
      | some b2 => some (b1 ++ b2)

/-- All dated buckets of one cohort. -/
def datedBins (fuel cap : Nat) (rs : List Rec) (ds : List (Nat × Ts)) :
    Option (List LBin) :=
  let yt := yearsTable ds
  let ykeys := sortBy (fun a b => decide (a ≤ b)) (yt.map Prod.fst)
  match yearRunLoop fuel cap yt ykeys [] with
  | none => none
  | some b1 =>
    match heavyYearsLoop fuel cap rs ds
        (ykeys.filter (fun y => decide (cap < (glook yt y).length))) with
    | none => none
    | some b2 => some (b1 ++ b2)

/-- The undated chunks (core.py 530-534): path-sorted fixed-size chunks
labelled `undated-NNNN` (`range(0, len, 0)` raising `ValueError` for a
non-empty list is modelled as `none`). -/
def undatedBins (cap : Nat) (unknownS : List Nat) : Option (List LBin) :=
  if unknownS = [] then some []
  else if cap = 0 then none
  else some ((chunkList cap unknownS).mapIdx
    (fun i part => ("undated-" ++ padNum 4 (i + 1), part)))

/-- One cohort's plan (core.py 398-534, before destination assignment):
the updated record list (date write-backs) and `bins_plan`. -/
def planCohort (fuel cap : Nat) (rs : List Rec) (idxs : List Nat) :
    Option (List Rec × List LBin) :=
  match splitDated rs idxs with
  | (rs1, dated0, unknown0) =>
    let datedS := sortBy (fun a b => tsLeB a.2 b.2) dated0
    let unknownS := sortBy
      (fun a b => strLe (getRec rs1 a).source_path (getRec rs1 b).source_path) unknown0
    match datedBins fuel cap rs1 datedS with
    | none => none
    | some db =>
      match undatedBins cap unknownS with
      | none => none
      | some ub => some (rs1, db ++ ub)

/-! ### Destination assignment (core.py 290-311 and 536-540) -/

/-- `str.lstrip(".")`. -/
def stripDots (s : String) : String := ⟨s.data.dropWhile (fun c => c = '.')⟩

/-- `Path(s).name`: the final path component. -/
def pathBasename (s : String) : String := (splitChar '/' s).getLastD s

/-- `Path(s).suffix`: the (dotted) extension of the final component, empty
for a bare name, a trailing dot, or a leading-dot-only hidden file. -/
def pathSuffix (s : String) : String :=
  let base := pathBasename s
  let parts := splitChar '.' base
  if parts.length ≤ 1 then ""
  else if (parts.headD "") = "" ∧ parts.length = 2 then ""
  else
    let ext := parts.getLastD ""
    if ext = "" then "" else "." ++ ext

/-- `Planner._dest_filename` (core.py 290-304).  `genName` is the
`renaming.generate_new_name` oracle; its empty string is Python's falsy
`None`/`""` result, after which the original name (with a guessed extension
appended when the source had none) is used. -/
def destFilename (rename : String) (genName : Rec → String) (r : Rec) : String :=
  if rename ≠ "none" ∧ genName r ≠ "" then genName r
  else
    let srcExt := stripDots (strToLower (pathSuffix r.source_path))
    let name := pathBasename r.source_path
    if srcExt = "" ∧ r.guessed_ext ≠ "" then
      if ¬ (strEnds name ("." ++ r.guessed_ext) = true) then name ++ "." ++ r.guessed_ext else name
    else name

/-- `Planner._assign_dest` (core.py 306-311): `dest_path := ensure_unique_path
(bin_dir / dest_name)`, with `uniquify` the `ensure_unique_path` oracle. -/
def assignDest (uniquify : String → String) (rename : String) (genName : Rec → String)
    (rs : List Rec) (i : Nat) (binDir : String) : List Rec :=
  rs.set i {getRec rs i with
    dest_path := uniquify (binDir ++ "/" ++ destFilename rename genName (getRec rs i))}

/-- The assignment loop (core.py 536-540): buckets in label order, members in
source-path order. -/
def assignDests (uniquify : String → String) (rename : String) (genName : Rec → String)
    (dest fam st : String) (rs : List Rec) (bins : List LBin) : List Rec :=
  (sortBy (fun a b => strLe a.1 b.1) bins).foldl
    (fun rs b =>
      (sortByPath rs b.2).foldl
        (fun rs i => assignDest uniquify rename genName rs i (dest ++ "/" ++ fam ++ "/" ++ st ++ "/" ++ b.1))
        rs)
    rs

/-! ### `plan_bins` top level (core.py 389-540) -/

structure PlanCfg where
  dest : String
  max_per_bin : Nat
  rename : String
  promote_threshold : Nat
  promote_make_threshold : Nat
  promote_model_threshold : Nat
  genName : Rec → String
  uniquify : String → String

/-- A planned bucket with its cohort. -/
structure Bin where
  family : String
  subtype : String
  label : String
  members : List Nat
deriving DecidableEq, Repr

/-- The `(family, subtype) → [idx]` cohort pairs of `ok`-integrity records
(core.py 389-394). -/
def cohortPairs (rs : List Rec) : List ((String × String) × Nat) :=
  (List.range rs.length).filterMap (fun i =>
    if (getRec rs i).integrity = "ok"
    then some (((getRec rs i).family, (getRec rs i).subtype), i)
    else none)

/-- The per-cohort loop (core.py 398-540): plan the cohort, assign its
destinations, continue with the next cohort on the updated records. -/
def cohortsLoop (fuel : Nat) (cfg : PlanCfg) :
    List ((String × String) × List Nat) → List Rec → Option (List Rec × List Bin)
  | [], rs => some (rs, [])
  | (k, idxs) :: rest, rs =>
    match planCohort fuel cfg.max_per_bin rs idxs with
    | none => none
    | some (rs1, binsPlan) =>
      let rs2 := assignDests cfg.uniquify cfg.rename cfg.genName cfg.dest k.1 k.2 rs1 binsPlan
      match cohortsLoop fuel cfg rest rs2 with
      | none => none
      | some (rsF, binsF) =>
        some (rsF, (binsPlan.map (fun b => Bin.mk k.1 k.2 b.1 b.2)) ++ binsF)

/-- `Planner.plan_bins`: subtype rewriting, cohort grouping, per-cohort
planning and destination assignment.  `none` models a run on which the
source never terminates (or raises `ValueError` from a zero cap). -/
def planBins (fuel : Nat) (cfg : PlanCfg) (rs : List Rec) : Option (List Rec × List Bin) :=
  let rs1 := promoteOtherTypes cfg.promote_threshold rs
  let rs2 := imageSubtypeRewrite cfg.promote_make_threshold cfg.promote_model_threshold rs1
  cohortsLoop fuel cfg (groupPairs (cohortPairs rs2)) rs2

/-! ## Claim C7: the fail-open fallback record crashes the dedup stage -/

/-- A successfully classified record, as `process_file` would produce it. -/
def okRec0 : Rec :=
  { source_path := "/carved/f0000001.jpg", family := "Images", subtype := "JPG",
    size_bytes := 2048, mtime_local := DateStr.empty, integrity := "ok",
    undated_flag := 1, date_source := "", date_local := DateStr.empty,
    sig := "2048:aa:bb", fullhash := "", duplicate_of := "", dest_path := "",
    guessed_ext := "", type_label := "", img_kind := "", exif_make := "",
    exif_model := "" }

/-- The minimal fail-open dictionary of `Planner.run` (core.py 706-716) for a
file whose classification raised. -/
def fallbackRec0 : FallbackRec :=
  { source_path := "/carved/f0000002.bin", family := "Other", subtype := "Unknown",
    mtime_local := DateStr.empty, size := 512, integrity := "unknown",
    notes := "fail-open" }

/-! ## Claims C4 and C5: deduplication marking -/

/-- Two carved files with identical content (same signature, same full
hash), in the two append orders a worker-completion race can produce. -/
def recA : Rec :=
  { source_path := "/carved/a.jpg", family := "Images", subtype := "JPG",
    size_bytes := 100, mtime_local := DateStr.empty, integrity := "ok",
    undated_flag := 1, date_source := "", date_local := DateStr.empty,
    sig := "100:h:t", fullhash := "", duplicate_of := "", dest_path := "",
    guessed_ext := "", type_label := "", img_kind := "", exif_make := "",
    exif_model := "" }

def recB : Rec := { recA with source_path := "/carved/b.jpg" }

/-- The signature class of record `i`: all indices whose record has the same
`sig` (ascending, since it filters `range`). -/
def sigClassOf (rs : List Rec) (i : Nat) : List Nat :=
  (List.range rs.length).filter (fun j => decide ((getRec rs j).sig = (getRec rs i).sig))

/-- The full-hash group of record `i`: the members of its signature class
whose files hash identically under the oracle. -/
def hashGroupOf (hashOf : String → String) (rs : List Rec) (i : Nat) : List Nat :=
  (sigClassOf rs i).filter
    (fun j => decide (hashOf (getRec rs j).source_path = hashOf (getRec rs i).source_path))

/-- The full-hash group of `j` inside its signature group, as the marking
pass sees it: the members of `L` with the same stored `fullhash` as `j`. -/
def fhGroup (rs : List Rec) (L : List Nat) (j : Nat) : List Nat :=
  L.filter (fun i => decide ((getRec rs i).fullhash = (getRec rs j).fullhash))

/-- A string that is non-empty and starts with a digit; stable under
appending on the right. -/
def digitHeaded (s : String) : Prop := s.data ≠ [] ∧ (headChar s).isDigit = true

/-! ## `plan_bins` top level, and none-propagation through the phases -/

/-- The record list that `plan_bins` groups and plans: the input after
`promote_other_types` and the camera/image-kind subtype rewrite. -/
def planRecs (cfg : PlanCfg) (rs : List Rec) : List Rec :=
  imageSubtypeRewrite cfg.promote_make_threshold cfg.promote_model_threshold
    (promoteOtherTypes cfg.promote_threshold rs)

/-! ## Claim C2: a single over-cap minute makes `plan_bins` hang -/

def tsMin : Ts := ⟨2020, 1, 1, 10, 30, 0⟩

/-- An `ok` image record carrying a parsed EXIF instant `tsMin`. -/
def recD (p : String) : Rec :=
  { source_path := p, family := "Images", subtype := "JPG",
    size_bytes := 100, mtime_local := DateStr.empty, integrity := "ok",
    undated_flag := 0, date_source := "exif", date_local := DateStr.good tsMin,
    sig := "s", fullhash := "", duplicate_of := "", dest_path := "",
    guessed_ext := "", type_label := "", img_kind := "", exif_make := "",
    exif_model := "" }

def recD1 : Rec := recD "/x/a.jpg"

def recD2 : Rec := recD "/x/b.jpg"

def cfgC2 : PlanCfg :=
  { dest := "/out", max_per_bin := 1, rename := "none", promote_threshold := 3,
    promote_make_threshold := 3, promote_model_threshold := 3,
    genName := fun _ => "", uniquify := fun s => s }

/-! ## Claim C1: the cap invariant, and the unreachable overflow chunking -/

def cfgC1 : PlanCfg := { cfgC2 with max_per_bin := 2 }

/-! ## Claims C3, C8, C9: partition, undated buckets, destinations -/

/-- An `ok` record with no resolvable instant (empty `date_local`, empty
`mtime_local`). -/
def recU : Rec :=
  { source_path := "/x/u.bin", family := "Images", subtype := "JPG",
    size_bytes := 5, mtime_local := DateStr.empty, integrity := "ok",
    undated_flag := 0, date_source := "", date_local := DateStr.empty,
    sig := "u", fullhash := "", duplicate_of := "", dest_path := "",
    guessed_ext := "", type_label := "", img_kind := "", exif_make := "",
    exif_model := "" }

/-- A record that failed its integrity check. -/
def recN : Rec := { recU with source_path := "/x/n.bin", integrity := "corrupt" }


theorem natDigitsAux_spec (fuel : Nat) : ∀ n, fuel ≠ 0 →
    natDigitsAux fuel n ≠ [] ∧
      (natDigitsAux fuel n).headD ' ' ∈ (List.range 10).map (fun d => Char.ofNat (48 + d)) := by
  induction fuel with
  | zero => intro n h; exact absurd rfl h
  | succ fuel ih =>
    intro n _
    simp only [natDigitsAux]
    split
    · rename_i h
      refine ⟨by simp, ?_⟩
      simp only [List.headD, List.mem_map, List.mem_range]
      exact ⟨n, h, rfl⟩
    · cases hfuel : fuel with
      | zero =>
        subst hfuel
        simp only [natDigitsAux, List.nil_append]
        exact ⟨by simp, by
          simp only [List.headD, List.mem_map, List.mem_range]
          exact ⟨n % 10, Nat.mod_lt n (by omega), rfl⟩⟩
      | succ m =>
        have hrec := ih (n / 10) (by omega)
        obtain ⟨hne, hd⟩ := hrec
        rw [hfuel] at hne hd
        cases hx : natDigitsAux (m + 1) (n / 10) with
        | nil => exact absurd hx hne
        | cons c t =>
          rw [hx] at hd
          refine ⟨by simp, ?_⟩
          simpa using hd

theorem natDigits_ne_nil (n : Nat) : natDigits n ≠ [] :=
  (natDigitsAux_spec (n + 1) n (by omega)).1

theorem natDigits_head_digit (n : Nat) :
    (natDigits n).headD ' ' ∈ (List.range 10).map (fun d => Char.ofNat (48 + d)) :=
  (natDigitsAux_spec (n + 1) n (by omega)).2

/-- Every decimal rendering starts with an ASCII digit. -/
theorem headChar_natStr_isDigit (n : Nat) : (headChar (natStr n)).isDigit = true := by
  have h := natDigits_head_digit n
  simp only [List.mem_map, List.mem_range] at h
  obtain ⟨d, hd, hc⟩ := h
  have : headChar (natStr n) = Char.ofNat (48 + d) := by
    simp only [headChar, natStr]
    cases hx : natDigits n with
    | nil => exact absurd hx (natDigits_ne_nil n)
    | cons c t =>
      rw [hx] at hc
      simpa [String.data] using hc.symm
  rw [this]
  interval_cases d <;> decide

theorem headChar_padNum_isDigit (w n : Nat) : (headChar (padNum w n)).isDigit = true := by
  simp only [headChar, padNum]
  cases hk : w - (natDigits n).length with
  | zero =>
    simp only [hk, List.replicate, List.nil_append]
    have := headChar_natStr_isDigit n
    simpa [headChar, natStr] using this
  | succ k =>
    simp only [hk, List.replicate, List.cons_append, List.headD]
    decide

theorem sInsert_perm {α : Type} (le : α → α → Bool) (a : α) :
    ∀ l : List α, (sInsert le a l).Perm (a :: l) := by
  intro l
  induction l with
  | nil => simp [sInsert]
  | cons b t ih =>
    simp only [sInsert]
    split
    · exact List.Perm.refl _
    · exact (ih.cons b).trans (List.Perm.swap a b t)

theorem sortBy_perm {α : Type} (le : α → α → Bool) (l : List α) :
    (sortBy le l).Perm l := by
  induction l with
  | nil => exact List.Perm.refl _
  | cons a t ih =>
    simp only [sortBy]
    exact (sInsert_perm le a (sortBy le t)).trans (ih.cons a)

theorem sInsert_pairwise {α : Type} (le : α → α → Bool)
    (htot : ∀ x y, le x y = false → le y x = true)
    (htrans : ∀ x y z, le x y = true → le y z = true → le x z = true)
    (a : α) : ∀ l : List α, List.Pairwise (fun x y => le x y = true) l →
      List.Pairwise (fun x y => le x y = true) (sInsert le a l) := by
  intro l
  induction l with
  | nil => intro _; simp [sInsert]
  | cons b t ih =>
    intro hp
    rcases List.pairwise_cons.mp hp with ⟨hb, ht⟩
    simp only [sInsert]
    split
    · rename_i hab
      refine List.pairwise_cons.mpr ⟨?_, hp⟩
      intro x hx
      rcases List.mem_cons.mp hx with rfl | hx
      · exact hab
      · exact htrans a b x hab (hb x hx)
    · rename_i hab
      have hab2 : le a b = false := by
        revert hab
        cases le a b <;> simp
      refine List.pairwise_cons.mpr ⟨?_, ih ht⟩
      intro x hx
      have hx2 := (sInsert_perm le a t).mem_iff.mp hx
      rcases List.mem_cons.mp hx2 with rfl | hx2
      · exact htot _ _ hab2
      · exact hb x hx2

theorem sortBy_pairwise {α : Type} (le : α → α → Bool)
    (htot : ∀ x y, le x y = false → le y x = true)
    (htrans : ∀ x y z, le x y = true → le y z = true → le x z = true)
    (l : List α) : List.Pairwise (fun x y => le x y = true) (sortBy le l) := by
  induction l with
  | nil => simp [sortBy]
  | cons a t ih => exact sInsert_pairwise le htot htrans a (sortBy le t) ih

/-! ## Insertion-ordered grouping (`dict.setdefault(key, []).append(value)`)

Every grouping step of the source — signature buckets, `by_full` sub-groups,
the `(family, subtype)` cohorts, and the `years` / `months` / `days` /
`minutes` frequency tables — is a Python loop of the form
`d.setdefault(k, []).append(v)` over a list of key/value pairs.  `groupPairs`
is that loop: an association list in key-first-occurrence order, each key
paired with its values in traversal order. -/

section Grouping

variable {κ : Type} [DecidableEq κ] {α : Type}

theorem addGroup_keys (g : List (κ × List α)) (k : κ) (v : α) :
    (addGroup g k v).map Prod.fst =
      if k ∈ g.map Prod.fst then g.map Prod.fst else g.map Prod.fst ++ [k] := by
  induction g with
  | nil => simp [addGroup]
  | cons p t ih =>
    obtain ⟨k', l⟩ := p
    by_cases hk : k = k'
    · subst hk
      simp [addGroup]
    · simp only [addGroup, if_neg hk, List.map_cons, ih]
      have : (k ∈ k' :: t.map Prod.fst) ↔ (k ∈ t.map Prod.fst) := by
        simp [List.mem_cons, hk]
      by_cases hm : k ∈ t.map Prod.fst
      · simp [hm, this]
      · simp [hm, this, hk]

/-- Membership in `addGroup g k v`, assuming duplicate-free keys: an untouched
entry with a different key, a fresh `(k, [v])` entry, or the unique entry for
`k` with `v` appended. -/
theorem addGroup_mem {g : List (κ × List α)} (hnd : (g.map Prod.fst).Nodup)
    {k : κ} {v : α} {e : κ × List α} (he : e ∈ addGroup g k v) :
    (e ∈ g ∧ e.1 ≠ k) ∨ (k ∉ g.map Prod.fst ∧ e = (k, [v])) ∨
      (∃ l, (k, l) ∈ g ∧ e = (k, l ++ [v])) := by
  revert hnd he
  induction g with
  | nil =>
    intro _ he
    simp only [addGroup, List.mem_singleton] at he
    exact Or.inr (Or.inl ⟨by simp, he⟩)
  | cons q t ih =>
    intro hnd he
    obtain ⟨k', l⟩ := q
    simp only [List.map_cons, List.nodup_cons] at hnd
    by_cases hk : k = k'
    · subst hk
      simp only [addGroup, if_pos rfl] at he
      cases he with
      | head => exact Or.inr (Or.inr ⟨l, List.mem_cons_self _ _, rfl⟩)
      | tail _ hmem =>
        -- e is an entry of t; its key differs from k since k ∉ keys of t
        refine Or.inl ⟨List.mem_cons_of_mem _ hmem, ?_⟩
        intro hek
        exact hnd.1 (hek ▸ List.mem_map_of_mem Prod.fst hmem)
    · simp only [addGroup, if_neg hk] at he
      cases he with
      | head => exact Or.inl ⟨List.mem_cons_self _ _, fun h => hk h.symm⟩
      | tail _ hmem =>
        rcases ih hnd.2 hmem with h | h | h
        · exact Or.inl ⟨List.mem_cons_of_mem _ h.1, h.2⟩
        · refine Or.inr (Or.inl ⟨?_, h.2⟩)
          simp only [List.map_cons, List.mem_cons]
          rintro (rfl | hm)
          · exact hk rfl
          · exact h.1 hm
        · obtain ⟨l', hl', he'⟩ := h
          exact Or.inr (Or.inr ⟨l', List.mem_cons_of_mem _ hl', he'⟩)

theorem groupInv_addGroup {done : List (κ × α)} {g : List (κ × List α)}
    (h : GroupInv done g) (p : κ × α) :
    GroupInv (done ++ [p]) (addGroup g p.1 p.2) := by
  obtain ⟨hnd, hval, hcov, hsrc⟩ := h
  have hkeys := addGroup_keys g p.1 p.2
  refine ⟨?_, ?_, ?_, ?_⟩
  · rw [hkeys]
    split
    · exact hnd
    · rename_i hnotin
      rw [List.nodup_append]
      refine ⟨hnd, by simp, ?_⟩
      intro a ha hb
      simp only [List.mem_singleton] at hb
      subst hb
      exact hnotin ha
  · intro e he
    rcases addGroup_mem hnd he with ⟨heg, hne⟩ | ⟨hnm, rfl⟩ | ⟨l, hlg, rfl⟩
    · rw [hval e heg, List.filter_append]
      have hpe : (decide (p.1 = e.1)) = false := decide_eq_false (fun h => hne h.symm)
      simp [List.filter, hpe]
    · have : done.filter (fun q => decide (q.1 = p.1)) = [] := by
        rw [List.filter_eq_nil_iff]
        intro q hq hq1
        simp only [decide_eq_true_eq] at hq1
        exact hnm (hq1 ▸ hcov q hq)
      simp [List.filter_append, this, List.filter]
    · have := hval (p.1, l) hlg
      simp only at this
      simp [List.filter_append, List.filter, this]
  · intro q hq
    rw [hkeys]
    rcases List.mem_append.mp hq with hq | hq
    · have := hcov q hq
      split
      · exact this
      · exact List.mem_append_left _ this
    · simp only [List.mem_singleton] at hq
      subst hq
      split
      · assumption
      · simp
  · intro e he
    rcases addGroup_mem hnd he with ⟨heg, _⟩ | ⟨_, rfl⟩ | ⟨l, hlg, rfl⟩
    · rw [List.map_append]
      exact List.mem_append_left _ (hsrc e heg)
    · simp
    · simp

theorem groupInv_foldl (ps : List (κ × α)) :
    ∀ (done : List (κ × α)) (g : List (κ × List α)), GroupInv done g →
      GroupInv (done ++ ps) (ps.foldl (fun g p => addGroup g p.1 p.2) g) := by
  induction ps with
  | nil => intro done g h; simpa using h
  | cons p t ih =>
    intro done g h
    have h1 := groupInv_addGroup h p
    have h2 := ih (done ++ [p]) _ h1
    simpa using h2

theorem groupPairs_inv (ps : List (κ × α)) : GroupInv ps (groupPairs ps) := by
  have := groupInv_foldl ps [] [] ⟨by simp, by simp, by simp, by simp⟩
  simpa [groupPairs] using this

theorem groupPairs_keys_nodup (ps : List (κ × α)) :
    ((groupPairs ps).map Prod.fst).Nodup := (groupPairs_inv ps).1

theorem groupPairs_val {ps : List (κ × α)} {e : κ × List α} (he : e ∈ groupPairs ps) :
    e.2 = (ps.filter (fun p => decide (p.1 = e.1))).map Prod.snd :=
  (groupPairs_inv ps).2.1 e he

theorem groupPairs_covers {ps : List (κ × α)} {p : κ × α} (hp : p ∈ ps) :
    p.1 ∈ (groupPairs ps).map Prod.fst := (groupPairs_inv ps).2.2.1 p hp

theorem groupPairs_keys_sub {ps : List (κ × α)} {e : κ × List α} (he : e ∈ groupPairs ps) :
    e.1 ∈ ps.map Prod.fst := (groupPairs_inv ps).2.2.2 e he

theorem flatMap_congr_mem {β γ : Type} {l : List β} {f g : β → List γ}
    (h : ∀ x ∈ l, f x = g x) : l.flatMap f = l.flatMap g := by
  induction l with
  | nil => rfl
  | cons a t ih =>
    simp only [List.flatMap_cons]
    rw [h a (List.mem_cons_self a t), ih (fun x hx => h x (List.mem_cons_of_mem a hx))]

/-- Fibre decomposition: if `keys` is duplicate-free and covers the keys of
all elements of `l`, then concatenating, over the keys satisfying `q`, the
sub-list of `l` with that key is a permutation of the sub-list of `l` whose
key satisfies `q`. -/
theorem fiber_flat {β : Type} (key : β → κ) (q : κ → Bool) :
    ∀ (keys : List κ) (l : List β), keys.Nodup → (∀ x ∈ l, key x ∈ keys) →
      ((keys.filter q).flatMap (fun k => l.filter (fun x => decide (key x = k)))).Perm
        (l.filter (fun x => q (key x))) := by
  intro keys
  induction keys with
  | nil =>
    intro l _ hcov
    have : l = [] := List.eq_nil_iff_forall_not_mem.mpr (fun x hx => by simpa using hcov x hx)
    simp [this]
  | cons k rest ih =>
    intro l hnd hcov
    simp only [List.nodup_cons] at hnd
    have hsplit : (l.filter (fun x => decide (key x = k)) ++
        l.filter (fun x => !decide (key x = k))).Perm l := List.filter_append_perm _ l
    set l1 := l.filter (fun x => decide (key x = k)) with hl1
    set l2 := l.filter (fun x => !decide (key x = k)) with hl2
    have hcov2 : ∀ x ∈ l2, key x ∈ rest := by
      intro x hx
      rw [hl2, List.mem_filter] at hx
      have := hcov x hx.1
      simp only [List.mem_cons] at this
      rcases this with h | h
      · exfalso; simp [h] at hx
      · exact h
    have hrest : ∀ k' ∈ rest, l.filter (fun x => decide (key x = k')) =
        l2.filter (fun x => decide (key x = k')) := by
      intro k' hk'
      rw [hl2, List.filter_filter]
      apply List.filter_congr
      intro x hx
      by_cases h : key x = k'
      · have hxk : key x ≠ k := by
          intro hc
          apply hnd.1
          rw [← h, hc] at hk'
          exact hk'
        have hk'k : ¬k' = k := by
          intro hc
          exact hnd.1 (hc ▸ hk')
        simp [h, hxk, hk'k]
      · simp [h]
    have hflat2 : ((rest.filter q).flatMap (fun k' => l.filter (fun x => decide (key x = k')))) =
        ((rest.filter q).flatMap (fun k' => l2.filter (fun x => decide (key x = k')))) := by
      apply flatMap_congr_mem
      intro k' hk'
      exact hrest k' (List.mem_of_mem_filter hk')
    have ih2 := ih l2 hnd.2 hcov2
    have hl1q : l1.filter (fun x => q (key x)) = if q k then l1 else [] := by
      split
      · rename_i hq
        apply List.filter_eq_self.mpr
        intro x hx
        rw [hl1, List.mem_filter] at hx
        have : key x = k := by simpa using hx.2
        simp [this, hq]
      · rename_i hq
        apply List.filter_eq_nil_iff.mpr
        intro x hx
        rw [hl1, List.mem_filter] at hx
        have : key x = k := by simpa using hx.2
        simp [this, hq]
    have hstep : ((k :: rest).filter q).flatMap (fun k' => l.filter (fun x => decide (key x = k'))) =
        (if q k then l1 else []) ++
          ((rest.filter q).flatMap (fun k' => l2.filter (fun x => decide (key x = k')))) := by
      rw [← hflat2]
      by_cases hq : q k <;> simp [List.filter, hq, hl1]
    have h2 : ((if q k then l1 else []) ++
          ((rest.filter q).flatMap (fun k' => l2.filter (fun x => decide (key x = k'))))).Perm
        ((if q k then l1 else []) ++ l2.filter (fun x => q (key x))) :=
      List.Perm.append_left _ ih2
    have h4 : (l1.filter (fun x => q (key x)) ++ l2.filter (fun x => q (key x))).Perm
        (l.filter (fun x => q (key x))) := by
      have := (hsplit.filter (fun x => q (key x)))
      simpa [List.filter_append] using this
    have h5 : ((if q k then l1 else []) ++ l2.filter (fun x => q (key x))).Perm
        (l.filter (fun x => q (key x))) := by
      rw [hl1q] at h4
      exact h4
    rw [hstep]
    exact h2.trans h5

/-- Concatenating all the value lists of `groupPairs ps` permutes the values
of `ps`. -/
theorem groupPairs_flat (ps : List (κ × α)) :
    ((groupPairs ps).flatMap Prod.snd).Perm (ps.map Prod.snd) := by
  have h1 : (groupPairs ps).flatMap Prod.snd =
      (groupPairs ps).flatMap (fun e => (ps.filter (fun p => decide (p.1 = e.1))).map Prod.snd) :=
    flatMap_congr_mem (fun e he => groupPairs_val he)
  have h2 : (groupPairs ps).flatMap (fun e => (ps.filter (fun p => decide (p.1 = e.1))).map Prod.snd) =
      ((groupPairs ps).map Prod.fst).flatMap (fun k => (ps.filter (fun p => decide (p.1 = k))).map Prod.snd) := by
    rw [List.flatMap_map]
  have h3 : ((groupPairs ps).map Prod.fst).flatMap (fun k => (ps.filter (fun p => decide (p.1 = k))).map Prod.snd) =
      (((groupPairs ps).map Prod.fst).flatMap (fun k => ps.filter (fun p => decide (p.1 = k)))).map Prod.snd := by
    rw [List.map_flatMap]
  have h4 := fiber_flat (β := κ × α) Prod.fst (fun _ => true)
    ((groupPairs ps).map Prod.fst) ps (groupPairs_keys_nodup ps)
    (fun p hp => groupPairs_covers hp)
  simp only [List.filter_true] at h4
  rw [h1, h2, h3]
  exact h4.map Prod.snd

end Grouping

theorem slice_append_drop {α : Type} (l : List α) (s e : Nat) (hse : s ≤ e) (he : e ≤ l.length) :
    slice l s e ++ l.drop e = l.drop s := by
  have h1 : (l.drop s).take (e - s) ++ (l.drop s).drop (e - s) = l.drop s :=
    List.take_append_drop _ _
  rw [List.drop_drop] at h1
  have : s + (e - s) = e := by omega
  rw [this] at h1
  exact h1

theorem chunkListAux_flatten {α : Type} (cap : Nat) (hcap : 0 < cap) :
    ∀ (fuel : Nat) (l : List α), l.length ≤ fuel → (chunkListAux cap fuel l).flatMap id = l := by
  intro fuel
  induction fuel with
  | zero =>
    intro l hl
    have : l = [] := List.eq_nil_of_length_eq_zero (by omega)
    subst this
    simp [chunkListAux]
  | succ fuel ih =>
    intro l hl
    simp only [chunkListAux]
    split
    · rename_i h
      rcases h with h | h
      · omega
      · have : l = [] := List.eq_nil_of_length_eq_zero h
        simp [this]
    · rename_i h
      push_neg at h
      have h1 : 0 < l.length := Nat.pos_of_ne_zero h.2
      have hlen : (l.drop cap).length ≤ fuel := by
        rw [List.length_drop]; omega
      simp only [List.flatMap_cons, id]
      rw [ih _ hlen, List.take_append_drop]

theorem chunkList_flatten {α : Type} (cap : Nat) (hcap : 0 < cap) (l : List α) :
    (chunkList cap l).flatMap id = l :=
  chunkListAux_flatten cap hcap l.length l le_rfl

theorem chunkListAux_sizes {α : Type} (cap : Nat) :
    ∀ (fuel : Nat) (l : List α), ∀ c ∈ chunkListAux cap fuel l, c.length ≤ cap := by
  intro fuel
  induction fuel with
  | zero => intro l c hc; simp [chunkListAux] at hc
  | succ fuel ih =>
    intro l c hc
    simp only [chunkListAux] at hc
    split at hc
    · simp at hc
    · rcases List.mem_cons.mp hc with rfl | hc
      · exact List.length_take_le cap l
      · exact ih _ c hc

theorem chunkList_sizes {α : Type} (cap : Nat) (l : List α) :
    ∀ c ∈ chunkList cap l, c.length ≤ cap :=
  chunkListAux_sizes cap l.length l

theorem chunkListAux_mem_sublist {α : Type} (cap : Nat) :
    ∀ (fuel : Nat) (l : List α), ∀ c ∈ chunkListAux cap fuel l, c.Sublist l := by
  intro fuel
  induction fuel with
  | zero => intro l c hc; simp [chunkListAux] at hc
  | succ fuel ih =>
    intro l c hc
    simp only [chunkListAux] at hc
    split at hc
    · simp at hc
    · rcases List.mem_cons.mp hc with rfl | hc
      · exact List.take_sublist cap l
      · exact ((ih _ c hc).trans (List.drop_sublist cap l))

theorem chunkList_mem_sublist {α : Type} (cap : Nat) (l : List α) :
    ∀ c ∈ chunkList cap l, c.Sublist l :=
  chunkListAux_mem_sublist cap l.length l

/-! ## The greedy merge loop (`Planner._greedy_merge`, core.py 313-326)

```python
def _greedy_merge(self, keys_sorted, counts, max_per_bin):
    bins = []
    if not keys_sorted: return bins
    start = 0
    while start < len(keys_sorted):
        total = 0
        end = start
        while end < len(keys_sorted) and total + counts[keys_sorted[end]] <= max_per_bin:
            total += counts[keys_sorted[end]]
            end += 1
        bins.append((start, end))
        start = end
    return bins
```

The inner `while` makes no progress when `counts[keys_sorted[start]] >
max_per_bin` (then `end == start`), in which case the outer loop appends the
empty span `(start, start)` forever and `_greedy_merge` never terminates.
`greedyTake` is the inner loop; `greedyLoop` is the outer loop with an
explicit fuel argument, `none` modelling non-termination. -/

section Greedy

variable {κ : Type}

theorem greedyTakeAux_ge (keys : List κ) (counts : κ → Nat) (cap : Nat) :
    ∀ fuel total endI, endI ≤ greedyTakeAux keys counts cap fuel total endI := by
  intro fuel
  induction fuel with
  | zero => intro total endI; simp [greedyTakeAux]
  | succ fuel ih =>
    intro total endI
    simp only [greedyTakeAux]
    split
    · rename_i h
      split
      · have := ih (total + counts (keys.get ⟨endI, h⟩)) (endI + 1)
        omega
      · omega
    · omega

theorem greedyTake_ge (keys : List κ) (counts : κ → Nat) (cap : Nat) :
    ∀ total endI, endI ≤ greedyTake keys counts cap total endI :=
  fun total endI => greedyTakeAux_ge keys counts cap _ total endI

theorem greedyTakeAux_le_len (keys : List κ) (counts : κ → Nat) (cap : Nat) :
    ∀ fuel total endI, endI ≤ keys.length →
      greedyTakeAux keys counts cap fuel total endI ≤ keys.length := by
  intro fuel
  induction fuel with
  | zero => intro total endI h; simpa [greedyTakeAux] using h
  | succ fuel ih =>
    intro total endI hlen
    simp only [greedyTakeAux]
    split
    · rename_i h
      split
      · exact ih (total + counts (keys.get ⟨endI, h⟩)) (endI + 1) h
      · exact hlen
    · exact hlen

theorem greedyTake_le_len (keys : List κ) (counts : κ → Nat) (cap : Nat) :
    ∀ total endI, endI ≤ keys.length → greedyTake keys counts cap total endI ≤ keys.length :=
  fun total endI h => greedyTakeAux_le_len keys counts cap _ total endI h

theorem sliceSum_zero (keys : List κ) (counts : κ → Nat) (s : Nat) :
    sliceSum keys counts s s = 0 := by
  simp [sliceSum, slice]

theorem sliceSum_succ_left (keys : List κ) (counts : κ → Nat) (s e : Nat)
    (hs : s < keys.length) (hse : s < e) :
    sliceSum keys counts s e = counts (keys.get ⟨s, hs⟩) + sliceSum keys counts (s + 1) e := by
  simp only [sliceSum, slice]
  rw [List.drop_eq_getElem_cons hs]
  rw [show e - s = (e - (s + 1)) + 1 from by omega, List.take_succ_cons]
  simp [List.get_eq_getElem]

/-- The inner loop never exceeds the cap: starting from a running total
within the cap, the slice it consumes keeps `total + slice ≤ cap`. -/
theorem greedyTakeAux_sum (keys : List κ) (counts : κ → Nat) (cap : Nat) :
    ∀ fuel total endI, total ≤ cap →
      total + sliceSum keys counts endI (greedyTakeAux keys counts cap fuel total endI) ≤ cap := by
  intro fuel
  induction fuel with
  | zero =>
    intro total endI htot
    simp only [greedyTakeAux]
    rw [sliceSum_zero]
    omega
  | succ fuel ih =>
    intro total endI htot
    simp only [greedyTakeAux]
    split
    · rename_i h
      split
      · rename_i hle
        have hrec := ih (total + counts (keys.get ⟨endI, h⟩)) (endI + 1) hle
        have hge := greedyTakeAux_ge keys counts cap fuel (total + counts (keys.get ⟨endI, h⟩)) (endI + 1)
        rw [sliceSum_succ_left keys counts endI _ h (by omega)]
        omega
      · rw [sliceSum_zero]
        omega
    · rw [sliceSum_zero]
      omega

theorem greedyTake_sum (keys : List κ) (counts : κ → Nat) (cap : Nat) :
    ∀ total endI, total ≤ cap →
      total + sliceSum keys counts endI (greedyTake keys counts cap total endI) ≤ cap :=
  fun total endI h => greedyTakeAux_sum keys counts cap _ total endI h

/-- If the first unconsumed key alone exceeds the cap, the inner loop makes
no progress. -/
theorem greedyTake_stall (keys : List κ) (counts : κ → Nat) (cap : Nat)
    (total endI : Nat) (h : endI < keys.length)
    (hheavy : cap < counts (keys.get ⟨endI, h⟩)) :
    greedyTake keys counts cap total endI = endI := by
  unfold greedyTake
  rw [show keys.length - endI = (keys.length - endI - 1) + 1 from by omega]
  simp only [greedyTakeAux]
  rw [dif_pos h, if_neg (by omega)]

/-- If the first key's count exceeds the cap, the outer loop never
terminates: the span `(start, start)` is appended forever.  (In the fuelled
embedding: `none` for every fuel.) -/
theorem greedyLoop_stall (keys : List κ) (counts : κ → Nat) (cap : Nat)
    (start : Nat) (h : start < keys.length)
    (hheavy : cap < counts (keys.get ⟨start, h⟩)) :
    ∀ fuel, greedyLoop keys counts cap fuel start = none := by
  intro fuel
  induction fuel with
  | zero => rfl
  | succ n ih =>
    unfold greedyLoop
    rw [if_pos h]
    rw [greedyTake_stall keys counts cap 0 start h hheavy]
    rw [ih]

/-- Progress: if the key at `start` fits under the cap, the inner loop
consumes at least one key. -/
theorem greedyTake_progress (keys : List κ) (counts : κ → Nat) (cap : Nat)
    (start : Nat) (h : start < keys.length)
    (hlight : counts (keys.get ⟨start, h⟩) ≤ cap) :
    start + 1 ≤ greedyTake keys counts cap 0 start := by
  unfold greedyTake
  rw [show keys.length - start = (keys.length - start - 1) + 1 from by omega]
  simp only [greedyTakeAux]
  rw [dif_pos h]
  rw [if_pos (by omega)]
  exact greedyTakeAux_ge keys counts cap _ _ _

/-- Soundness of the fuelled outer loop: a returned span list tiles
`[start, keys.length)` with consecutive non-empty spans, each of whose
count-sums is at most the cap. -/
theorem greedyLoop_sound (keys : List κ) (counts : κ → Nat) (cap : Nat) :
    ∀ fuel start spans, start ≤ keys.length →
      greedyLoop keys counts cap fuel start = some spans →
      (∀ p ∈ spans, p.1 < p.2 ∧ p.2 ≤ keys.length ∧ sliceSum keys counts p.1 p.2 ≤ cap) ∧
        spans.flatMap (fun p => slice keys p.1 p.2) = keys.drop start := by
  intro fuel
  induction fuel with
  | zero =>
    intro start spans _ h
    simp [greedyLoop] at h
  | succ n ih =>
    intro start spans hstart h
    unfold greedyLoop at h
    split at h
    · rename_i hlt
      have hge : start ≤ greedyTake keys counts cap 0 start := greedyTake_ge keys counts cap 0 start
      have hle : greedyTake keys counts cap 0 start ≤ keys.length :=
        greedyTake_le_len keys counts cap 0 start (by omega)
      have hsum : sliceSum keys counts start (greedyTake keys counts cap 0 start) ≤ cap := by
        have := greedyTake_sum keys counts cap 0 start (by omega)
        simpa using this
      cases hrec : greedyLoop keys counts cap n (greedyTake keys counts cap 0 start) with
      | none =>
        rw [hrec] at h
        simp at h
      | some spans2 =>
        rw [hrec] at h
        simp only [Option.some.injEq] at h
        subst h
        obtain ⟨hall, hflat⟩ := ih (greedyTake keys counts cap 0 start) spans2 hle hrec
        have hne : start < greedyTake keys counts cap 0 start := by
          rcases Nat.lt_or_ge start (greedyTake keys counts cap 0 start) with h2 | h2
          · exact h2
          · exfalso
            have heq : greedyTake keys counts cap 0 start = start := by omega
            rw [heq] at hrec
            have hheavy : cap < counts (keys.get ⟨start, hlt⟩) := by
              by_contra hc
              push_neg at hc
              have := greedyTake_progress keys counts cap start hlt hc
              omega
            rw [greedyLoop_stall keys counts cap start hlt hheavy n] at hrec
            exact Option.noConfusion hrec
        constructor
        · intro p hp
          rcases List.mem_cons.mp hp with rfl | hp
          · exact ⟨hne, hle, hsum⟩
          · exact hall p hp
        · simp only [List.flatMap_cons, hflat]
          exact slice_append_drop keys start _ (by omega) hle
    · rename_i hge2
      simp only [Option.some.injEq] at h
      subst h
      constructor
      · intro p hp; simp at hp
      · simp only [List.flatMap_nil]
        rw [List.drop_eq_nil_of_le (by omega)]

end Greedy

/-! ## Utility lemmas -/

theorem getRec_set_self (rs : List Rec) (i : Nat) (r : Rec) (h : i < rs.length) :
    getRec (rs.set i r) i = r := by
  simp [getRec, List.getD_eq_getElem?_getD, List.getElem?_set, h]

theorem getRec_set_ne (rs : List Rec) (i j : Nat) (r : Rec) (h : i ≠ j) :
    getRec (rs.set i r) j = getRec rs j := by
  simp [getRec, List.getD_eq_getElem?_getD, List.getElem?_set, h]

theorem getRec_set (rs : List Rec) (i j : Nat) (r : Rec) :
    getRec (rs.set i r) j =
      if i = j ∧ i < rs.length then r else getRec rs j := by
  by_cases hij : i = j
  · subst hij
    by_cases hlt : i < rs.length
    · simp [getRec_set_self rs i r hlt, hlt]
    · have hn : rs[i]? = none := List.getElem?_eq_none (by omega)
      simp [hlt, getRec, List.getD_eq_getElem?_getD, List.getElem?_set, hn]
  · simp [getRec_set_ne rs i j r hij, hij]

theorem headChar_append (a b : String) (ha : a.data ≠ []) :
    headChar (a ++ b) = headChar a := by
  simp only [headChar]
  cases hd : a.data with
  | nil => exact absurd hd ha
  | cons c t => simp [String.data_append, hd]

theorem natStr_data_ne_nil (n : Nat) : (natStr n).data ≠ [] := by
  simp [natStr]
  exact natDigits_ne_nil n

theorem padNum_data_ne_nil (w n : Nat) : (padNum w n).data ≠ [] := by
  simp only [padNum]
  intro h
  have h2 := List.append_eq_nil.mp h
  exact natDigits_ne_nil n h2.2

theorem perm_flatMap {α β : Type} (f : α → List β) {l l2 : List α} (h : l.Perm l2) :
    (l.flatMap f).Perm (l2.flatMap f) := by
  have := (h.map f).flatten
  simpa [List.flatMap_def] using this

theorem foldl_min_le_init (t : List Nat) : ∀ a, t.foldl Nat.min a ≤ a := by
  induction t with
  | nil => intro a; simp
  | cons b t ih =>
    intro a
    simp only [List.foldl_cons]
    exact le_trans (ih (Nat.min a b)) (Nat.min_le_left a b)

theorem foldl_min_le_mem (t : List Nat) : ∀ a x, x ∈ t → t.foldl Nat.min a ≤ x := by
  induction t with
  | nil => intro a x hx; simp at hx
  | cons b t ih =>
    intro a x hx
    simp only [List.foldl_cons]
    rcases List.mem_cons.mp hx with rfl | hx
    · exact le_trans (foldl_min_le_init t (Nat.min a x)) (Nat.min_le_right a x)
    · exact ih (Nat.min a b) x hx

theorem foldl_min_mem (t : List Nat) : ∀ a, t.foldl Nat.min a = a ∨ t.foldl Nat.min a ∈ t := by
  induction t with
  | nil => intro a; exact Or.inl rfl
  | cons b t ih =>
    intro a
    simp only [List.foldl_cons]
    rcases ih (Nat.min a b) with h | h
    · rw [h]
      rcases Nat.le_total a b with hab | hab
      · exact Or.inl (Nat.min_eq_left hab)
      · refine Or.inr ?_
        have hm : Nat.min a b = b := Nat.min_eq_right hab
        rw [hm]
        exact List.mem_cons_self b t
    · exact Or.inr (List.mem_cons_of_mem _ h)

theorem listMin_mem (l : List Nat) (h : l ≠ []) : listMin l ∈ l := by
  match l with
  | [] => exact absurd rfl h
  | a :: t =>
    simp only [listMin]
    rcases foldl_min_mem t a with h2 | h2
    · rw [h2]; exact List.mem_cons_self _ _
    · exact List.mem_cons_of_mem _ h2

theorem listMin_le (l : List Nat) : ∀ x ∈ l, listMin l ≤ x := by
  match l with
  | [] => intro x hx; simp at hx
  | a :: t =>
    intro x hx
    simp only [listMin]
    rcases List.mem_cons.mp hx with rfl | hx
    · exact foldl_min_le_init t x
    · exact foldl_min_le_mem t a x hx

/-! ## The daemon's per-request results (claims C6 and C10) -/

/-- C10: the claim says that for every request dequeued by the ExifToolDaemon
worker, by the time the request's done event is set its result slot has been
assigned one of the defined status results, so the fallback branch of
`ExifToolDaemon.call` returning `(1, "", "no-result")` is unreachable for
every worker-served call.  This is false of the source: `FileNotFoundError`
is a subclass of `OSError`, so a failing `self._spawn()` is caught by the
`except (BrokenPipeError, OSError)` clause (the 127 handler is dead code),
whose `self._restart()` re-raises while the executable is still absent;
`req.result` is never assigned, the `finally` sets `req.done`, and `call`
returns exactly the fallback tuple — after which the worker thread dies.
Evaluated here on a dequeued request whose spawn and restart both fail, and
on a timed-out request both of whose restart attempts fail. -/
theorem c10_no_result_fallback_reached :
    handleRequest (fun _ => false) false false [] 20 1 =
        ReqOutcome.completes none false ∧
      callReturn (handleRequest (fun _ => false) false false [] 20 1) =
        some (1, "", "no-result") ∧
      handleRequest (fun _ => false) true false [Ev.line 30 "x", Ev.line 35 "y"] 20 1 =
        ReqOutcome.completes none false ∧
      callReturn (handleRequest (fun _ => false) true false [Ev.line 30 "x", Ev.line 35 "y"] 20 1) =
        some (1, "", "no-result") := by
  refine ⟨by decide, by decide, by decide, by decide⟩

/-- C6 counterexample: the claim says that whenever the correlation marker
does not appear before the request's timeout elapses, the call returns status
124 / "timeout".  But the worker only tests the timeout at the top of a read
iteration, *before* the blocking `readline`: with a 20-unit timeout and the
marker arriving at time 25 (after the deadline), the request nevertheless
completes successfully with status 0 — and the subprocess is not restarted. -/
theorem c6_counterexample :
    20 < 25 ∧
      handleRequest (fun _ => true) true false [Ev.line 25 (readyMarker 1)] 20 1 =
        ReqOutcome.completes (some (0, "", "")) false ∧
      callReturn (handleRequest (fun _ => true) true false [Ev.line 25 (readyMarker 1)] 20 1) ≠
        some (124, "", "timeout") := by
  refine ⟨by decide, by decide, ?_⟩
  decide

/-- C6 (amended): the failure statuses of the worker, each conditional on the
accompanying `self._restart()` succeeding, and the cached absence
short-circuit of `exiftool()`.  When the restart on the failure path returns
normally (`restarts 0 = true`), a non-marker read that leaves the loop-top
elapsed time at or past the timeout yields `(124, "", "timeout")`;
end-of-file yields `(111, "", "eof")`; an `OSError`/`BrokenPipeError` during
the read or the write yields `(32, "", "epipe")`; in each of these cases the
subprocess was killed and a fresh one spawned before the result was delivered
(the `true` flag).  A failing spawn never yields 127 from the worker — the
`except FileNotFoundError` clause is dead code, because `FileNotFoundError`
is a subclass of `OSError` and the `(BrokenPipeError, OSError)` clause comes
first — it yields `(32, "", "epipe")` when the handler's restart succeeds and
an unassigned result slot when it does not.  When every restart attempt
fails, the timeout path likewise leaves the slot unassigned and `call`
returns `(1, "", "no-result")`, the worker thread dying, so no later request
is ever served.  The timeout is only detected at the top of a read iteration:
a marker that arrives after the deadline is still accepted as success (see
the counterexample), and a fully silent stream blocks forever.  When the
executable is absent at the first check, `exiftool()` returns `(127, "",
"exiftool-not-found")` without dispatching to the daemon or spawning, and the
availability check is cached: every later call returns the same result with
no new check (`whichNow` is ignored once `checked` is set). -/
theorem c6_failure_statuses_amended :
    (∀ (restarts : Nat → Bool) (timeout reqId elapsed : Nat) (acc : List String)
      (ev : Ev) (evs : List Ev),
      timeout ≤ elapsed → restarts 0 = true →
        readLoop restarts timeout (readyMarker reqId) elapsed acc (ev :: evs) =
          ReqOutcome.completes (some (124, "", "timeout")) true) ∧
    (∀ (restarts : Nat → Bool) (timeout reqId elapsed : Nat) (acc : List String)
      (t : Nat) (evs : List Ev),
      elapsed < timeout → restarts 0 = true →
        readLoop restarts timeout (readyMarker reqId) elapsed acc (Ev.eofEv t :: evs) =
          ReqOutcome.completes (some (111, "", "eof")) true) ∧
    (∀ (restarts : Nat → Bool) (timeout reqId elapsed : Nat) (acc : List String)
      (t : Nat) (evs : List Ev),
      elapsed < timeout → restarts 0 = true →
        readLoop restarts timeout (readyMarker reqId) elapsed acc (Ev.pipeErr t :: evs) =
          ReqOutcome.completes (some (32, "", "epipe")) true) ∧
    (∀ (restarts : Nat → Bool) (timeout reqId : Nat) (evs : List Ev),
      restarts 0 = true →
        handleRequest restarts true true evs timeout reqId =
          ReqOutcome.completes (some (32, "", "epipe")) true) ∧
    (∀ (restarts : Nat → Bool) (writeFails : Bool) (timeout reqId : Nat) (evs : List Ev),
      handleRequest restarts false writeFails evs timeout reqId =
        if restarts 0 then ReqOutcome.completes (some (32, "", "epipe")) true
        else ReqOutcome.completes none false) ∧
    (∀ (restarts : Nat → Bool) (timeout reqId elapsed : Nat) (acc : List String)
      (ev : Ev) (evs : List Ev),
      timeout ≤ elapsed → restarts 0 = false → restarts 1 = false →
        readLoop restarts timeout (readyMarker reqId) elapsed acc (ev :: evs) =
          ReqOutcome.completes none false ∧
        callReturn (readLoop restarts timeout (readyMarker reqId) elapsed acc (ev :: evs)) =
          some (1, "", "no-result")) ∧
    (exiftoolCall false ⟨false, false⟩ =
      ⟨some (127, "", "exiftool-not-found"), false, false, ⟨true, false⟩⟩) ∧
    (∀ whichNow2 : Bool, exiftoolCall whichNow2 ⟨true, false⟩ =
      ⟨some (127, "", "exiftool-not-found"), false, false, ⟨true, false⟩⟩) := by
  refine ⟨?_, ?_, ?_, ?_, ?_, ?_, by decide, ?_⟩
  · intro restarts timeout reqId elapsed acc ev evs h h0
    simp only [readLoop]
    rw [if_pos h]
    simp only [restartThen]
    rw [if_pos h0]
  · intro restarts timeout reqId elapsed acc t evs h h0
    simp only [readLoop]
    rw [if_neg (by omega)]
    simp only [restartThen]
    rw [if_pos h0]
  · intro restarts timeout reqId elapsed acc t evs h h0
    simp only [readLoop]
    rw [if_neg (by omega)]
    simp only [handlerRestartThen]
    rw [if_pos h0]
  · intro restarts timeout reqId evs h0
    simp [handleRequest, handlerRestartThen, h0]
  · intro restarts writeFails timeout reqId evs
    cases h0 : restarts 0 <;> simp [handleRequest, handlerRestartThen, h0]
  · intro restarts timeout reqId elapsed acc ev evs h h0 h1
    have hout : readLoop restarts timeout (readyMarker reqId) elapsed acc (ev :: evs) =
        ReqOutcome.completes none false := by
      simp only [readLoop]
      rw [if_pos h]
      simp only [restartThen]
      rw [if_neg (by simp [h0]), if_neg (by simp [h1])]
    refine ⟨hout, ?_⟩
    rw [hout]
    rfl
  · intro w2
    cases w2 <;> decide

theorem c6_witness :
    readLoop (fun _ => true) 20 (readyMarker 1) 25 [] [Ev.line 30 "x"] =
        ReqOutcome.completes (some (124, "", "timeout")) true ∧
      readLoop (fun _ => true) 20 (readyMarker 1) 5 [] [Ev.eofEv 6] =
        ReqOutcome.completes (some (111, "", "eof")) true ∧
      readLoop (fun _ => true) 20 (readyMarker 1) 5 [] [Ev.pipeErr 6] =
        ReqOutcome.completes (some (32, "", "epipe")) true ∧
      handleRequest (fun _ => true) false false [] 20 1 =
        ReqOutcome.completes (some (32, "", "epipe")) true ∧
      readLoop (fun _ => false) 20 (readyMarker 1) 25 [] [Ev.line 30 "x"] =
        ReqOutcome.completes none false :=
  ⟨c6_failure_statuses_amended.1 (fun _ => true) 20 1 25 [] (Ev.line 30 "x") [] (by decide) rfl,
   c6_failure_statuses_amended.2.1 (fun _ => true) 20 1 5 [] 6 [] (by decide) rfl,
   c6_failure_statuses_amended.2.2.1 (fun _ => true) 20 1 5 [] 6 [] (by decide) rfl,
   by
     have h5 := c6_failure_statuses_amended.2.2.2.2.1 (fun _ => true) false 20 1 []
     simpa using h5,
   (c6_failure_statuses_amended.2.2.2.2.2.1 (fun _ => false) 20 1 25 [] (Ev.line 30 "x") []
     (by decide) rfl rfl).1⟩

/-- C7: For every input file set, when classification of a single file throws
and fail-open is enabled, Planner.run logs the failure, appends a minimal
fallback record with integrity "unknown" for that file, and continues
processing every other file through dedup, bin planning, and manifest writing
— no single file's classification failure aborts the run.  The claim states
the intended policy (spec §7 and the source's own comment "Fail-open: emit a
minimal record so copying can proceed"), but the fallback dictionary lacks
the `"sig"` key, so the very first loop of `stage_full_hash_for_collisions`
raises `KeyError` on it and nothing in `run` catches the exception: the run
aborts before bin planning and manifest writing.  This theorem evaluates the
stage at the failing input (one good record plus one fallback record). -/
theorem c7_fail_open_keyerror :
    stageFullHashRun (fun _ => "h") [PyRec.full okRec0, PyRec.fallback fallbackRec0] =
      Except.error "KeyError: 'sig'" := by
  rfl

/-- C5 counterexample: the claim says that for any two runs over the same
file set whose records were appended in different orders, the same records
are marked as duplicates with the same keepers.  But the keeper is
`min(group)` — the smallest index *in the append order* (which is worker
completion order): with files a and b of identical content, the order
[a, b] keeps a and marks b, while the order [b, a] keeps b and marks a.
The set of marked records differs, so the marking depends on the append
order, i.e. on thread scheduling. -/
theorem c5_counterexample :
    ((stage_full_hash_for_collisions (fun _ => "H") [recA, recB]).map
        (fun r => (r.source_path, r.duplicate_of)) =
      [("/carved/a.jpg", ""), ("/carved/b.jpg", "/carved/a.jpg")]) ∧
    ((stage_full_hash_for_collisions (fun _ => "H") [recB, recA]).map
        (fun r => (r.source_path, r.duplicate_of)) =
      [("/carved/b.jpg", ""), ("/carved/a.jpg", "/carved/b.jpg")]) ∧
    ¬ ((getRec (stage_full_hash_for_collisions (fun _ => "H") [recA, recB]) 0).duplicate_of = "" ↔
       (getRec (stage_full_hash_for_collisions (fun _ => "H") [recB, recA]) 1).duplicate_of = "") := by
  refine ⟨by decide, by decide, by decide⟩

theorem sigClassOf_mem {rs : List Rec} {i j : Nat} :
    j ∈ sigClassOf rs i ↔ j < rs.length ∧ (getRec rs j).sig = (getRec rs i).sig := by
  simp [sigClassOf, List.mem_filter, List.mem_range]

theorem sigClassOf_self {rs : List Rec} {i : Nat} (h : i < rs.length) :
    i ∈ sigClassOf rs i := sigClassOf_mem.mpr ⟨h, rfl⟩

theorem sigClassOf_congr {rs : List Rec} {i j : Nat}
    (h : (getRec rs j).sig = (getRec rs i).sig) : sigClassOf rs j = sigClassOf rs i := by
  simp only [sigClassOf, h]

/-- Every entry of the signature buckets is `(s, class of s)`. -/
theorem sigBuckets_entry {rs : List Rec} {e : String × List Nat} (he : e ∈ sigBuckets rs) :
    e.2 = (List.range rs.length).filter (fun j => decide ((getRec rs j).sig = e.1)) := by
  have h := groupPairs_val he
  rw [h, List.filter_map]
  have : List.map Prod.snd
      (List.map (fun i => ((getRec rs i).sig, i))
        (List.filter ((fun p => decide (p.1 = e.1)) ∘ fun i => ((getRec rs i).sig, i))
          (List.range rs.length))) =
      List.filter (fun j => decide ((getRec rs j).sig = e.1)) (List.range rs.length) := by
    rw [List.map_map]
    have h1 : (Prod.snd ∘ fun i : Nat => ((getRec rs i).sig, i)) = id := rfl
    have h2 : ((fun p : String × Nat => decide (p.1 = e.1)) ∘ fun i : Nat => ((getRec rs i).sig, i)) =
        (fun j => decide ((getRec rs j).sig = e.1)) := rfl
    rw [h1, h2, List.map_id]
  rw [this]

/-- Every `ok`-index with a same-sig partner has its class among the multi
groups. -/
theorem multiGroups_mem_of {rs : List Rec} {i : Nat} (hi : i < rs.length)
    (hbig : 1 < (sigClassOf rs i).length) : sigClassOf rs i ∈ multiGroups rs := by
  have hp : ((getRec rs i).sig, i) ∈ (List.range rs.length).map (fun k => ((getRec rs k).sig, k)) :=
    List.mem_map_of_mem _ (List.mem_range.mpr hi)
  have hk := groupPairs_covers hp
  simp only [List.mem_map] at hk
  obtain ⟨e, he, hke⟩ := hk
  have hv := sigBuckets_entry he
  have hcls : e.2 = sigClassOf rs i := by
    rw [hv, hke]
    rfl
  have : e.2 ∈ (sigBuckets rs).map Prod.snd := List.mem_map_of_mem _ he
  rw [hcls] at this
  simp only [multiGroups, List.mem_filter]
  exact ⟨this, by simpa using hbig⟩

/-- Every multi group is the signature class of each of its members. -/
theorem multiGroups_all {rs : List Rec} {L : List Nat} (hL : L ∈ multiGroups rs) :
    1 < L.length ∧ ∀ i ∈ L, i < rs.length ∧ L = sigClassOf rs i := by
  simp only [multiGroups, List.mem_filter, List.mem_map] at hL
  obtain ⟨⟨e, he, hve⟩, hlen⟩ := hL
  have hv := sigBuckets_entry he
  refine ⟨by simpa using hlen, ?_⟩
  intro i hi
  rw [← hve, hv] at hi
  rw [List.mem_filter, List.mem_range] at hi
  obtain ⟨hilen, hisig⟩ := hi
  simp only [decide_eq_true_eq] at hisig
  refine ⟨hilen, ?_⟩
  rw [← hve, hv]
  simp only [sigClassOf, hisig]

/-- Membership of the hashing worklist `chain.from_iterable(multi)`. -/
theorem multiFlat_mem {rs : List Rec} {i : Nat} :
    i ∈ (multiGroups rs).flatMap id ↔ i < rs.length ∧ 1 < (sigClassOf rs i).length := by
  constructor
  · intro h
    rw [List.mem_flatMap] at h
    obtain ⟨L, hL, hiL⟩ := h
    simp only [id] at hiL
    obtain ⟨hlen, hall⟩ := multiGroups_all hL
    obtain ⟨hilen, hLi⟩ := hall i hiL
    exact ⟨hilen, by rw [← hLi]; exact hlen⟩
  · intro ⟨hi, hbig⟩
    rw [List.mem_flatMap]
    exact ⟨sigClassOf rs i, multiGroups_mem_of hi hbig, by simpa [id] using sigClassOf_self hi⟩

/-! ### Effect of the hashing pass -/

theorem setFullhash_length (rs : List Rec) (i : Nat) (v : String) :
    (setFullhash rs i v).length = rs.length := by
  simp [setFullhash, List.length_set]

theorem getRec_setFullhash (rs : List Rec) (i j : Nat) (v : String) :
    getRec (setFullhash rs i v) j =
      if i = j ∧ i < rs.length then {getRec rs i with fullhash := v} else getRec rs j := by
  simp [setFullhash, getRec_set]

theorem applyHashes_length (h : String → String) :
    ∀ (L : List Nat) (rs : List Rec), (applyHashes h rs L).length = rs.length := by
  intro L
  induction L with
  | nil => intro rs; rfl
  | cons a t ih =>
    intro rs
    simp only [applyHashes, List.foldl_cons]
    have := ih (setFullhash rs a (h (getRec rs a).source_path))
    simp only [applyHashes] at this
    rw [this, setFullhash_length]

/-- Pointwise effect of the hashing pass: every listed in-range index gets
`fullhash := hashOf source_path`; everything else is untouched.  (Repeated
occurrences are harmless since the written value depends only on the
source path, which the pass preserves.) -/
theorem applyHashes_getRec (h : String → String) :
    ∀ (L : List Nat) (rs : List Rec) (j : Nat),
      getRec (applyHashes h rs L) j =
        if j ∈ L ∧ j < rs.length then
          {getRec rs j with fullhash := h (getRec rs j).source_path}
        else getRec rs j := by
  intro L
  induction L with
  | nil =>
    intro rs j
    simp [applyHashes]
  | cons a t ih =>
    intro rs j
    simp only [applyHashes, List.foldl_cons]
    have step := ih (setFullhash rs a (h (getRec rs a).source_path)) j
    simp only [applyHashes] at step
    rw [step, setFullhash_length, getRec_setFullhash]
    by_cases haj : a = j
    · subst haj
      by_cases hal : a < rs.length
      · by_cases hat : a ∈ t <;> simp [hal, hat]
      · simp [hal]
    · by_cases hjt : j ∈ t
      · by_cases hjl : j < rs.length
        · simp [haj, hjt, hjl]
        · simp [haj, hjt, hjl]
      · have hnc : j ∉ a :: t := by
          intro hc
          rcases List.mem_cons.mp hc with rfl | hc2
          · exact haj rfl
          · exact hjt hc2
        simp [haj, hjt, hnc]

/-! ### Effect of the marking pass -/

theorem setDupOf_length (rs : List Rec) (j : Nat) (v : String) :
    (setDupOf rs j v).length = rs.length := by
  simp [setDupOf, List.length_set]

theorem getRec_setDupOf (rs : List Rec) (i j : Nat) (v : String) :
    getRec (setDupOf rs i v) j =
      if i = j ∧ i < rs.length then {getRec rs i with duplicate_of := v} else getRec rs j := by
  simp [setDupOf, getRec_set]

/-- `by_full`'s entries for one signature group: each key is a non-empty
hash, and its members are the group members carrying it. -/
theorem byFull_entry {rs : List Rec} {L : List Nat} {e : String × List Nat}
    (he : e ∈ byFull rs L) :
    e.1 ≠ "" ∧ e.2 = L.filter
      (fun i => decide ((getRec rs i).fullhash = e.1) && !decide ((getRec rs i).fullhash = "")) := by
  constructor
  · have hk := groupPairs_keys_sub he
    simp only [List.mem_map] at hk
    obtain ⟨p, hp, hpe⟩ := hk
    rw [List.mem_filterMap] at hp
    obtain ⟨i, _, hpi⟩ := hp
    by_cases hfh : (getRec rs i).fullhash = ""
    · rw [if_pos hfh] at hpi
      exact absurd hpi (by simp)
    · rw [if_neg hfh] at hpi
      rw [Option.some.injEq] at hpi
      rw [← hpe, ← hpi]
      exact hfh
  · have h := groupPairs_val he
    rw [h]
    clear h he
    induction L with
    | nil => rfl
    | cons a t ih =>
      simp only [List.filterMap_cons, List.filter_cons]
      by_cases hfh : (getRec rs a).fullhash = ""
      · rw [if_pos hfh]
        have : (decide ((getRec rs a).fullhash = e.1) && !decide ((getRec rs a).fullhash = "")) = false := by
          simp [hfh]
        rw [this]
        simpa using ih
      · rw [if_neg hfh]
        by_cases hfe : (getRec rs a).fullhash = e.1
        · have he1 : ¬ e.1 = "" := by rw [← hfe]; exact hfh
          simp [List.filter_cons, hfe, hfh, he1, ih]
        · simp [List.filter_cons, hfe, ih]

/-- Pointwise effect of marking one full-hash group: members other than the
group minimum get `duplicate_of := source_path of the minimum`; all other
records and fields are untouched. -/
theorem markGroup_getRec (rs : List Rec) (G : List Nat) (j : Nat) :
    getRec (markGroup rs G) j =
      if j ∈ G ∧ j ≠ listMin G ∧ j < rs.length then
        {getRec rs j with duplicate_of := (getRec rs (listMin G)).source_path}
      else getRec rs j := by
  have key : ∀ (l : List Nat) (K : Nat) (rs : List Rec), (K ∉ l ∨ True) →
      getRec (l.foldl (fun rs j2 =>
          if j2 ≠ K then setDupOf rs j2 (getRec rs K).source_path else rs) rs) j =
        if j ∈ l ∧ j ≠ K ∧ j < rs.length then
          {getRec rs j with duplicate_of := (getRec rs K).source_path}
        else getRec rs j := by
    intro l
    induction l with
    | nil =>
      intro K rs _
      simp
    | cons a t ih =>
      intro K rs _
      simp only [List.foldl_cons]
      by_cases haK : a ≠ K
      · rw [if_pos haK]
        have step := ih K (setDupOf rs a (getRec rs K).source_path) (Or.inr trivial)
        rw [step, setDupOf_length, getRec_setDupOf]
        have hKpath : (getRec (setDupOf rs a (getRec rs K).source_path) K).source_path =
            (getRec rs K).source_path := by
          rw [getRec_setDupOf]
          split
          · rename_i hc
            rw [← hc.1]
          · rfl
        by_cases haj : a = j
        · subst haj
          by_cases hal : a < rs.length
          · by_cases hat : a ∈ t <;> simp [hal, hat, haK, hKpath, getRec_setDupOf]
          · simp [hal]
        · by_cases hjt : j ∈ t
          · by_cases hjl : j < rs.length
            · by_cases hjK : j = K
              · simp [haj, hjt, hjl, hjK, haK, getRec_setDupOf, Ne.symm haj, fun h : a = j => haj h]
              · simp [haj, hjt, hjl, hjK, haK, hKpath, getRec_setDupOf, Ne.symm haj]
            · simp [haj, hjt, hjl, haK, getRec_setDupOf, Ne.symm haj]
          · have hnc : j ∉ a :: t := by
              intro hc
              rcases List.mem_cons.mp hc with rfl | hc2
              · exact haj rfl
              · exact hjt hc2
            simp [hnc, hjt, haj, haK, getRec_setDupOf, Ne.symm haj]
      · rw [if_neg haK]
        push_neg at haK
        subst haK
        have step := ih a rs (Or.inr trivial)
        rw [step]
        by_cases hja : j = a
        · subst hja
          simp
        · by_cases hjt : j ∈ t
          · simp [hjt, hja]
          · have hnc : j ∉ a :: t := by
              intro hc
              rcases List.mem_cons.mp hc with rfl | hc2
              · exact hja rfl
              · exact hjt hc2
            simp [hnc, hjt, hja]
  simpa only [markGroup] using key G (listMin G) rs (Or.inr trivial)

theorem markGroup_length (rs : List Rec) (G : List Nat) :
    (markGroup rs G).length = rs.length := by
  have key : ∀ (l : List Nat) (K : Nat) (rs : List Rec),
      (l.foldl (fun rs j2 =>
        if j2 ≠ K then setDupOf rs j2 (getRec rs K).source_path else rs) rs).length = rs.length := by
    intro l
    induction l with
    | nil => intro K rs; rfl
    | cons a t ih =>
      intro K rs
      simp only [List.foldl_cons]
      split
      · rw [ih, setDupOf_length]
      · rw [ih]
  simpa only [markGroup] using key G (listMin G) rs

/-- Marking one group changes only `duplicate_of` fields. -/
theorem markGroup_frame (rs : List Rec) (G : List Nat) (k : Nat) :
    (getRec (markGroup rs G) k).source_path = (getRec rs k).source_path ∧
      (getRec (markGroup rs G) k).fullhash = (getRec rs k).fullhash ∧
      (getRec (markGroup rs G) k).sig = (getRec rs k).sig := by
  rw [markGroup_getRec]
  split
  · exact ⟨rfl, rfl, rfl⟩
  · exact ⟨rfl, rfl, rfl⟩

/-- Every entry of `byFull rs L` that contains `j` carries `j`'s hash as its
key and `j`'s full-hash group as its value. -/
theorem byFull_mem_entry {rs : List Rec} {L : List Nat} {e : String × List Nat}
    (he : e ∈ byFull rs L) {j : Nat} (hj : j ∈ e.2) :
    j ∈ L ∧ (getRec rs j).fullhash = e.1 ∧ (getRec rs j).fullhash ≠ "" ∧
      e.2 = fhGroup rs L j := by
  obtain ⟨hk, hv⟩ := byFull_entry he
  rw [hv, List.mem_filter] at hj
  obtain ⟨hjL, hcond⟩ := hj
  have h1 : (getRec rs j).fullhash = e.1 := by
    have := hcond
    simp only [Bool.and_eq_true, decide_eq_true_eq] at this
    exact this.1
  have h2 : (getRec rs j).fullhash ≠ "" := by
    rw [h1]; exact hk
  refine ⟨hjL, h1, h2, ?_⟩
  rw [hv]
  apply List.filter_congr
  intro i _
  by_cases hie : (getRec rs i).fullhash = e.1
  · have hne : (getRec rs i).fullhash ≠ "" := by rw [hie]; exact hk
    simp [hie, hne, h1, hk]
  · simp [hie, h1]

/-- Coverage: a member of `L` with a non-empty hash appears in some entry of
`byFull rs L`. -/
theorem byFull_covers {rs : List Rec} {L : List Nat} {j : Nat} (hjL : j ∈ L)
    (hfh : (getRec rs j).fullhash ≠ "") :
    ∃ e ∈ byFull rs L, j ∈ e.2 := by
  have hp : ((getRec rs j).fullhash, j) ∈ L.filterMap (fun i =>
      if (getRec rs i).fullhash = "" then none else some ((getRec rs i).fullhash, i)) := by
    rw [List.mem_filterMap]
    exact ⟨j, hjL, by rw [if_neg hfh]⟩
  have hk := groupPairs_covers hp
  simp only [List.mem_map] at hk
  obtain ⟨e, he, hke⟩ := hk
  refine ⟨e, he, ?_⟩
  obtain ⟨_, hv⟩ := byFull_entry he
  rw [hv, List.mem_filter]
  exact ⟨hjL, by simp [hke, hfh]⟩

/-- The fold of `markGroup` over group entries none of which mark `j` leaves
`j`'s record untouched. -/
theorem mgFold_untouched (j : Nat) :
    ∀ (gl : List (String × List Nat)) (rs : List Rec),
      (∀ e ∈ gl, j ∉ e.2 ∨ j = listMin e.2) →
      getRec (gl.foldl (fun rs g => markGroup rs g.2) rs) j = getRec rs j := by
  intro gl
  induction gl with
  | nil => intro rs _; rfl
  | cons g t ih =>
    intro rs hall
    simp only [List.foldl_cons]
    rw [ih _ (fun e he => hall e (List.mem_cons_of_mem g he))]
    rw [markGroup_getRec]
    rcases hall g (List.mem_cons_self g t) with h | h
    · rw [if_neg (by tauto)]
    · rw [if_neg (by tauto)]

theorem mgFold_length (gl : List (String × List Nat)) :
    ∀ rs : List Rec, (gl.foldl (fun rs g => markGroup rs g.2) rs).length = rs.length := by
  induction gl with
  | nil => intro rs; rfl
  | cons g t ih =>
    intro rs
    simp only [List.foldl_cons]
    rw [ih, markGroup_length]

theorem mgFold_frame (gl : List (String × List Nat)) :
    ∀ (rs : List Rec) (k : Nat),
      (getRec (gl.foldl (fun rs g => markGroup rs g.2) rs) k).source_path =
        (getRec rs k).source_path ∧
      (getRec (gl.foldl (fun rs g => markGroup rs g.2) rs) k).fullhash =
        (getRec rs k).fullhash := by
  induction gl with
  | nil => intro rs k; exact ⟨rfl, rfl⟩
  | cons g t ih =>
    intro rs k
    simp only [List.foldl_cons]
    obtain ⟨h1, h2⟩ := ih (markGroup rs g.2) k
    obtain ⟨f1, f2, _⟩ := markGroup_frame rs g.2 k
    exact ⟨h1.trans f1, h2.trans f2⟩

/-- An out-of-range index is never changed by the marking fold. -/
theorem mgFold_oob (j : Nat) :
    ∀ (gl : List (String × List Nat)) (rs : List Rec), rs.length ≤ j →
      getRec (gl.foldl (fun rs g => markGroup rs g.2) rs) j = getRec rs j := by
  intro gl
  induction gl with
  | nil => intro rs _; rfl
  | cons g t ih =>
    intro rs hlen
    simp only [List.foldl_cons]
    rw [ih _ (by rw [markGroup_length]; exact hlen)]
    rw [markGroup_getRec, if_neg (by omega)]

/-- The fold of `markGroup` over group entries all of whose `j`-containing
entries carry the same member list `G` marks `j` (a non-minimal member)
with the source path of `G`'s minimum, exactly once up to idempotence. -/
theorem mgFold_touched (j : Nat) (G : List Nat) (hjG : j ∈ G) (hmin : j ≠ listMin G) :
    ∀ (gl : List (String × List Nat)) (rs : List Rec), j < rs.length →
      (∀ e ∈ gl, j ∈ e.2 → e.2 = G) →
      (∃ e ∈ gl, j ∈ e.2) →
      getRec (gl.foldl (fun rs g => markGroup rs g.2) rs) j =
        {getRec rs j with duplicate_of := (getRec rs (listMin G)).source_path} := by
  intro gl
  induction gl with
  | nil =>
    intro rs _ _ hex
    obtain ⟨e, he, _⟩ := hex
    simp at he
  | cons g t ih =>
    intro rs hjlen hall hex
    simp only [List.foldl_cons]
    by_cases hjg : j ∈ g.2
    · have hgG : g.2 = G := hall g (List.mem_cons_self g t) hjg
      -- after the head step, j is marked; the tail is absorbed
      have habs : ∀ (tl : List (String × List Nat)) (rs2 : List Rec),
          (∀ e ∈ tl, j ∈ e.2 → e.2 = G) →
          j < rs2.length →
          (∀ k, (getRec rs2 k).source_path = (getRec rs k).source_path) →
          getRec rs2 j = {getRec rs j with duplicate_of := (getRec rs (listMin G)).source_path} →
          getRec (tl.foldl (fun rs g => markGroup rs g.2) rs2) j =
            {getRec rs j with duplicate_of := (getRec rs (listMin G)).source_path} := by
        intro tl
        induction tl with
        | nil => intro rs2 _ _ _ hst; exact hst
        | cons g2 t2 ih2 =>
          intro rs2 hall2 hjlen2 hpath2 hst
          simp only [List.foldl_cons]
          by_cases hjg2 : j ∈ g2.2
          · have hg2G : g2.2 = G := hall2 g2 (List.mem_cons_self g2 t2) hjg2
            apply ih2 _ (fun e he hj => hall2 e (List.mem_cons_of_mem g2 he) hj)
            · rw [markGroup_length]; exact hjlen2
            · intro k
              exact (markGroup_frame rs2 g2.2 k).1.trans (hpath2 k)
            · rw [markGroup_getRec, hg2G]
              rw [if_pos ⟨hjG, hmin, hjlen2⟩]
              rw [hst, hpath2 (listMin G)]
          · apply ih2 _ (fun e he hj => hall2 e (List.mem_cons_of_mem g2 he) hj)
            · rw [markGroup_length]; exact hjlen2
            · intro k
              exact (markGroup_frame rs2 g2.2 k).1.trans (hpath2 k)
            · rw [markGroup_getRec, if_neg (by tauto)]
              exact hst
      apply habs t (markGroup rs g.2) (fun e he hj => hall e (List.mem_cons_of_mem g he) hj)
      · rw [markGroup_length]; exact hjlen
      · intro k
        exact (markGroup_frame rs g.2 k).1
      · rw [markGroup_getRec, hgG, if_pos ⟨hjG, hmin, hjlen⟩]
    · have hnt : ∃ e ∈ t, j ∈ e.2 := by
        obtain ⟨e, he, hje⟩ := hex
        rcases List.mem_cons.mp he with rfl | he2
        · exact absurd hje hjg
        · exact ⟨e, he2, hje⟩
      have step := ih (markGroup rs g.2) (by rw [markGroup_length]; exact hjlen)
        (fun e he hj => hall e (List.mem_cons_of_mem g he) hj) hnt
      rw [step]
      rw [markGroup_getRec, if_neg (by tauto)]
      obtain ⟨hp, _, _⟩ := markGroup_frame rs g.2 (listMin G)
      rw [hp]

/-- Pointwise effect of `markMulti` on one signature group: a member with a
non-empty hash that is not the minimum of its full-hash group gets
`duplicate_of := source path of that minimum`; everything else is
untouched. -/
theorem markMulti_getRec (rs : List Rec) (L : List Nat) (j : Nat) :
    getRec (markMulti rs L) j =
      if j ∈ L ∧ (getRec rs j).fullhash ≠ "" ∧ j ≠ listMin (fhGroup rs L j) ∧ j < rs.length then
        {getRec rs j with duplicate_of := (getRec rs (listMin (fhGroup rs L j))).source_path}
      else getRec rs j := by
  by_cases hc : j ∈ L ∧ (getRec rs j).fullhash ≠ "" ∧ j ≠ listMin (fhGroup rs L j) ∧ j < rs.length
  · rw [if_pos hc]
    obtain ⟨hjL, hfh, hmin, hjlen⟩ := hc
    have hjG : j ∈ fhGroup rs L j := by
      rw [fhGroup, List.mem_filter]
      exact ⟨hjL, by simp⟩
    apply mgFold_touched j (fhGroup rs L j) hjG hmin (byFull rs L) rs hjlen
    · intro e he hje
      exact (byFull_mem_entry he hje).2.2.2
    · obtain ⟨e, he, hje⟩ := byFull_covers hjL hfh
      exact ⟨e, he, hje⟩
  · rw [if_neg hc]
    by_cases hjlen : j < rs.length
    · apply mgFold_untouched j (byFull rs L) rs
      intro e he
      by_cases hje : j ∈ e.2
      · obtain ⟨hjL, _, hfh, hv⟩ := byFull_mem_entry he hje
        right
        by_contra hne
        exact hc ⟨hjL, hfh, by rw [hv] at hne; exact hne, hjlen⟩
      · exact Or.inl hje
    · exact mgFold_oob j (byFull rs L) rs (by omega)

theorem markMulti_length (rs : List Rec) (L : List Nat) :
    (markMulti rs L).length = rs.length := by
  simpa only [markMulti] using mgFold_length (byFull rs L) rs

theorem markMulti_frame (rs : List Rec) (L : List Nat) (k : Nat) :
    (getRec (markMulti rs L) k).source_path = (getRec rs k).source_path ∧
      (getRec (markMulti rs L) k).fullhash = (getRec rs k).fullhash := by
  simpa only [markMulti] using mgFold_frame (byFull rs L) rs k

/-- `fhGroup` depends only on the stored hashes, which marking preserves. -/
theorem fhGroup_congr {rs2 rs : List Rec}
    (hfh : ∀ k, (getRec rs2 k).fullhash = (getRec rs k).fullhash) (L : List Nat) (j : Nat) :
    fhGroup rs2 L j = fhGroup rs L j := by
  unfold fhGroup
  apply List.filter_congr
  intro i _
  rw [hfh i, hfh j]

theorem mmFold_length (ml : List (List Nat)) :
    ∀ rs : List Rec, (ml.foldl (fun rs idxs => markMulti rs idxs) rs).length = rs.length := by
  induction ml with
  | nil => intro rs; rfl
  | cons L t ih =>
    intro rs
    simp only [List.foldl_cons]
    rw [ih, markMulti_length]

theorem mmFold_frame (ml : List (List Nat)) :
    ∀ (rs : List Rec) (k : Nat),
      (getRec (ml.foldl (fun rs idxs => markMulti rs idxs) rs) k).source_path =
        (getRec rs k).source_path ∧
      (getRec (ml.foldl (fun rs idxs => markMulti rs idxs) rs) k).fullhash =
        (getRec rs k).fullhash := by
  induction ml with
  | nil => intro rs k; exact ⟨rfl, rfl⟩
  | cons L t ih =>
    intro rs k
    simp only [List.foldl_cons]
    obtain ⟨h1, h2⟩ := ih (markMulti rs L) k
    obtain ⟨f1, f2⟩ := markMulti_frame rs L k
    exact ⟨h1.trans f1, h2.trans f2⟩

/-- The marking fold over signature groups none of which mark `j` leaves
`j`'s record untouched. -/
theorem mmFold_untouched (j : Nat) :
    ∀ (ml : List (List Nat)) (rs : List Rec),
      (∀ L ∈ ml, ¬ (j ∈ L ∧ (getRec rs j).fullhash ≠ "" ∧
          j ≠ listMin (fhGroup rs L j) ∧ j < rs.length)) →
      getRec (ml.foldl (fun rs idxs => markMulti rs idxs) rs) j = getRec rs j := by
  intro ml
  induction ml with
  | nil => intro rs _; rfl
  | cons L0 t ih =>
    intro rs hall
    simp only [List.foldl_cons]
    have hstep : getRec (markMulti rs L0) j = getRec rs j := by
      rw [markMulti_getRec, if_neg (hall L0 (List.mem_cons_self L0 t))]
    rw [ih (markMulti rs L0), hstep]
    intro L hL
    have hfr : ∀ k, (getRec (markMulti rs L0) k).fullhash = (getRec rs k).fullhash :=
      fun k => (markMulti_frame rs L0 k).2
    rw [markMulti_length, hfr j, fhGroup_congr hfr]
    exact hall L (List.mem_cons_of_mem L0 hL)

/-- The marking fold over signature groups all of whose `j`-containing
entries equal `C` marks a non-minimal member `j` of `C`'s full-hash group
with the source path of its minimum. -/
theorem mmFold_touched (j : Nat) (C : List Nat) (hjC : j ∈ C) :
    ∀ (ml : List (List Nat)) (rs : List Rec),
      (getRec rs j).fullhash ≠ "" →
      j ≠ listMin (fhGroup rs C j) → j < rs.length →
      (∀ L ∈ ml, j ∈ L → L = C) →
      (C ∈ ml) →
      getRec (ml.foldl (fun rs idxs => markMulti rs idxs) rs) j =
        {getRec rs j with
          duplicate_of := (getRec rs (listMin (fhGroup rs C j))).source_path} := by
  intro ml
  induction ml with
  | nil =>
    intro rs _ _ _ _ hC
    simp at hC
  | cons L0 t ih =>
    intro rs hfh hmin hjlen hall hC
    simp only [List.foldl_cons]
    by_cases hjL0 : j ∈ L0
    · have hL0C : L0 = C := hall L0 (List.mem_cons_self L0 t) hjL0
      subst hL0C
      -- after the head step, j is marked; the tail is absorbed
      have habs : ∀ (tl : List (List Nat)) (rs2 : List Rec),
          (∀ L ∈ tl, j ∈ L → L = L0) →
          j < rs2.length →
          (∀ k, (getRec rs2 k).source_path = (getRec rs k).source_path) →
          (∀ k, (getRec rs2 k).fullhash = (getRec rs k).fullhash) →
          getRec rs2 j =
            {getRec rs j with
              duplicate_of := (getRec rs (listMin (fhGroup rs L0 j))).source_path} →
          getRec (tl.foldl (fun rs idxs => markMulti rs idxs) rs2) j =
            {getRec rs j with
              duplicate_of := (getRec rs (listMin (fhGroup rs L0 j))).source_path} := by
        intro tl
        induction tl with
        | nil => intro rs2 _ _ _ _ hst; exact hst
        | cons L2 t2 ih2 =>
          intro rs2 hall2 hjlen2 hpath2 hfh2 hst
          simp only [List.foldl_cons]
          apply ih2 _ (fun L hL hj => hall2 L (List.mem_cons_of_mem L2 hL) hj)
          · rw [markMulti_length]; exact hjlen2
          · intro k
            exact (markMulti_frame rs2 L2 k).1.trans (hpath2 k)
          · intro k
            exact (markMulti_frame rs2 L2 k).2.trans (hfh2 k)
          · by_cases hjL2 : j ∈ L2
            · have hL2C : L2 = L0 := hall2 L2 (List.mem_cons_self L2 t2) hjL2
              rw [hL2C]
              rw [markMulti_getRec]
              rw [if_pos ⟨hjC, by rw [hfh2 j]; exact hfh,
                by rw [fhGroup_congr hfh2]; exact hmin, hjlen2⟩]
              rw [fhGroup_congr hfh2, hpath2 (listMin (fhGroup rs L0 j)), hst]
            · rw [markMulti_getRec, if_neg (by tauto)]
              exact hst
      apply habs t (markMulti rs L0) (fun L hL hj => hall L (List.mem_cons_of_mem L0 hL) hj)
      · rw [markMulti_length]; exact hjlen
      · intro k; exact (markMulti_frame rs L0 k).1
      · intro k; exact (markMulti_frame rs L0 k).2
      · rw [markMulti_getRec, if_pos ⟨hjC, hfh, hmin, hjlen⟩]
    · have hCt : C ∈ t := by
        rcases List.mem_cons.mp hC with rfl | h
        · exact absurd hjC hjL0
        · exact h
      have hfr : ∀ k, (getRec (markMulti rs L0) k).fullhash = (getRec rs k).fullhash :=
        fun k => (markMulti_frame rs L0 k).2
      have hun : getRec (markMulti rs L0) j = getRec rs j := by
        rw [markMulti_getRec, if_neg (by tauto)]
      have step := ih (markMulti rs L0)
        (by rw [hfr j]; exact hfh)
        (by rw [fhGroup_congr hfr]; exact hmin)
        (by rw [markMulti_length]; exact hjlen)
        (fun L hL hj => hall L (List.mem_cons_of_mem L0 hL) hj) hCt
      rw [step, fhGroup_congr hfr, hun, (markMulti_frame rs L0 (listMin (fhGroup rs C j))).1]

/-- `j` belongs to its own full-hash group. -/
theorem hashGroupOf_self {h : String → String} {rs : List Rec} {j : Nat} (hj : j < rs.length) :
    j ∈ hashGroupOf h rs j := by
  rw [hashGroupOf, List.mem_filter]
  exact ⟨sigClassOf_self hj, by simp⟩

theorem hashGroupOf_sub {h : String → String} {rs : List Rec} {j i : Nat}
    (hi : i ∈ hashGroupOf h rs j) : i ∈ sigClassOf rs j :=
  (List.mem_filter.mp hi).1

/-- Pointwise characterization of `stage_full_hash_for_collisions`: a record
in a signature-collision class gets its full hash computed; if that hash is
non-empty and the record is not the minimum index of its (signature,
full-hash) group, it is marked a duplicate of that minimum's source path;
every other record is untouched. -/
theorem stage_getRec (h : String → String) (rs : List Rec) (j : Nat) :
    getRec (stage_full_hash_for_collisions h rs) j =
      if 1 < (sigClassOf rs j).length ∧ j < rs.length then
        if h (getRec rs j).source_path ≠ "" ∧ j ≠ listMin (hashGroupOf h rs j) then
          {getRec rs j with
            fullhash := h (getRec rs j).source_path,
            duplicate_of := (getRec rs (listMin (hashGroupOf h rs j))).source_path}
        else {getRec rs j with fullhash := h (getRec rs j).source_path}
      else getRec rs j := by
  by_cases hm : multiGroups rs = []
  · simp only [stage_full_hash_for_collisions]
    rw [if_pos hm]
    by_cases hcond : 1 < (sigClassOf rs j).length ∧ j < rs.length
    · exact absurd hm (by
        have := multiGroups_mem_of hcond.2 hcond.1
        intro he
        rw [he] at this
        simp at this)
    · rw [if_neg hcond]
  · simp only [stage_full_hash_for_collisions]
    rw [if_neg hm]
    by_cases hcond : 1 < (sigClassOf rs j).length ∧ j < rs.length
    · obtain ⟨hbig, hjlen⟩ := hcond
      have hCm : sigClassOf rs j ∈ multiGroups rs := multiGroups_mem_of hjlen hbig
      have hjC : j ∈ sigClassOf rs j := sigClassOf_self hjlen
      have hjflat : j ∈ (multiGroups rs).flatMap id := multiFlat_mem.mpr ⟨hjlen, hbig⟩
      have hCin : ∀ i ∈ sigClassOf rs j, i ∈ (multiGroups rs).flatMap id ∧ i < rs.length := by
        intro i hi
        refine ⟨List.mem_flatMap.mpr ⟨sigClassOf rs j, hCm, by simpa [id] using hi⟩, ?_⟩
        exact (sigClassOf_mem.mp hi).1
      have hrs1C : ∀ i ∈ sigClassOf rs j,
          getRec (applyHashes h rs ((multiGroups rs).flatMap id)) i =
            {getRec rs i with fullhash := h (getRec rs i).source_path} := by
        intro i hi
        rw [applyHashes_getRec, if_pos (hCin i hi)]
      have hrs1j := hrs1C j hjC
      have hfe : fhGroup (applyHashes h rs ((multiGroups rs).flatMap id)) (sigClassOf rs j) j =
          hashGroupOf h rs j := by
        rw [fhGroup, hashGroupOf]
        apply List.filter_congr
        intro i hi
        rw [hrs1C i hi, hrs1j]
      have hall : ∀ L ∈ multiGroups rs, j ∈ L → L = sigClassOf rs j := by
        intro L hL hjL
        exact ((multiGroups_all hL).2 j hjL).2
      rw [if_pos ⟨hbig, hjlen⟩]
      by_cases hmark : h (getRec rs j).source_path ≠ "" ∧ j ≠ listMin (hashGroupOf h rs j)
      · rw [if_pos hmark]
        have hkC : listMin (hashGroupOf h rs j) ∈ sigClassOf rs j :=
          hashGroupOf_sub (listMin_mem _ (by
            intro he
            have := hashGroupOf_self (h := h) hjlen
            rw [he] at this
            simp at this))
        rw [mmFold_touched j (sigClassOf rs j) hjC (multiGroups rs)
          (applyHashes h rs ((multiGroups rs).flatMap id))
          (by rw [hrs1j]; exact hmark.1)
          (by rw [hfe]; exact hmark.2)
          (by rw [applyHashes_length]; exact hjlen)
          hall hCm]
        rw [hfe, hrs1j, hrs1C _ hkC]
      · rw [if_neg hmark]
        rw [mmFold_untouched j (multiGroups rs) (applyHashes h rs ((multiGroups rs).flatMap id))]
        · exact hrs1j
        · intro L hL
          rintro ⟨hjL, hfh, hmin, _⟩
          have hLC := hall L hL hjL
          rw [hLC, hfe] at hmin
          rw [hrs1j] at hfh
          exact hmark ⟨hfh, hmin⟩
    · rw [if_neg hcond]
      have hrs1j : getRec (applyHashes h rs ((multiGroups rs).flatMap id)) j = getRec rs j := by
        rw [applyHashes_getRec, if_neg]
        rintro ⟨hjf, hjl⟩
        exact hcond ⟨(multiFlat_mem.mp hjf).2, hjl⟩
      rw [mmFold_untouched j (multiGroups rs) (applyHashes h rs ((multiGroups rs).flatMap id))]
      · exact hrs1j
      · intro L hL
        rintro ⟨hjL, _, _, hjl⟩
        rw [applyHashes_length] at hjl
        obtain ⟨hlen2, hallL⟩ := multiGroups_all hL
        obtain ⟨_, hLe⟩ := hallL j hjL
        rw [hLe] at hlen2
        exact hcond ⟨hlen2, hjl⟩

theorem getRec_mem {rs : List Rec} {j : Nat} (hj : j < rs.length) : getRec rs j ∈ rs := by
  rw [getRec, List.getD_eq_getElem rs default hj]
  exact List.getElem_mem hj

/-- Under distinct source paths, distinct in-range indices carry distinct
paths. -/
theorem paths_distinct {rs : List Rec} (hnd : (rs.map Rec.source_path).Nodup)
    {i j : Nat} (hij : i ≠ j) (hi : i < rs.length) (hj : j < rs.length) :
    (getRec rs i).source_path ≠ (getRec rs j).source_path := by
  intro he
  apply hij
  have hi' : i < (rs.map Rec.source_path).length := by simpa using hi
  have hj' : j < (rs.map Rec.source_path).length := by simpa using hj
  have he' : (rs.map Rec.source_path)[i] = (rs.map Rec.source_path)[j] := by
    simp only [List.getElem_map]
    rw [getRec, getRec, List.getD_eq_getElem rs default hi, List.getD_eq_getElem rs default hj] at he
    exact he
  exact (List.Nodup.getElem_inj_iff hnd).mp he'

/-- The full-hash group is the same seen from any of its members. -/
theorem hashGroupOf_congr {h : String → String} {rs : List Rec} {j k : Nat}
    (hk : k ∈ hashGroupOf h rs j) : hashGroupOf h rs k = hashGroupOf h rs j := by
  have hkC : k ∈ sigClassOf rs j := hashGroupOf_sub hk
  have hsig : (getRec rs k).sig = (getRec rs j).sig := (sigClassOf_mem.mp hkC).2
  have hhash : h (getRec rs k).source_path = h (getRec rs j).source_path := by
    have := (List.mem_filter.mp hk).2
    simpa using this
  rw [hashGroupOf, hashGroupOf, sigClassOf_congr hsig]
  apply List.filter_congr
  intro i _
  rw [hhash]

theorem sigClassOf_len_congr {rs : List Rec} {j k : Nat}
    (hk : k ∈ sigClassOf rs j) : sigClassOf rs k = sigClassOf rs j :=
  sigClassOf_congr (sigClassOf_mem.mp hk).2

/-- C4: after `Planner.stage_full_hash_for_collisions`, in every group of
records sharing a signature and a non-empty full content hash exactly the
member with the smallest record index keeps an empty `duplicate_of`, every
other member's `duplicate_of` is that keeper's source path, no record's
`duplicate_of` equals its own source path, and members whose full hash
could not be computed are left unmarked. -/
theorem c4_duplicate_marking (h : String → String) (rs : List Rec)
    (Hdup : ∀ r ∈ rs, r.duplicate_of = "")
    (Hpne : ∀ r ∈ rs, r.source_path ≠ "")
    (Hnd : (rs.map Rec.source_path).Nodup)
    (j : Nat) (hj : j < rs.length) :
    (1 < (sigClassOf rs j).length → h (getRec rs j).source_path ≠ "" →
      (((getRec (stage_full_hash_for_collisions h rs) j).duplicate_of = "") ↔
        j = listMin (hashGroupOf h rs j)) ∧
      (j ≠ listMin (hashGroupOf h rs j) →
        (getRec (stage_full_hash_for_collisions h rs) j).duplicate_of =
          (getRec rs (listMin (hashGroupOf h rs j))).source_path)) ∧
    (h (getRec rs j).source_path = "" →
      (getRec (stage_full_hash_for_collisions h rs) j).duplicate_of = "") ∧
    (getRec (stage_full_hash_for_collisions h rs) j).duplicate_of ≠
      (getRec (stage_full_hash_for_collisions h rs) j).source_path := by
  have hdupj : (getRec rs j).duplicate_of = "" := Hdup _ (getRec_mem hj)
  have hpj : (getRec rs j).source_path ≠ "" := Hpne _ (getRec_mem hj)
  by_cases hbig : 1 < (sigClassOf rs j).length
  · have hGne : hashGroupOf h rs j ≠ [] := by
      intro he
      have := hashGroupOf_self (h := h) hj
      rw [he] at this
      simp at this
    have hkG : listMin (hashGroupOf h rs j) ∈ hashGroupOf h rs j := listMin_mem _ hGne
    have hkC := hashGroupOf_sub hkG
    have hklen : listMin (hashGroupOf h rs j) < rs.length := (sigClassOf_mem.mp hkC).1
    have hpk : (getRec rs (listMin (hashGroupOf h rs j))).source_path ≠ "" :=
      Hpne _ (getRec_mem hklen)
    rw [stage_getRec, if_pos ⟨hbig, hj⟩]
    by_cases hfhj : h (getRec rs j).source_path = ""
    · rw [if_neg (by tauto)]
      refine ⟨fun _ hne => absurd hfhj hne, fun _ => ?_, fun he => hpj ?_⟩
      · simp only []
        exact hdupj
      · simp only [] at he
        rw [hdupj] at he
        exact he.symm
    · by_cases hmin : j = listMin (hashGroupOf h rs j)
      · rw [if_neg (by tauto)]
        refine ⟨fun _ _ => ⟨?_, fun hne => absurd hmin hne⟩, fun he => absurd he hfhj,
          fun he => hpj ?_⟩
        · simp only []
          rw [hdupj]
          exact ⟨fun _ => hmin, fun _ => rfl⟩
        · simp only [] at he
          rw [hdupj] at he
          exact he.symm
      · rw [if_pos ⟨hfhj, hmin⟩]
        have hkj : listMin (hashGroupOf h rs j) ≠ j := fun he => hmin he.symm
        refine ⟨fun _ _ => ⟨?_, fun _ => rfl⟩, fun he => absurd he hfhj, ?_⟩
        · simp only []
          exact ⟨fun he => absurd he hpk, fun he => absurd he hmin⟩
        · simp only []
          exact paths_distinct Hnd hkj hklen hj
  · rw [stage_getRec, if_neg (by tauto)]
    refine ⟨fun hb => absurd hb hbig, fun _ => hdupj, fun he => hpj ?_⟩
    rw [hdupj] at he
    exact he.symm

/-- Witness for C4 at a concrete two-record signature collision: the
second record is marked as a duplicate of the keeper with the smallest
index. -/
theorem c4_witness :
    (getRec (stage_full_hash_for_collisions (fun _ => "H") [recA, recB]) 1).duplicate_of =
      (getRec [recA, recB]
        (listMin (hashGroupOf (fun _ => "H") [recA, recB] 1))).source_path := by
  have happ := c4_duplicate_marking (fun _ => "H") [recA, recB]
    (by decide) (by decide) (by decide) 1 (by decide)
  exact (happ.1 (by decide) (by decide)).2 (by decide)

/-- Enumerating a record list by index recovers it. -/
theorem range_map_getRec (rs : List Rec) :
    (List.range rs.length).map (fun j => getRec rs j) = rs := by
  apply List.ext_getElem
  · simp
  · intro i h1 h2
    simp only [List.getElem_map, List.getElem_range]
    rw [getRec, List.getD_eq_getElem rs default h2]

/-- An index-level filter-and-project over the range is a record-level
filter-and-project over the list. -/
theorem rangeFilter_map (rs : List Rec) (q : Rec → Bool) (f : Rec → String) :
    ((List.range rs.length).filter (fun j => q (getRec rs j))).map (fun j => f (getRec rs j)) =
      (rs.filter q).map f := by
  conv_rhs => rw [← range_map_getRec rs]
  rw [List.filter_map, List.map_map]
  rfl

/-- The size of a signature class is the number of records carrying that
signature. -/
theorem sigClassOf_length_eq (rs : List Rec) (j : Nat) :
    (sigClassOf rs j).length =
      (rs.filter (fun r => decide (r.sig = (getRec rs j).sig))).length := by
  have h := congrArg List.length
    (rangeFilter_map rs (fun r => decide (r.sig = (getRec rs j).sig)) Rec.source_path)
  simpa [sigClassOf] using h

/-- The source paths of a full-hash group, expressed as a record-level
filter of the record list. -/
theorem hashGroupOf_paths (h : String → String) (rs : List Rec) (j : Nat) :
    (hashGroupOf h rs j).map (fun k => (getRec rs k).source_path) =
      (rs.filter (fun r => decide (h r.source_path = h (getRec rs j).source_path) &&
          decide (r.sig = (getRec rs j).sig))).map Rec.source_path := by
  rw [hashGroupOf, sigClassOf, List.filter_filter]
  exact rangeFilter_map rs
    (fun r => decide (h r.source_path = h (getRec rs j).source_path) &&
      decide (r.sig = (getRec rs j).sig)) Rec.source_path

/-- Under distinct source paths, a record is determined by its path. -/
theorem path_lookup_unique {rs : List Rec} (hnd : (rs.map Rec.source_path).Nodup)
    {r r' : Rec} (hr : r ∈ rs) (hr' : r' ∈ rs)
    (hp : r'.source_path = r.source_path) : r' = r := by
  have hrf : r ∈ rs.filter (fun x => decide (x.source_path = r.source_path)) :=
    List.mem_filter.mpr ⟨hr, by simp⟩
  have hrf' : r' ∈ rs.filter (fun x => decide (x.source_path = r.source_path)) :=
    List.mem_filter.mpr ⟨hr', by simp [hp]⟩
  cases hq : rs.filter (fun x => decide (x.source_path = r.source_path)) with
  | nil =>
    rw [hq] at hrf
    simp at hrf
  | cons a t =>
    cases t with
    | nil =>
      rw [hq] at hrf hrf'
      simp only [List.mem_singleton] at hrf hrf'
      rw [hrf, hrf']
    | cons b t2 =>
      exfalso
      have hsub : (a :: b :: t2).Sublist rs := by
        rw [← hq]
        exact List.filter_sublist rs
      have hnd2 : ((a :: b :: t2).map Rec.source_path).Nodup :=
        hnd.sublist (hsub.map Rec.source_path)
      have ha : a ∈ rs.filter (fun x => decide (x.source_path = r.source_path)) := by
        rw [hq]; exact List.mem_cons_self a _
      have hb : b ∈ rs.filter (fun x => decide (x.source_path = r.source_path)) := by
        rw [hq]
        exact List.mem_cons_of_mem a (List.mem_cons_self b t2)
      have hap : a.source_path = r.source_path := by
        have := (List.mem_filter.mp ha).2
        simpa using this
      have hbp : b.source_path = r.source_path := by
        have := (List.mem_filter.mp hb).2
        simpa using this
      simp only [List.map_cons, List.nodup_cons, List.mem_cons] at hnd2
      exact hnd2.1 (Or.inl (hap.trans hbp.symm))

/-- The keeper of a hashed collision group is exactly the member with the
smallest record index. -/
theorem keeper_iff (h : String → String) (rs : List Rec)
    (Hdup : ∀ r ∈ rs, r.duplicate_of = "") (Hpne : ∀ r ∈ rs, r.source_path ≠ "")
    (j : Nat) (hj : j < rs.length) (hbig : 1 < (sigClassOf rs j).length)
    (hfh : h (getRec rs j).source_path ≠ "") :
    ((getRec (stage_full_hash_for_collisions h rs) j).duplicate_of = "") ↔
      j = listMin (hashGroupOf h rs j) := by
  have hGne : hashGroupOf h rs j ≠ [] := by
    intro he
    have := hashGroupOf_self (h := h) hj
    rw [he] at this
    simp at this
  have hkG : listMin (hashGroupOf h rs j) ∈ hashGroupOf h rs j := listMin_mem _ hGne
  have hklen : listMin (hashGroupOf h rs j) < rs.length :=
    (sigClassOf_mem.mp (hashGroupOf_sub hkG)).1
  rw [stage_getRec, if_pos ⟨hbig, hj⟩]
  by_cases hmin : j = listMin (hashGroupOf h rs j)
  · rw [if_neg (fun hc => hc.2 hmin)]
    simp only []
    rw [Hdup _ (getRec_mem hj)]
    exact ⟨fun _ => hmin, fun _ => rfl⟩
  · rw [if_pos ⟨hfh, hmin⟩]
    simp only []
    exact ⟨fun he => absurd he (Hpne _ (getRec_mem hklen)), fun he => absurd he hmin⟩

/-- C5 (amended): deduplication over a re-ordered record collection sees
the same records and the same duplicate groups (as sets of source paths),
and in each ordering the keeper of a collision group is the member with
the smallest record index *in that ordering* — the keeper therefore follows
record order (completion order), not an order-independent tiebreak. -/
theorem c5_keeper_min_index_amended (h : String → String) (rs rs' : List Rec)
    (hperm : rs.Perm rs')
    (Hnd : (rs.map Rec.source_path).Nodup)
    (Hdup : ∀ r ∈ rs, r.duplicate_of = "")
    (Hpne : ∀ r ∈ rs, r.source_path ≠ "")
    (i i' : Nat) (hi : i < rs.length) (hi' : i' < rs'.length)
    (hpath : (getRec rs' i').source_path = (getRec rs i).source_path) :
    getRec rs' i' = getRec rs i ∧
    ((hashGroupOf h rs' i').map (fun k => (getRec rs' k).source_path)).Perm
      ((hashGroupOf h rs i).map (fun k => (getRec rs k).source_path)) ∧
    (1 < (sigClassOf rs i).length → h (getRec rs i).source_path ≠ "" →
      (((getRec (stage_full_hash_for_collisions h rs) i).duplicate_of = "") ↔
          i = listMin (hashGroupOf h rs i)) ∧
      (((getRec (stage_full_hash_for_collisions h rs') i').duplicate_of = "") ↔
          i' = listMin (hashGroupOf h rs' i'))) := by
  have hrec : getRec rs' i' = getRec rs i :=
    path_lookup_unique Hnd (getRec_mem hi) (hperm.mem_iff.mpr (getRec_mem hi')) hpath
  refine ⟨hrec, ?_, ?_⟩
  · rw [hashGroupOf_paths h rs' i', hashGroupOf_paths h rs i, hrec]
    exact ((hperm.filter _).map _).symm
  · intro hbig hfh
    have hbig' : 1 < (sigClassOf rs' i').length := by
      have hl : (sigClassOf rs' i').length = (sigClassOf rs i).length := by
        rw [sigClassOf_length_eq rs' i', hrec, ← List.Perm.length_eq (hperm.filter _),
          ← sigClassOf_length_eq rs i]
      rw [hl]
      exact hbig
    refine ⟨keeper_iff h rs Hdup Hpne i hi hbig hfh, ?_⟩
    apply keeper_iff h rs'
      (fun r hr => Hdup r (hperm.mem_iff.mpr hr))
      (fun r hr => Hpne r (hperm.mem_iff.mpr hr))
      i' hi' hbig'
    rw [hrec]
    exact hfh

/-- Witness for the amended C5: in each of two orderings of the same two
colliding records, the keeper is the index-0 record of that ordering. -/
theorem c5_amended_witness :
    ((getRec (stage_full_hash_for_collisions (fun _ => "H") [recA, recB]) 0).duplicate_of = "" ↔
      (0 : Nat) = listMin (hashGroupOf (fun _ => "H") [recA, recB] 0)) ∧
    ((getRec (stage_full_hash_for_collisions (fun _ => "H") [recB, recA]) 1).duplicate_of = "" ↔
      (1 : Nat) = listMin (hashGroupOf (fun _ => "H") [recB, recA] 1)) := by
  have happ := c5_keeper_min_index_amended (fun _ => "H") [recA, recB] [recB, recA]
    (by decide) (by decide) (by decide) (by decide) 0 1 (by decide) (by decide) (by decide)
  exact happ.2.2 (by decide) (by decide)

/-! ## Frequency-table lookups (`glook`) as fibres of the dated list -/

section GlookLemmas

variable {κ : Type} [DecidableEq κ]

/-- In an association list with duplicate-free keys, an entry is determined
by its key. -/
theorem entry_unique {β : Type} {g : List (κ × β)} (hnd : (g.map Prod.fst).Nodup)
    {e e' : κ × β} (he : e ∈ g) (he' : e' ∈ g) (hk : e.1 = e'.1) : e = e' := by
  induction g with
  | nil => simp at he
  | cons a t ih =>
    simp only [List.map_cons, List.nodup_cons] at hnd
    cases he with
    | head =>
      cases he' with
      | head => rfl
      | tail _ h' =>
        exfalso
        apply hnd.1
        rw [hk]
        exact List.mem_map_of_mem Prod.fst h'
    | tail _ h =>
      cases he' with
      | head =>
        exfalso
        apply hnd.1
        rw [← hk]
        exact List.mem_map_of_mem Prod.fst h
      | tail _ h' => exact ih hnd.2 h h'

/-- `glook` returns the stored member list of a present entry. -/
theorem glook_val {ps : List (κ × Nat)} {e : κ × List Nat} (he : e ∈ groupPairs ps) :
    glook (groupPairs ps) e.1 = e.2 := by
  unfold glook
  cases hf : (groupPairs ps).find? (fun x => decide (x.1 = e.1)) with
  | none =>
    exfalso
    have := List.find?_eq_none.mp hf e he
    simp at this
  | some e' =>
    have hm := List.mem_of_find?_eq_some hf
    have hp := List.find?_some hf
    simp only [decide_eq_true_eq] at hp
    have : e' = e := entry_unique (groupPairs_keys_nodup ps) hm he hp
    rw [this]
    rfl

/-- A table built by keying a list is looked up by fibre: `glook` of any key
is the projection of the elements carrying that key. -/
theorem glook_fiber {β : Type} (l : List β) (keyf : β → κ) (idxf : β → Nat) (k : κ) :
    glook (groupPairs (l.map (fun p => (keyf p, idxf p)))) k =
      (l.filter (fun p => decide (keyf p = k))).map idxf := by
  cases hf : (groupPairs (l.map (fun p => (keyf p, idxf p)))).find?
      (fun x => decide (x.1 = k)) with
  | none =>
    have hnone : ∀ p ∈ l, ¬ keyf p = k := by
      intro p hp hk
      have hpair : (keyf p, idxf p) ∈ l.map (fun p => (keyf p, idxf p)) :=
        List.mem_map_of_mem _ hp
      have hcov := groupPairs_covers hpair
      rw [List.mem_map] at hcov
      obtain ⟨e, he, hke⟩ := hcov
      have := List.find?_eq_none.mp hf e he
      simp only [hke, hk] at this
      simp at this
    have hl : l.filter (fun p => decide (keyf p = k)) = [] :=
      List.filter_eq_nil_iff.mpr (fun p hp => by simpa using hnone p hp)
    unfold glook
    rw [hf, hl]
    rfl
  | some e =>
    have hm := List.mem_of_find?_eq_some hf
    have hkey : e.1 = k := by
      have := List.find?_some hf
      simpa using this
    have hv := groupPairs_val hm
    have hg : glook (groupPairs (l.map (fun p => (keyf p, idxf p)))) k = e.2 := by
      unfold glook
      rw [hf]
      rfl
    rw [hg, hv, hkey]
    rw [List.filter_map, List.map_map]
    rfl

/-- Concatenating the fibres of the keys selected by `q` is a permutation of
the projection of the elements whose key satisfies `q`. -/
theorem flat_glook {β : Type} (l : List β) (keyf : β → κ) (idxf : β → Nat) (q : κ → Bool) :
    (((((groupPairs (l.map (fun p => (keyf p, idxf p)))).map Prod.fst).filter q).flatMap
        (fun k => glook (groupPairs (l.map (fun p => (keyf p, idxf p)))) k)).Perm
      ((l.filter (fun p => q (keyf p))).map idxf)) := by
  rw [flatMap_congr_mem (fun k _ => glook_fiber l keyf idxf k)]
  have hmf : ((((groupPairs (l.map (fun p => (keyf p, idxf p)))).map Prod.fst).filter q).flatMap
      (fun k => (l.filter (fun p => decide (keyf p = k))).map idxf)) =
      ((((groupPairs (l.map (fun p => (keyf p, idxf p)))).map Prod.fst).filter q).flatMap
        (fun k => l.filter (fun p => decide (keyf p = k)))).map idxf :=
    (List.map_flatMap _ _ _).symm
  rw [hmf]
  refine List.Perm.map idxf ?_
  apply fiber_flat keyf q
  · exact groupPairs_keys_nodup _
  · intro x hx
    exact groupPairs_covers (List.mem_map_of_mem _ hx)

end GlookLemmas

/-! ## Spans returned by the greedy merge, as bucket member lists -/

theorem spans_flatMap_eq {κ : Type} (keys : List κ) (g : κ → List Nat)
    (spans : List (Nat × Nat))
    (hflat : spans.flatMap (fun p => slice keys p.1 p.2) = keys) :
    spans.flatMap (fun p => (slice keys p.1 p.2).flatMap g) = keys.flatMap g := by
  rw [← List.flatMap_assoc, hflat]

theorem sliceSum_eq_length {κ : Type} (keys : List κ) (g : κ → List Nat) (s e : Nat) :
    ((slice keys s e).flatMap g).length = sliceSum keys (fun k => (g k).length) s e := by
  rw [sliceSum, List.length_flatMap]
  rfl

/-- Core property of every `flush_segment`-style helper: when the greedy
merge returns spans over a key segment, the emitted buckets concatenate to
the segment's full membership, and each bucket respects the cap. -/
theorem flush_core {κ : Type} (fuel cap : Nat) (keys : List κ) (g : κ → List Nat)
    (labelf : (Nat × Nat) → String) (spans : List (Nat × Nat))
    (hmerge : greedyMerge fuel keys (fun k => (g k).length) cap = some spans) :
    ((spans.map (fun p => (labelf p, (slice keys p.1 p.2).flatMap g))).flatMap Prod.snd =
      keys.flatMap g) ∧
    (∀ b ∈ spans.map (fun p => (labelf p, (slice keys p.1 p.2).flatMap g)),
      b.2.length ≤ cap) := by
  rw [greedyMerge] at hmerge
  obtain ⟨hall, hflat⟩ :=
    greedyLoop_sound keys (fun k => (g k).length) cap fuel 0 spans (Nat.zero_le _) hmerge
  rw [List.drop_zero] at hflat
  constructor
  · rw [List.flatMap_map]
    exact spans_flatMap_eq keys g spans hflat
  · intro b hb
    rw [List.mem_map] at hb
    obtain ⟨p, hp, rfl⟩ := hb
    obtain ⟨_, _, hsum⟩ := hall p hp
    exact le_trans (le_of_eq (sliceSum_eq_length keys g p.1 p.2)) hsum

/-! ## Label shapes: dated labels start with a digit, undated ones with `u` -/

theorem strData_append_ne (a b : String) (ha : a.data ≠ []) : (a ++ b).data ≠ [] := by
  cases a with
  | mk l =>
    cases b with
    | mk l2 =>
      show (l ++ l2) ≠ []
      simp only [ne_eq, List.append_eq_nil]
      tauto

theorem digitHeaded_append (s t : String) (h : digitHeaded s) : digitHeaded (s ++ t) :=
  ⟨strData_append_ne s t h.1, by rw [headChar_append s t h.1]; exact h.2⟩

theorem digitHeaded_padNum (w n : Nat) : digitHeaded (padNum w n) :=
  ⟨padNum_data_ne_nil w n, headChar_padNum_isDigit w n⟩

theorem digitHeaded_natStr (n : Nat) : digitHeaded (natStr n) :=
  ⟨natStr_data_ne_nil n, headChar_natStr_isDigit n⟩

theorem labelYearRange_headed (y1 y2 : Nat) : digitHeaded (labelYearRange y1 y2) := by
  rw [labelYearRange]
  split
  · exact digitHeaded_natStr y1
  · iterate 2 apply digitHeaded_append
    exact digitHeaded_natStr y1

theorem labelMonthRange_headed (y m1 m2 : Nat) : digitHeaded (labelMonthRange y m1 m2) := by
  rw [labelMonthRange]
  split
  · iterate 2 apply digitHeaded_append
    exact digitHeaded_padNum 4 y
  · iterate 6 apply digitHeaded_append
    exact digitHeaded_padNum 4 y

theorem labelDayRange_headed (y m d1 d2 : Nat) : digitHeaded (labelDayRange y m d1 d2) := by
  rw [labelDayRange]
  split
  · iterate 4 apply digitHeaded_append
    exact digitHeaded_padNum 4 y
  · iterate 10 apply digitHeaded_append
    exact digitHeaded_padNum 4 y

theorem labelMinuteRange_headed (y m d h1 mi1 h2 mi2 : Nat) :
    digitHeaded (labelMinuteRange y m d h1 mi1 h2 mi2) := by
  simp only [labelMinuteRange]
  split
  · iterate 7 apply digitHeaded_append
    exact digitHeaded_padNum 4 y
  · iterate 9 apply digitHeaded_append
    exact digitHeaded_padNum 4 y

/-! ## The dated/unknown split: record frame and membership -/

theorem splitStep_len (acc : List Rec × List (Nat × Ts) × List Nat) (i : Nat) :
    (splitStep acc i).1.length = acc.1.length := by
  obtain ⟨rs, d, u⟩ := acc
  simp only [splitStep]
  repeat' split
  all_goals simp [List.length_set]

/-- The split loop touches only `date_source` and `date_local`. -/
theorem splitStep_frame (acc : List Rec × List (Nat × Ts) × List Nat) (i j : Nat) :
    (getRec (splitStep acc i).1 j).source_path = (getRec acc.1 j).source_path ∧
    (getRec (splitStep acc i).1 j).family = (getRec acc.1 j).family ∧
    (getRec (splitStep acc i).1 j).subtype = (getRec acc.1 j).subtype ∧
    (getRec (splitStep acc i).1 j).integrity = (getRec acc.1 j).integrity ∧
    (getRec (splitStep acc i).1 j).dest_path = (getRec acc.1 j).dest_path := by
  obtain ⟨rs, d, u⟩ := acc
  simp only [splitStep]
  repeat' split
  all_goals first
  | exact ⟨rfl, rfl, rfl, rfl, rfl⟩
  | · rw [getRec_set]
      split
      · rename_i hij
        obtain ⟨hij1, _⟩ := hij
        subst hij1
        exact ⟨rfl, rfl, rfl, rfl, rfl⟩
      · exact ⟨rfl, rfl, rfl, rfl, rfl⟩

theorem splitFold_len (todo : List Nat) :
    ∀ acc : List Rec × List (Nat × Ts) × List Nat,
      (todo.foldl splitStep acc).1.length = acc.1.length := by
  induction todo with
  | nil => intro acc; rfl
  | cons a t ih =>
    intro acc
    simp only [List.foldl_cons]
    rw [ih, splitStep_len]

theorem splitFold_frame (todo : List Nat) :
    ∀ (acc : List Rec × List (Nat × Ts) × List Nat) (j : Nat),
      (getRec (todo.foldl splitStep acc).1 j).source_path = (getRec acc.1 j).source_path ∧
      (getRec (todo.foldl splitStep acc).1 j).family = (getRec acc.1 j).family ∧
      (getRec (todo.foldl splitStep acc).1 j).subtype = (getRec acc.1 j).subtype ∧
      (getRec (todo.foldl splitStep acc).1 j).integrity = (getRec acc.1 j).integrity ∧
      (getRec (todo.foldl splitStep acc).1 j).dest_path = (getRec acc.1 j).dest_path := by
  induction todo with
  | nil => intro acc j; exact ⟨rfl, rfl, rfl, rfl, rfl⟩
  | cons a t ih =>
    intro acc j
    simp only [List.foldl_cons]
    obtain ⟨h1, h2, h3, h4, h5⟩ := ih (splitStep acc a) j
    obtain ⟨f1, f2, f3, f4, f5⟩ := splitStep_frame acc a j
    exact ⟨h1.trans f1, h2.trans f2, h3.trans f3, h4.trans f4, h5.trans f5⟩

/-- Membership of the dated/unknown split, relative to the *initial*
records: each index goes to `dated` (with its resolved instant) exactly when
`resolvedTs` succeeds, to `unknown` otherwise. -/
theorem splitFold_spec (rs : List Rec) :
    ∀ (todo : List Nat) (rsC : List Rec) (d : List (Nat × Ts)) (u : List Nat),
      todo.Nodup → (∀ j ∈ todo, getRec rsC j = getRec rs j) →
      (todo.foldl splitStep (rsC, d, u)).2.1 =
          d ++ todo.filterMap (fun i => (resolvedTs (getRec rs i)).map (fun t => (i, t))) ∧
      (todo.foldl splitStep (rsC, d, u)).2.2 =
          u ++ todo.filter (fun i => !(resolvedTs (getRec rs i)).isSome) := by
  intro todo
  induction todo with
  | nil =>
    intro rsC d u _ _
    simp
  | cons i rest ih =>
    intro rsC d u hnd hacc
    simp only [List.nodup_cons] at hnd
    have hri : getRec rsC i = getRec rs i := hacc i (List.mem_cons_self i rest)
    have hrest : ∀ j ∈ rest, j ≠ i := fun j hj he => hnd.1 (he ▸ hj)
    simp only [List.foldl_cons, List.filterMap_cons, List.filter_cons]
    cases hdl : (getRec rs i).date_local with
    | good t =>
      have hstep : splitStep (rsC, d, u) i = (rsC, d ++ [(i, t)], u) := by
        simp only [splitStep, hri, hdl]
      rw [hstep]
      obtain ⟨e1, e2⟩ := ih rsC (d ++ [(i, t)]) u hnd.2
        (fun j hj => hacc j (List.mem_cons_of_mem i hj))
      rw [e1, e2]
      simp [resolvedTs, hdl]
    | bad s =>
      have hstep : splitStep (rsC, d, u) i = (rsC, d, u ++ [i]) := by
        simp only [splitStep, hri, hdl]
      rw [hstep]
      obtain ⟨e1, e2⟩ := ih rsC d (u ++ [i]) hnd.2
        (fun j hj => hacc j (List.mem_cons_of_mem i hj))
      rw [e1, e2]
      simp [resolvedTs, hdl]
    | empty =>
      by_cases hflag : (getRec rs i).undated_flag = 0
      · cases hm : (getRec rs i).mtime_local with
        | good t =>
          have hstep : splitStep (rsC, d, u) i =
              (rsC.set i {getRec rs i with
                date_source := if (getRec rs i).date_source = "" then "mtime"
                  else (getRec rs i).date_source,
                date_local := (getRec rs i).mtime_local},
               d ++ [(i, t)], u) := by
            simp only [splitStep, hri, hdl]
            rw [if_pos hflag, hm]
          rw [hstep]
          have hmaint : ∀ j2 ∈ rest,
              getRec (rsC.set i {getRec rs i with
                date_source := if (getRec rs i).date_source = "" then "mtime"
                  else (getRec rs i).date_source,
                date_local := (getRec rs i).mtime_local}) j2 = getRec rs j2 := by
            intro j2 hj2
            rw [getRec_set_ne _ _ _ _ (fun he => hrest j2 hj2 he.symm)]
            exact hacc j2 (List.mem_cons_of_mem i hj2)
          obtain ⟨e1, e2⟩ := ih _ (d ++ [(i, t)]) u hnd.2 hmaint
          rw [e1, e2]
          simp [resolvedTs, hdl, hflag, hm]
        | bad s =>
          have hstep : splitStep (rsC, d, u) i = (rsC, d, u ++ [i]) := by
            simp only [splitStep, hri, hdl]
            rw [if_pos hflag, hm]
          rw [hstep]
          obtain ⟨e1, e2⟩ := ih rsC d (u ++ [i]) hnd.2
            (fun j hj => hacc j (List.mem_cons_of_mem i hj))
          rw [e1, e2]
          simp [resolvedTs, hdl, hflag, hm]
        | empty =>
          have hstep : splitStep (rsC, d, u) i = (rsC, d, u ++ [i]) := by
            simp only [splitStep, hri, hdl]
            rw [if_pos hflag, hm]
          rw [hstep]
          obtain ⟨e1, e2⟩ := ih rsC d (u ++ [i]) hnd.2
            (fun j hj => hacc j (List.mem_cons_of_mem i hj))
          rw [e1, e2]
          simp [resolvedTs, hdl, hflag, hm]
      · have hstep : splitStep (rsC, d, u) i = (rsC, d, u ++ [i]) := by
          simp only [splitStep, hri, hdl]
          rw [if_neg hflag]
        rw [hstep]
        obtain ⟨e1, e2⟩ := ih rsC d (u ++ [i]) hnd.2
          (fun j hj => hacc j (List.mem_cons_of_mem i hj))
        rw [e1, e2]
        simp [resolvedTs, hdl, hflag]

theorem filterMap_resolved_fst (l : List Nat) (f : Nat → Option Ts) :
    (l.filterMap (fun i => (f i).map (fun t => (i, t)))).map Prod.fst =
      l.filter (fun i => (f i).isSome) := by
  induction l with
  | nil => rfl
  | cons a t ih =>
    cases hf : f a <;> simp [List.filterMap_cons, hf, List.filter_cons, ih]

/-! ## The minute level -/

/-- A single emitted minute span: when the span's membership fits the cap
(as the greedy merge guarantees), exactly one bucket with a digit-headed
label is emitted. -/
theorem minuteSpanBin_spec (cap : Nat) (rs : List Rec) (mnt : List (K5 × List Nat))
    (y m d : Nat) (mkeys : List K5) (p : Nat × Nat) (bs : List LBin)
    (hsum : ((slice mkeys p.1 p.2).flatMap (fun k => glook mnt k)).length ≤ cap)
    (h : minuteSpanBin cap rs mnt y m d mkeys p = some bs) :
    bs.flatMap Prod.snd = (slice mkeys p.1 p.2).flatMap (fun k => glook mnt k) ∧
    ∀ b ∈ bs, b.2.length ≤ cap ∧ digitHeaded b.1 := by
  simp only [minuteSpanBin] at h
  rw [if_neg (Nat.not_lt.mpr hsum)] at h
  rw [Option.some.injEq] at h
  subst h
  refine ⟨by simp, ?_⟩
  intro b hb
  simp only [List.mem_singleton] at hb
  subst hb
  exact ⟨hsum, labelMinuteRange_headed _ _ _ _ _ _ _⟩

/-- The span fold of `minutePhase` concatenates the per-span buckets. -/
theorem minuteFold_spec (cap : Nat) (rs : List Rec) (mnt : List (K5 × List Nat))
    (y m d : Nat) (mkeys : List K5) :
    ∀ (spans : List (Nat × Nat)) (acc bs : List LBin),
      (∀ p ∈ spans, ((slice mkeys p.1 p.2).flatMap (fun k => glook mnt k)).length ≤ cap) →
      spans.foldlM
        (fun bs p => (minuteSpanBin cap rs mnt y m d mkeys p).map (fun b => bs ++ b)) acc =
        some bs →
      bs.flatMap Prod.snd = acc.flatMap Prod.snd ++
          spans.flatMap (fun p => (slice mkeys p.1 p.2).flatMap (fun k => glook mnt k)) ∧
      ∀ b ∈ bs, b ∈ acc ∨ (b.2.length ≤ cap ∧ digitHeaded b.1) := by
  intro spans
  induction spans with
  | nil =>
    intro acc bs _ h
    rw [List.foldlM_nil, Option.pure_def, Option.some.injEq] at h
    subst h
    refine ⟨by simp, fun b hb => Or.inl hb⟩
  | cons p rest ih =>
    intro acc bs hall h
    rw [List.foldlM_cons] at h
    cases hsb : minuteSpanBin cap rs mnt y m d mkeys p with
    | none =>
      rw [hsb] at h
      simp at h
    | some b0 =>
      rw [hsb] at h
      simp only [Option.map_some', Option.some_bind] at h
      obtain ⟨hflat0, hprops0⟩ :=
        minuteSpanBin_spec cap rs mnt y m d mkeys p b0
          (hall p (List.mem_cons_self p rest)) hsb
      obtain ⟨hflat, hmem⟩ := ih (acc ++ b0) bs
        (fun q hq => hall q (List.mem_cons_of_mem p hq)) h
      constructor
      · rw [hflat, List.flatMap_append, hflat0, List.flatMap_cons, List.append_assoc]
      · intro b hb
        rcases hmem b hb with hacc | hprop
        · rcases List.mem_append.mp hacc with h1 | h1
          · exact Or.inl h1
          · exact Or.inr (hprops0 b h1)
        · exact Or.inr hprop

/-- Minute granularity for one heavy day: the emitted buckets partition the
cohort records of that calendar day, each within the cap, with digit-headed
labels. -/
theorem minutePhase_spec (fuel cap : Nat) (rs : List Rec) (ds : List (Nat × Ts))
    (y m d : Nat) (bs : List LBin)
    (h : minutePhase fuel cap rs ds y m d = some bs) :
    (bs.flatMap Prod.snd).Perm
      ((ds.filter (fun p =>
        decide (p.2.year = y) && decide (p.2.month = m) && decide (p.2.day = d))).map
        Prod.fst) ∧
    ∀ b ∈ bs, b.2.length ≤ cap ∧ digitHeaded b.1 := by
  simp only [minutePhase] at h
  cases hmg : greedyMerge fuel
      (sortBy k5Le (((minutesTable ds).map Prod.fst).filter
        (fun k => decide (k.1 = y) && decide (k.2.1 = m) && decide (k.2.2.1 = d))))
      (fun k => (glook (minutesTable ds) k).length) cap with
  | none =>
    rw [hmg] at h
    exact Option.noConfusion h
  | some spans =>
    rw [hmg] at h
    rw [greedyMerge] at hmg
    obtain ⟨hall, hflat⟩ := greedyLoop_sound _ _ cap fuel 0 spans (Nat.zero_le _) hmg
    rw [List.drop_zero] at hflat
    have hsums : ∀ p ∈ spans,
        ((slice (sortBy k5Le (((minutesTable ds).map Prod.fst).filter
            (fun k => decide (k.1 = y) && decide (k.2.1 = m) && decide (k.2.2.1 = d))))
          p.1 p.2).flatMap (fun k => glook (minutesTable ds) k)).length ≤ cap := by
      intro p hp
      obtain ⟨_, _, hsum⟩ := hall p hp
      exact le_trans (le_of_eq (sliceSum_eq_length _ _ p.1 p.2)) hsum
    obtain ⟨hflatten, hmem⟩ := minuteFold_spec cap rs (minutesTable ds) y m d _ spans [] bs
      hsums h
    constructor
    · rw [hflatten, List.flatMap_nil, List.nil_append]
      rw [spans_flatMap_eq _ _ spans hflat]
      have hperm1 := (sortBy_perm k5Le (((minutesTable ds).map Prod.fst).filter
        (fun k => decide (k.1 = y) && decide (k.2.1 = m) && decide (k.2.2.1 = d))))
      refine (perm_flatMap (fun k => glook (minutesTable ds) k) hperm1).trans ?_
      exact flat_glook ds (fun p => (p.2.year, p.2.month, p.2.day, p.2.hour, p.2.minute))
        Prod.fst (fun k => decide (k.1 = y) && decide (k.2.1 = m) && decide (k.2.2.1 = d))
    · intro b hb
      rcases hmem b hb with h1 | h1
      · simp at h1
      · exact h1

/-! ## The day level -/

theorem k3_pred_eq (k : K3) (p : Nat × Ts) :
    (decide (p.2.year = k.1) && decide (p.2.month = k.2.1) && decide (p.2.day = k.2.2)) =
      decide ((p.2.year, p.2.month, p.2.day) = k) := by
  obtain ⟨k1, k2, k3⟩ := k
  simp [Prod.ext_iff, Bool.and_assoc]

theorem flushDays_spec (fuel cap : Nat) (dt : List (K3 × List Nat)) (seg : List K3)
    (bs : List LBin) (h : flushDays fuel cap dt seg = some bs) :
    bs.flatMap Prod.snd = seg.flatMap (fun k => glook dt k) ∧
    ∀ b ∈ bs, b.2.length ≤ cap ∧ digitHeaded b.1 := by
  rw [flushDays] at h
  split at h
  · rename_i hseg
    rw [Option.some.injEq] at h
    subst h
    subst hseg
    exact ⟨rfl, by intro b hb; simp at hb⟩
  · cases hmg : greedyMerge fuel seg (fun k => (glook dt k).length) cap with
    | none =>
      rw [hmg] at h
      exact Option.noConfusion h
    | some spans =>
      rw [hmg] at h
      rw [Option.some.injEq] at h
      subst h
      obtain ⟨hflat, hsz⟩ := flush_core fuel cap seg (fun k => glook dt k)
        (fun p => labelDayRange (seg.getD p.1 default).1 (seg.getD p.1 default).2.1
          (seg.getD p.1 default).2.2 (seg.getD (p.2 - 1) default).2.2) spans hmg
      refine ⟨hflat, ?_⟩
      intro b hb
      refine ⟨hsz b hb, ?_⟩
      rw [List.mem_map] at hb
      obtain ⟨p, _, rfl⟩ := hb
      exact labelDayRange_headed _ _ _ _

theorem dayLoop_spec (fuel cap : Nat) (rs : List Rec) (ds : List (Nat × Ts)) :
    ∀ (ks seg : List K3) (bs : List LBin),
      dayLoop fuel cap rs ds (daysTable ds) ks seg = some bs →
      (bs.flatMap Prod.snd).Perm
        ((seg ++ ks).flatMap (fun k => glook (daysTable ds) k)) ∧
      ∀ b ∈ bs, b.2.length ≤ cap ∧ digitHeaded b.1 := by
  intro ks
  induction ks with
  | nil =>
    intro seg bs h
    simp only [dayLoop] at h
    obtain ⟨hflat, hprops⟩ := flushDays_spec fuel cap (daysTable ds) seg bs h
    rw [List.append_nil, hflat]
    exact ⟨List.Perm.refl _, hprops⟩
  | cons k rest ih =>
    intro seg bs h
    simp only [dayLoop] at h
    split at h
    · cases hf : flushDays fuel cap (daysTable ds) seg with
      | none => rw [hf] at h; exact Option.noConfusion h
      | some b1 =>
        rw [hf] at h
        cases hmp : minutePhase fuel cap rs ds k.1 k.2.1 k.2.2 with
        | none => rw [hmp] at h; exact Option.noConfusion h
        | some b2 =>
          rw [hmp] at h
          cases hdl : dayLoop fuel cap rs ds (daysTable ds) rest [] with
          | none => rw [hdl] at h; exact Option.noConfusion h
          | some b3 =>
            rw [hdl] at h
            rw [Option.some.injEq] at h
            subst h
            obtain ⟨hf1, hp1⟩ := flushDays_spec fuel cap (daysTable ds) seg b1 hf
            obtain ⟨hm1, hp2⟩ := minutePhase_spec fuel cap rs ds k.1 k.2.1 k.2.2 b2 hmp
            obtain ⟨hd1, hp3⟩ := ih [] b3 hdl
            rw [List.nil_append] at hd1
            have hk : ((ds.filter (fun p =>
                decide (p.2.year = k.1) && decide (p.2.month = k.2.1) &&
                  decide (p.2.day = k.2.2))).map Prod.fst) = glook (daysTable ds) k := by
              rw [daysTable]
              rw [glook_fiber ds (fun p => (p.2.year, p.2.month, p.2.day)) Prod.fst k]
              congr 1
              apply List.filter_congr
              intro p _
              exact k3_pred_eq k p
            rw [hk] at hm1
            constructor
            · rw [List.flatMap_append, List.flatMap_append]
              rw [List.flatMap_append, List.flatMap_cons, hf1]
              rw [List.append_assoc]
              exact List.Perm.append_left _ (List.Perm.append hm1 hd1)
            · intro b hb
              rcases List.mem_append.mp hb with hb1 | hb3
              · rcases List.mem_append.mp hb1 with hb1 | hb2
                · exact hp1 b hb1
                · exact hp2 b hb2
              · exact hp3 b hb3
    · obtain ⟨hflat, hprops⟩ := ih (seg ++ [k]) bs h
      rw [List.append_assoc, List.singleton_append] at hflat
      exact ⟨hflat, hprops⟩

theorem dayPhase_spec (fuel cap : Nat) (rs : List Rec) (ds : List (Nat × Ts))
    (y m : Nat) (bs : List LBin) (h : dayPhase fuel cap rs ds y m = some bs) :
    (bs.flatMap Prod.snd).Perm
      ((ds.filter (fun p => decide (p.2.year = y) && decide (p.2.month = m))).map Prod.fst) ∧
    ∀ b ∈ bs, b.2.length ≤ cap ∧ digitHeaded b.1 := by
  simp only [dayPhase] at h
  obtain ⟨hflat, hprops⟩ := dayLoop_spec fuel cap rs ds _ [] bs h
  rw [List.nil_append] at hflat
  refine ⟨?_, hprops⟩
  refine hflat.trans ?_
  refine (perm_flatMap _ (sortBy_perm k3Le _)).trans ?_
  exact flat_glook ds (fun p => (p.2.year, p.2.month, p.2.day)) Prod.fst
    (fun k => decide (k.1 = y) && decide (k.2.1 = m))

/-! ## The month level -/

theorem k2_pred_eq (k : K2) (p : Nat × Ts) :
    (decide (p.2.year = k.1) && decide (p.2.month = k.2)) =
      decide ((p.2.year, p.2.month) = k) := by
  obtain ⟨k1, k2⟩ := k
  simp [Prod.ext_iff]

theorem flushMonths_spec (fuel cap y : Nat) (mt : List (K2 × List Nat)) (seg : List K2)
    (bs : List LBin) (h : flushMonths fuel cap y mt seg = some bs) :
    bs.flatMap Prod.snd = seg.flatMap (fun k => glook mt k) ∧
    ∀ b ∈ bs, b.2.length ≤ cap ∧ digitHeaded b.1 := by
  rw [flushMonths] at h
  split at h
  · rename_i hseg
    rw [Option.some.injEq] at h
    subst h
    subst hseg
    exact ⟨rfl, by intro b hb; simp at hb⟩
  · cases hmg : greedyMerge fuel seg (fun k => (glook mt k).length) cap with
    | none =>
      rw [hmg] at h
      exact Option.noConfusion h
    | some spans =>
      rw [hmg] at h
      rw [Option.some.injEq] at h
      subst h
      obtain ⟨hflat, hsz⟩ := flush_core fuel cap seg (fun k => glook mt k)
        (fun p => labelMonthRange y (seg.getD p.1 default).2 (seg.getD (p.2 - 1) default).2)
        spans hmg
      refine ⟨hflat, ?_⟩
      intro b hb
      refine ⟨hsz b hb, ?_⟩
      rw [List.mem_map] at hb
      obtain ⟨p, _, rfl⟩ := hb
      exact labelMonthRange_headed _ _ _

theorem monthLoop_spec (fuel cap : Nat) (rs : List Rec) (ds : List (Nat × Ts)) (y : Nat) :
    ∀ (ks seg : List K2) (bs : List LBin),
      monthLoop fuel cap rs ds y (monthsTable ds) ks seg = some bs →
      (bs.flatMap Prod.snd).Perm
        ((seg ++ ks).flatMap (fun k => glook (monthsTable ds) k)) ∧
      ∀ b ∈ bs, b.2.length ≤ cap ∧ digitHeaded b.1 := by
  intro ks
  induction ks with
  | nil =>
    intro seg bs h
    simp only [monthLoop] at h
    obtain ⟨hflat, hprops⟩ := flushMonths_spec fuel cap y (monthsTable ds) seg bs h
    rw [List.append_nil, hflat]
    exact ⟨List.Perm.refl _, hprops⟩
  | cons k rest ih =>
    intro seg bs h
    simp only [monthLoop] at h
    split at h
    · cases hf : flushMonths fuel cap y (monthsTable ds) seg with
      | none => rw [hf] at h; exact Option.noConfusion h
      | some b1 =>
        rw [hf] at h
        cases hmp : dayPhase fuel cap rs ds k.1 k.2 with
        | none => rw [hmp] at h; exact Option.noConfusion h
        | some b2 =>
          rw [hmp] at h
          cases hdl : monthLoop fuel cap rs ds y (monthsTable ds) rest [] with
          | none => rw [hdl] at h; exact Option.noConfusion h
          | some b3 =>
            rw [hdl] at h
            rw [Option.some.injEq] at h
            subst h
            obtain ⟨hf1, hp1⟩ := flushMonths_spec fuel cap y (monthsTable ds) seg b1 hf
            obtain ⟨hm1, hp2⟩ := dayPhase_spec fuel cap rs ds k.1 k.2 b2 hmp
            obtain ⟨hd1, hp3⟩ := ih [] b3 hdl
            rw [List.nil_append] at hd1
            have hk : ((ds.filter (fun p =>
                decide (p.2.year = k.1) && decide (p.2.month = k.2))).map Prod.fst) =
                glook (monthsTable ds) k := by
              rw [monthsTable]
              rw [glook_fiber ds (fun p => (p.2.year, p.2.month)) Prod.fst k]
              congr 1
              apply List.filter_congr
              intro p _
              exact k2_pred_eq k p
            rw [hk] at hm1
            constructor
            · rw [List.flatMap_append, List.flatMap_append]
              rw [List.flatMap_append, List.flatMap_cons, hf1]
              rw [List.append_assoc]
              exact List.Perm.append_left _ (List.Perm.append hm1 hd1)
            · intro b hb
              rcases List.mem_append.mp hb with hb1 | hb3
              · rcases List.mem_append.mp hb1 with hb1 | hb2
                · exact hp1 b hb1
                · exact hp2 b hb2
              · exact hp3 b hb3
    · obtain ⟨hflat, hprops⟩ := ih (seg ++ [k]) bs h
      rw [List.append_assoc, List.singleton_append] at hflat
      exact ⟨hflat, hprops⟩

theorem monthPhase_spec (fuel cap : Nat) (rs : List Rec) (ds : List (Nat × Ts))
    (y : Nat) (bs : List LBin) (h : monthPhase fuel cap rs ds y = some bs) :
    (bs.flatMap Prod.snd).Perm
      ((ds.filter (fun p => decide (p.2.year = y))).map Prod.fst) ∧
    ∀ b ∈ bs, b.2.length ≤ cap ∧ digitHeaded b.1 := by
  simp only [monthPhase] at h
  obtain ⟨hflat, hprops⟩ := monthLoop_spec fuel cap rs ds y _ [] bs h
  rw [List.nil_append] at hflat
  refine ⟨?_, hprops⟩
  refine hflat.trans ?_
  refine (perm_flatMap _ (sortBy_perm k2Le _)).trans ?_
  exact flat_glook ds (fun p => (p.2.year, p.2.month)) Prod.fst (fun k => decide (k.1 = y))

/-! ## The year level and all dated buckets -/

theorem flushYears_spec (fuel cap : Nat) (yt : List (Nat × List Nat)) (run : List Nat)
    (bs : List LBin) (h : flushYears fuel cap yt run = some bs) :
    bs.flatMap Prod.snd = run.flatMap (fun y => glook yt y) ∧
    ∀ b ∈ bs, b.2.length ≤ cap ∧ digitHeaded b.1 := by
  rw [flushYears] at h
  split at h
  · rename_i hrun
    rw [Option.some.injEq] at h
    subst h
    subst hrun
    exact ⟨rfl, by intro b hb; simp at hb⟩
  · cases hmg : greedyMerge fuel run (fun y => (glook yt y).length) cap with
    | none =>
      rw [hmg] at h
      exact Option.noConfusion h
    | some spans =>
      rw [hmg] at h
      rw [Option.some.injEq] at h
      subst h
      obtain ⟨hflat, hsz⟩ := flush_core fuel cap run (fun y => glook yt y)
        (fun p => labelYearRange (run.getD p.1 0) (run.getD (p.2 - 1) 0)) spans hmg
      refine ⟨hflat, ?_⟩
      intro b hb
      refine ⟨hsz b hb, ?_⟩
      rw [List.mem_map] at hb
      obtain ⟨p, _, rfl⟩ := hb
      exact labelYearRange_headed _ _

/-- The year loop emits exactly the light years' members, in key order. -/
theorem yearRunLoop_spec (fuel cap : Nat) (yt : List (Nat × List Nat)) :
    ∀ (ks run : List Nat) (bs : List LBin),
      yearRunLoop fuel cap yt ks run = some bs →
      bs.flatMap Prod.snd =
        (run ++ ks.filter (fun y => !decide (cap < (glook yt y).length))).flatMap
          (fun y => glook yt y) ∧
      ∀ b ∈ bs, b.2.length ≤ cap ∧ digitHeaded b.1 := by
  intro ks
  induction ks with
  | nil =>
    intro run bs h
    simp only [yearRunLoop] at h
    obtain ⟨hflat, hprops⟩ := flushYears_spec fuel cap yt run bs h
    rw [List.filter_nil, List.append_nil]
    exact ⟨hflat, hprops⟩
  | cons k rest ih =>
    intro run bs h
    simp only [yearRunLoop] at h
    split at h
    · rename_i hheavy
      cases hf : flushYears fuel cap yt run with
      | none => rw [hf] at h; exact Option.noConfusion h
      | some b1 =>
        rw [hf] at h
        cases hr : yearRunLoop fuel cap yt rest [] with
        | none => rw [hr] at h; exact Option.noConfusion h
        | some b2 =>
          rw [hr] at h
          rw [Option.some.injEq] at h
          subst h
          obtain ⟨hf1, hp1⟩ := flushYears_spec fuel cap yt run b1 hf
          obtain ⟨hr1, hp2⟩ := ih [] b2 hr
          rw [List.nil_append] at hr1
          constructor
          · rw [List.flatMap_append, hf1, hr1]
            rw [List.filter_cons_of_neg (by simp [hheavy])]
            rw [List.flatMap_append]
          · intro b hb
            rcases List.mem_append.mp hb with hb1 | hb2
            · exact hp1 b hb1
            · exact hp2 b hb2
    · rename_i hlight
      obtain ⟨hflat, hprops⟩ := ih (run ++ [k]) bs h
      rw [List.filter_cons_of_pos (by simpa using hlight)]
      rw [List.append_assoc, List.singleton_append] at hflat
      exact ⟨hflat, hprops⟩

theorem heavyYearsLoop_spec (fuel cap : Nat) (rs : List Rec) (ds : List (Nat × Ts)) :
    ∀ (hy : List Nat) (bs : List LBin),
      heavyYearsLoop fuel cap rs ds hy = some bs →
      (bs.flatMap Prod.snd).Perm (hy.flatMap (fun y => glook (yearsTable ds) y)) ∧
      ∀ b ∈ bs, b.2.length ≤ cap ∧ digitHeaded b.1 := by
  intro hy
  induction hy with
  | nil =>
    intro bs h
    simp only [heavyYearsLoop] at h
    rw [Option.some.injEq] at h
    subst h
    exact ⟨by simp, by intro b hb; simp at hb⟩
  | cons y rest ih =>
    intro bs h
    simp only [heavyYearsLoop] at h
    cases hmp : monthPhase fuel cap rs ds y with
    | none => rw [hmp] at h; exact Option.noConfusion h
    | some b1 =>
      rw [hmp] at h
      cases hrec : heavyYearsLoop fuel cap rs ds rest with
      | none => rw [hrec] at h; exact Option.noConfusion h
      | some b2 =>
        rw [hrec] at h
        rw [Option.some.injEq] at h
        subst h
        obtain ⟨hm1, hp1⟩ := monthPhase_spec fuel cap rs ds y b1 hmp
        obtain ⟨hr1, hp2⟩ := ih b2 hrec
        have hk : ((ds.filter (fun p => decide (p.2.year = y))).map Prod.fst) =
            glook (yearsTable ds) y := by
          rw [yearsTable]
          rw [glook_fiber ds (fun p => p.2.year) Prod.fst y]
        rw [hk] at hm1
        constructor
        · rw [List.flatMap_append, List.flatMap_cons]
          exact List.Perm.append hm1 hr1
        · intro b hb
          rcases List.mem_append.mp hb with hb1 | hb2
          · exact hp1 b hb1
          · exact hp2 b hb2

/-- All dated buckets of a cohort: a permutation of the dated indices, every
bucket within the cap and labelled with a digit-headed calendar label. -/
theorem datedBins_spec (fuel cap : Nat) (rs : List Rec) (ds : List (Nat × Ts))
    (bs : List LBin) (h : datedBins fuel cap rs ds = some bs) :
    (bs.flatMap Prod.snd).Perm (ds.map Prod.fst) ∧
    ∀ b ∈ bs, b.2.length ≤ cap ∧ digitHeaded b.1 := by
  simp only [datedBins] at h
  cases hyr : yearRunLoop fuel cap (yearsTable ds)
      (sortBy (fun a b => decide (a ≤ b)) ((yearsTable ds).map Prod.fst)) [] with
  | none => rw [hyr] at h; exact Option.noConfusion h
  | some b1 =>
    rw [hyr] at h
    cases hhv : heavyYearsLoop fuel cap rs ds
        ((sortBy (fun a b => decide (a ≤ b)) ((yearsTable ds).map Prod.fst)).filter
          (fun y => decide (cap < (glook (yearsTable ds) y).length))) with
    | none => rw [hhv] at h; exact Option.noConfusion h
    | some b2 =>
      rw [hhv] at h
      rw [Option.some.injEq] at h
      subst h
      obtain ⟨hy1, hp1⟩ := yearRunLoop_spec fuel cap (yearsTable ds) _ [] b1 hyr
      rw [List.nil_append] at hy1
      obtain ⟨hh1, hp2⟩ := heavyYearsLoop_spec fuel cap rs ds _ b2 hhv
      constructor
      · rw [List.flatMap_append, hy1]
        refine (List.Perm.append_left _ hh1).trans ?_
        rw [← List.flatMap_append]
        refine (perm_flatMap (fun y => glook (yearsTable ds) y)
          ((List.perm_append_comm).trans (List.filter_append_perm _ _))).trans ?_
        refine (perm_flatMap _ (sortBy_perm _ _)).trans ?_
        have hfg := flat_glook ds (fun p => p.2.year) Prod.fst (fun _ => true)
        simp only [List.filter_true] at hfg
        exact hfg
      · intro b hb
        rcases List.mem_append.mp hb with hb1 | hb2
        · exact hp1 b hb1
        · exact hp2 b hb2

/-! ## Undated buckets and the whole cohort plan -/

theorem listStarts_append_self : ∀ (pre rest : List Char), listStarts (pre ++ rest) pre = true := by
  intro pre
  induction pre with
  | nil =>
    intro rest
    cases rest with
    | nil => rfl
    | cons a t => rfl
  | cons c t ih =>
    intro rest
    simp only [List.cons_append, listStarts]
    simp [List.append_eq, ih rest]

theorem strStarts_append (pre t : String) : strStarts (pre ++ t) pre = true := by
  rw [strStarts]
  have hd : (pre ++ t).data = pre.data ++ t.data := rfl
  rw [hd]
  exact listStarts_append_self pre.data t.data

theorem mapIdx_pair_flatMap (g : Nat → String) : ∀ (l : List (List Nat)),
    (l.mapIdx (fun i part => ((g i, part) : LBin))).flatMap Prod.snd = l.flatMap id := by
  intro l
  induction l generalizing g with
  | nil => rfl
  | cons a t ih =>
    rw [List.mapIdx_cons, List.flatMap_cons, List.flatMap_cons]
    rw [ih (fun j => g (j + 1))]
    rfl

/-- The undated chunks: they concatenate to the full unknown list, respect
the cap, are labelled `undated-…`, and are sublists of the path-sorted
unknown list. -/
theorem undatedBins_spec (cap : Nat) (l : List Nat) (ub : List LBin)
    (h : undatedBins cap l = some ub) :
    ub.flatMap Prod.snd = l ∧
    ∀ b ∈ ub, b.2.length ≤ cap ∧ strStarts b.1 "undated-" = true ∧ b.2.Sublist l := by
  rw [undatedBins] at h
  split at h
  · rename_i hl
    rw [Option.some.injEq] at h
    subst h
    subst hl
    exact ⟨rfl, by intro b hb; simp at hb⟩
  · split at h
    · exact Option.noConfusion h
    · rename_i hl hcap
      rw [Option.some.injEq] at h
      subst h
      constructor
      · rw [mapIdx_pair_flatMap]
        exact chunkList_flatten cap (Nat.pos_of_ne_zero hcap) l
      · intro b hb
        rw [List.mem_mapIdx] at hb
        obtain ⟨i, hi, he⟩ := hb
        subst he
        refine ⟨chunkList_sizes cap l _ (List.getElem_mem hi), ?_,
          chunkList_mem_sublist cap l _ (List.getElem_mem hi)⟩
        exact strStarts_append "undated-" (padNum 4 (i + 1))

/-- One cohort's full plan: the buckets partition the cohort's indices, the
record list is only touched in its date fields, every bucket respects the
cap, and every label is either a digit-headed calendar label or an
`undated-…` label. -/
theorem planCohort_spec (fuel cap : Nat) (rs : List Rec) (idxs : List Nat)
    (rs1 : List Rec) (bins : List LBin) (hnd : idxs.Nodup)
    (h : planCohort fuel cap rs idxs = some (rs1, bins)) :
    (bins.flatMap Prod.snd).Perm idxs ∧
    rs1.length = rs.length ∧
    (∀ j, (getRec rs1 j).source_path = (getRec rs j).source_path ∧
          (getRec rs1 j).family = (getRec rs j).family ∧
          (getRec rs1 j).subtype = (getRec rs j).subtype ∧
          (getRec rs1 j).integrity = (getRec rs j).integrity ∧
          (getRec rs1 j).dest_path = (getRec rs j).dest_path) ∧
    (∀ b ∈ bins, b.2.length ≤ cap) ∧
    (∀ b ∈ bins, digitHeaded b.1 ∨ strStarts b.1 "undated-" = true) := by
  rcases hsd : splitDated rs idxs with ⟨rsW, dated0, unknown0⟩
  obtain ⟨hdf, huf⟩ := splitFold_spec rs idxs rs [] [] hnd (fun _ _ => rfl)
  rw [show idxs.foldl splitStep (rs, [], []) = splitDated rs idxs from rfl, hsd] at hdf huf
  simp only [List.nil_append] at hdf huf
  simp only [planCohort, hsd] at h
  cases hdb : datedBins fuel cap rsW (sortBy (fun a b => tsLeB a.2 b.2) dated0) with
  | none => rw [hdb] at h; exact Option.noConfusion h
  | some db =>
    rw [hdb] at h
    cases hub : undatedBins cap (sortBy
        (fun a b => strLe (getRec rsW a).source_path (getRec rsW b).source_path) unknown0) with
    | none => rw [hub] at h; exact Option.noConfusion h
    | some ub =>
      rw [hub] at h
      rw [Option.some.injEq, Prod.mk.injEq] at h
      obtain ⟨hrs1, hbins⟩ := h
      subst hrs1
      subst hbins
      obtain ⟨hdperm, hdprops⟩ := datedBins_spec fuel cap rsW _ db hdb
      obtain ⟨huflat, huprops⟩ := undatedBins_spec cap _ ub hub
      have hlen : rsW.length = rs.length := by
        have := splitFold_len idxs (rs, [], [])
        rw [show idxs.foldl splitStep (rs, [], []) = splitDated rs idxs from rfl, hsd] at this
        exact this
      have hframe := fun j => by
        have := splitFold_frame idxs (rs, [], []) j
        rw [show idxs.foldl splitStep (rs, [], []) = splitDated rs idxs from rfl, hsd] at this
        exact this
      refine ⟨?_, hlen, hframe, ?_, ?_⟩
      · rw [List.flatMap_append]
        have hup : (ub.flatMap Prod.snd).Perm (sortBy
            (fun a b => strLe (getRec rsW a).source_path (getRec rsW b).source_path) unknown0) := by
          rw [huflat]
        refine (List.Perm.append hdperm hup).trans ?_
        refine (List.Perm.append ((sortBy_perm _ dated0).map Prod.fst)
          (sortBy_perm _ unknown0)).trans ?_
        rw [hdf, huf, filterMap_resolved_fst]
        exact List.filter_append_perm _ idxs
      · intro b hb
        rcases List.mem_append.mp hb with hb1 | hb2
        · exact (hdprops b hb1).1
        · exact (huprops b hb2).1
      · intro b hb
        rcases List.mem_append.mp hb with hb1 | hb2
        · exact Or.inl (hdprops b hb1).2
        · exact Or.inr (huprops b hb2).2.1

/-! ## The subtype rewrites: only `family`/`subtype` change -/

theorem map_getRec (f : Rec → Rec) (rs : List Rec) (j : Nat) :
    getRec (rs.map f) j = if j < rs.length then f (getRec rs j) else default := by
  by_cases hj : j < rs.length
  · rw [if_pos hj, getRec, getRec,
      List.getD_eq_getElem (rs.map f) default (by simpa using hj),
      List.getD_eq_getElem rs default hj]
    simp
  · rw [if_neg hj, getRec, List.getD_eq_default _ _ (by simpa using Nat.le_of_not_lt hj)]

theorem promote_len (thr : Nat) (rs : List Rec) :
    (promoteOtherTypes thr rs).length = rs.length := List.length_map rs _

theorem promote_frame (thr : Nat) (rs : List Rec) (j : Nat) :
    (getRec (promoteOtherTypes thr rs) j).source_path = (getRec rs j).source_path ∧
    (getRec (promoteOtherTypes thr rs) j).integrity = (getRec rs j).integrity ∧
    (getRec (promoteOtherTypes thr rs) j).dest_path = (getRec rs j).dest_path := by
  rw [promoteOtherTypes, map_getRec]
  split
  · split
    · exact ⟨rfl, rfl, rfl⟩
    · exact ⟨rfl, rfl, rfl⟩
  · rename_i hj
    rw [getRec, List.getD_eq_default rs default (Nat.le_of_not_lt hj)]
    exact ⟨rfl, rfl, rfl⟩

theorem imageRewrite_len (mkThr mdThr : Nat) (rs : List Rec) :
    (imageSubtypeRewrite mkThr mdThr rs).length = rs.length := List.length_map rs _

theorem imageRewrite_frame (mkThr mdThr : Nat) (rs : List Rec) (j : Nat) :
    (getRec (imageSubtypeRewrite mkThr mdThr rs) j).source_path = (getRec rs j).source_path ∧
    (getRec (imageSubtypeRewrite mkThr mdThr rs) j).integrity = (getRec rs j).integrity ∧
    (getRec (imageSubtypeRewrite mkThr mdThr rs) j).dest_path = (getRec rs j).dest_path := by
  rw [imageSubtypeRewrite, map_getRec]
  split
  · repeat' split
    all_goals exact ⟨rfl, rfl, rfl⟩
  · rename_i hj
    rw [getRec, List.getD_eq_default rs default (Nat.le_of_not_lt hj)]
    exact ⟨rfl, rfl, rfl⟩

/-! ## The cohort pairs -/

theorem filterMap_key_snd {κ : Type} (keyf : Nat → κ) (p : Nat → Prop) [DecidablePred p] :
    ∀ l : List Nat,
      (l.filterMap (fun i => if p i then some (keyf i, i) else none)).map Prod.snd =
        l.filter (fun i => decide (p i)) := by
  intro l
  induction l with
  | nil => rfl
  | cons a t ih => by_cases hp : p a <;> simp [List.filterMap_cons, hp, ih]

theorem cohortPairs_snd (rs : List Rec) :
    (cohortPairs rs).map Prod.snd =
      (List.range rs.length).filter (fun i => decide ((getRec rs i).integrity = "ok")) := by
  rw [cohortPairs]
  exact filterMap_key_snd (fun i => ((getRec rs i).family, (getRec rs i).subtype))
    (fun i => (getRec rs i).integrity = "ok") (List.range rs.length)

theorem cohortPairs_snd_nodup (rs : List Rec) : ((cohortPairs rs).map Prod.snd).Nodup := by
  rw [cohortPairs_snd]
  exact (List.nodup_range _).filter _

theorem cohortPairs_mem {rs : List Rec} {p : (String × String) × Nat} (hp : p ∈ cohortPairs rs) :
    p.2 < rs.length ∧ (getRec rs p.2).integrity = "ok" ∧
      p.1 = ((getRec rs p.2).family, (getRec rs p.2).subtype) := by
  rw [cohortPairs, List.mem_filterMap] at hp
  obtain ⟨i, hi, he⟩ := hp
  rw [List.mem_range] at hi
  split at he
  · rename_i hok
    rw [Option.some.injEq] at he
    subst he
    exact ⟨hi, hok, rfl⟩
  · exact Option.noConfusion he

/-- Facts about one cohort entry: duplicate-free in-range members, all of
`ok` integrity and carrying the entry's family/subtype key. -/
theorem cohortEntry_facts {rs : List Rec} {e : (String × String) × List Nat}
    (he : e ∈ groupPairs (cohortPairs rs)) :
    e.2.Nodup ∧ ∀ i ∈ e.2, i < rs.length ∧ (getRec rs i).integrity = "ok" ∧
      (getRec rs i).family = e.1.1 ∧ (getRec rs i).subtype = e.1.2 := by
  have hv := groupPairs_val he
  constructor
  · rw [hv]
    refine (cohortPairs_snd_nodup rs).sublist ?_
    exact ((cohortPairs rs).filter_sublist).map Prod.snd
  · intro i hi
    rw [hv, List.mem_map] at hi
    obtain ⟨pr, hpr, hpri⟩ := hi
    rw [List.mem_filter] at hpr
    obtain ⟨hprm, hprk⟩ := hpr
    obtain ⟨hlen, hok, hkey⟩ := cohortPairs_mem hprm
    subst hpri
    refine ⟨hlen, hok, ?_, ?_⟩
    · have : pr.1 = e.1 := by simpa using hprk
      rw [← this, hkey]
    · have : pr.1 = e.1 := by simpa using hprk
      rw [← this, hkey]

/-! ## Destination assignment -/

theorem strNe_of_data_ne {s : String} (h : s.data ≠ []) : s ≠ "" := by
  intro he
  apply h
  rw [he]

theorem strData_append_ne_right (a b : String) (hb : b.data ≠ []) : (a ++ b).data ≠ [] := by
  cases a with
  | mk l =>
    cases b with
    | mk l2 =>
      show (l ++ l2) ≠ []
      simp only [ne_eq, List.append_eq_nil]
      tauto

/-- The candidate destination `bin_dir / name` is never the empty string. -/
theorem destCandidate_ne (bd fn : String) : bd ++ "/" ++ fn ≠ "" := by
  apply strNe_of_data_ne
  apply strData_append_ne _ fn
  apply strData_append_ne_right bd "/"
  simp [String.data]

theorem assignDest_len (u : String → String) (rn : String) (gn : Rec → String)
    (rs : List Rec) (i : Nat) (bd : String) :
    (assignDest u rn gn rs i bd).length = rs.length := by
  simp [assignDest, List.length_set]

theorem getRec_assignDest (u : String → String) (rn : String) (gn : Rec → String)
    (rs : List Rec) (i j : Nat) (bd : String) :
    getRec (assignDest u rn gn rs i bd) j =
      if i = j ∧ i < rs.length then
        {getRec rs i with dest_path := u (bd ++ "/" ++ destFilename rn gn (getRec rs i))}
      else getRec rs j := by
  simp [assignDest, getRec_set]

theorem destFold_len (u : String → String) (rn : String) (gn : Rec → String) (bd : String) :
    ∀ (l : List Nat) (rs : List Rec),
      (l.foldl (fun rs i => assignDest u rn gn rs i bd) rs).length = rs.length := by
  intro l
  induction l with
  | nil => intro rs; rfl
  | cons a t ih =>
    intro rs
    simp only [List.foldl_cons]
    rw [ih, assignDest_len]

theorem destFold_untouched (u : String → String) (rn : String) (gn : Rec → String) (bd : String)
    (j : Nat) :
    ∀ (l : List Nat) (rs : List Rec), j ∉ l →
      getRec (l.foldl (fun rs i => assignDest u rn gn rs i bd) rs) j = getRec rs j := by
  intro l
  induction l with
  | nil => intro rs _; rfl
  | cons a t ih =>
    intro rs hj
    simp only [List.foldl_cons]
    rw [ih _ (fun hm => hj (List.mem_cons_of_mem a hm))]
    rw [getRec_assignDest, if_neg (by
      intro hc
      exact hj (hc.1 ▸ List.mem_cons_self a t))]

/-- Once a record's destination is non-empty — or it is about to be
assigned — the member fold leaves it non-empty. -/
theorem destFold_nonempty (u : String → String) (rn : String) (gn : Rec → String) (bd : String)
    (huniq : ∀ s, s ≠ "" → u s ≠ "") (j : Nat) :
    ∀ (l : List Nat) (rs : List Rec),
      ((getRec rs j).dest_path ≠ "" ∨ (j ∈ l ∧ j < rs.length)) →
      (getRec (l.foldl (fun rs i => assignDest u rn gn rs i bd) rs) j).dest_path ≠ "" := by
  intro l
  induction l with
  | nil =>
    intro rs h
    rcases h with h | ⟨hm, _⟩
    · exact h
    · simp at hm
  | cons a t ih =>
    intro rs h
    simp only [List.foldl_cons]
    have hwrite : ∀ rs2 : List Rec, a = j → j < rs2.length →
        (getRec (assignDest u rn gn rs2 a bd) j).dest_path ≠ "" := by
      intro rs2 haj hjl
      rw [getRec_assignDest, if_pos ⟨haj, haj ▸ hjl⟩]
      exact huniq _ (destCandidate_ne bd _)
    by_cases haj : a = j
    · apply ih
      left
      subst haj
      rcases h with h | ⟨_, hjl⟩
      · by_cases hal : a < rs.length
        · exact hwrite rs rfl hal
        · rw [getRec_assignDest, if_neg (by tauto)]
          exact h
      · exact hwrite rs rfl hjl
    · have hstep : getRec (assignDest u rn gn rs a bd) j = getRec rs j := by
        rw [getRec_assignDest, if_neg (by tauto)]
      apply ih
      rcases h with h | ⟨hm, hjl⟩
      · left
        rw [hstep]
        exact h
      · right
        rcases List.mem_cons.mp hm with he | hm2
        · exact absurd he.symm haj
        · exact ⟨hm2, by rw [assignDest_len]; exact hjl⟩

theorem binsFold_len (u : String → String) (rn : String) (gn : Rec → String)
    (dest fam st : String) :
    ∀ (bl : List LBin) (rs : List Rec),
      (bl.foldl (fun rs b => (sortByPath rs b.2).foldl
        (fun rs i => assignDest u rn gn rs i (dest ++ "/" ++ fam ++ "/" ++ st ++ "/" ++ b.1))
        rs) rs).length = rs.length := by
  intro bl
  induction bl with
  | nil => intro rs; rfl
  | cons b t ih =>
    intro rs
    simp only [List.foldl_cons]
    rw [ih, destFold_len]

theorem binsFold_untouched (u : String → String) (rn : String) (gn : Rec → String)
    (dest fam st : String) (j : Nat) :
    ∀ (bl : List LBin) (rs : List Rec), (∀ b ∈ bl, j ∉ b.2) →
      getRec (bl.foldl (fun rs b => (sortByPath rs b.2).foldl
        (fun rs i => assignDest u rn gn rs i (dest ++ "/" ++ fam ++ "/" ++ st ++ "/" ++ b.1))
        rs) rs) j = getRec rs j := by
  intro bl
  induction bl with
  | nil => intro rs _; rfl
  | cons b t ih =>
    intro rs hall
    simp only [List.foldl_cons]
    rw [ih _ (fun b2 hb2 => hall b2 (List.mem_cons_of_mem b hb2))]
    apply destFold_untouched
    intro hm
    exact hall b (List.mem_cons_self b t)
      ((sortBy_perm _ b.2).mem_iff.mp hm)

theorem binsFold_nonempty (u : String → String) (rn : String) (gn : Rec → String)
    (dest fam st : String) (huniq : ∀ s, s ≠ "" → u s ≠ "") (j : Nat) :
    ∀ (bl : List LBin) (rs : List Rec),
      ((getRec rs j).dest_path ≠ "" ∨ ((∃ b ∈ bl, j ∈ b.2) ∧ j < rs.length)) →
      (getRec (bl.foldl (fun rs b => (sortByPath rs b.2).foldl
        (fun rs i => assignDest u rn gn rs i (dest ++ "/" ++ fam ++ "/" ++ st ++ "/" ++ b.1))
        rs) rs) j).dest_path ≠ "" := by
  intro bl
  induction bl with
  | nil =>
    intro rs h
    rcases h with h | ⟨⟨b, hb, _⟩, _⟩
    · exact h
    · simp at hb
  | cons b t ih =>
    intro rs h
    simp only [List.foldl_cons]
    by_cases hjb : j ∈ b.2
    · apply ih
      left
      apply destFold_nonempty u rn gn _ huniq j
      rcases h with h | ⟨_, hjl⟩
      · exact Or.inl h
      · exact Or.inr ⟨(sortBy_perm _ b.2).mem_iff.mpr hjb, hjl⟩
    · have hstep := destFold_untouched u rn gn
        (dest ++ "/" ++ fam ++ "/" ++ st ++ "/" ++ b.1) j (sortByPath rs b.2) rs
        (fun hm => hjb ((sortBy_perm _ b.2).mem_iff.mp hm))
      apply ih
      rcases h with h | ⟨⟨b2, hb2, hjb2⟩, hjl⟩
      · left
        rw [hstep]
        exact h
      · rcases List.mem_cons.mp hb2 with rfl | hb2t
        · exact absurd hjb2 hjb
        · exact Or.inr ⟨⟨b2, hb2t, hjb2⟩, by rw [destFold_len]; exact hjl⟩

theorem assignDests_len (u : String → String) (rn : String) (gn : Rec → String)
    (dest fam st : String) (rs : List Rec) (bins : List LBin) :
    (assignDests u rn gn dest fam st rs bins).length = rs.length := by
  rw [assignDests]
  exact binsFold_len u rn gn dest fam st _ rs

theorem assignDests_untouched (u : String → String) (rn : String) (gn : Rec → String)
    (dest fam st : String) (rs : List Rec) (bins : List LBin) (j : Nat)
    (h : ∀ b ∈ bins, j ∉ b.2) :
    getRec (assignDests u rn gn dest fam st rs bins) j = getRec rs j := by
  rw [assignDests]
  apply binsFold_untouched
  intro b hb
  exact h b ((sortBy_perm _ bins).mem_iff.mp hb)

theorem assignDests_nonempty (u : String → String) (rn : String) (gn : Rec → String)
    (dest fam st : String) (rs : List Rec) (bins : List LBin) (j : Nat)
    (huniq : ∀ s, s ≠ "" → u s ≠ "")
    (h : (getRec rs j).dest_path ≠ "" ∨ ((∃ b ∈ bins, j ∈ b.2) ∧ j < rs.length)) :
    (getRec (assignDests u rn gn dest fam st rs bins) j).dest_path ≠ "" := by
  rw [assignDests]
  apply binsFold_nonempty u rn gn dest fam st huniq
  rcases h with h | ⟨⟨b, hb, hjb⟩, hjl⟩
  · exact Or.inl h
  · exact Or.inr ⟨⟨b, (sortBy_perm _ bins).mem_iff.mpr hb, hjb⟩, hjl⟩

/-! ## The per-cohort loop -/

/-- Master invariant of the per-cohort loop: the final buckets partition the
union of the cohorts, respect the cap, carry their cohort's family/subtype,
and destinations are written exactly at cohort members (and never erased). -/
theorem cohortsLoop_spec (fuel : Nat) (cfg : PlanCfg) :
    ∀ (entries : List ((String × String) × List Nat)) (rsC rsF : List Rec) (bins : List Bin),
      (∀ e ∈ entries, e.2.Nodup) →
      cohortsLoop fuel cfg entries rsC = some (rsF, bins) →
      rsF.length = rsC.length ∧
      (bins.flatMap Bin.members).Perm (entries.flatMap (fun e => e.2)) ∧
      (∀ b ∈ bins, b.members.length ≤ cfg.max_per_bin) ∧
      (∀ b ∈ bins, ∃ e ∈ entries, b.family = e.1.1 ∧ b.subtype = e.1.2 ∧
        ∀ i ∈ b.members, i ∈ e.2) ∧
      (∀ j, j ∉ entries.flatMap (fun e => e.2) →
        (getRec rsF j).dest_path = (getRec rsC j).dest_path) ∧
      ((∀ s, s ≠ "" → cfg.uniquify s ≠ "") → ∀ j, ((getRec rsC j).dest_path ≠ "" ∨
          (j ∈ entries.flatMap (fun e => e.2) ∧ j < rsC.length)) →
        (getRec rsF j).dest_path ≠ "") := by
  intro entries
  induction entries with
  | nil =>
    intro rsC rsF bins _ h
    simp only [cohortsLoop, Option.some.injEq, Prod.mk.injEq] at h
    obtain ⟨h1, h2⟩ := h
    subst h1
    subst h2
    refine ⟨rfl, by simp, by simp, by simp, fun j _ => rfl, ?_⟩
    intro _ j hj
    rcases hj with hj | ⟨hm, _⟩
    · exact hj
    · simp at hm
  | cons ent rest ih =>
    obtain ⟨k, idxs⟩ := ent
    intro rsC rsF bins hents h
    simp only [cohortsLoop] at h
    cases hpc : planCohort fuel cfg.max_per_bin rsC idxs with
    | none => rw [hpc] at h; exact Option.noConfusion h
    | some pr =>
      obtain ⟨rs1, binsPlan⟩ := pr
      rw [hpc] at h
      simp only [] at h
      cases hcl : cohortsLoop fuel cfg rest
          (assignDests cfg.uniquify cfg.rename cfg.genName cfg.dest k.1 k.2 rs1 binsPlan) with
      | none => rw [hcl] at h; exact Option.noConfusion h
      | some prF =>
        obtain ⟨rsF', binsF⟩ := prF
        rw [hcl] at h
        simp only [Option.some.injEq, Prod.mk.injEq] at h
        obtain ⟨h1, h2⟩ := h
        subst h1
        subst h2
        have hnd : idxs.Nodup := hents (k, idxs) (List.mem_cons_self _ _)
        obtain ⟨pcperm, pclen, pcframe, pcsizes, _⟩ :=
          planCohort_spec fuel cfg.max_per_bin rsC idxs rs1 binsPlan hnd hpc
        obtain ⟨ihlen, ihperm, ihsizes, ihcoh, ihuntouched, ihne⟩ :=
          ih _ rsF' binsF (fun e he => hents e (List.mem_cons_of_mem _ he)) hcl
        have hlen2' : (assignDests cfg.uniquify cfg.rename cfg.genName cfg.dest
            k.1 k.2 rs1 binsPlan).length = rsC.length := by
          rw [assignDests_len, pclen]
        refine ⟨?_, ?_, ?_, ?_, ?_, ?_⟩
        · rw [ihlen, hlen2']
        · rw [List.flatMap_append, List.flatMap_cons]
          refine List.Perm.append ?_ ihperm
          have hmm : (binsPlan.map (fun b => Bin.mk k.1 k.2 b.1 b.2)).flatMap Bin.members =
              binsPlan.flatMap Prod.snd := by
            rw [List.flatMap_map]
          rw [hmm]
          exact pcperm
        · intro b hb
          rcases List.mem_append.mp hb with hb1 | hb2
          · rw [List.mem_map] at hb1
            obtain ⟨lb, hlb, rfl⟩ := hb1
            exact pcsizes lb hlb
          · exact ihsizes b hb2
        · intro b hb
          rcases List.mem_append.mp hb with hb1 | hb2
          · rw [List.mem_map] at hb1
            obtain ⟨lb, hlb, rfl⟩ := hb1
            refine ⟨(k, idxs), List.mem_cons_self _ _, rfl, rfl, ?_⟩
            intro i hi
            refine pcperm.mem_iff.mp ?_
            rw [List.mem_flatMap]
            exact ⟨lb, hlb, hi⟩
          · obtain ⟨e, he, hf⟩ := ihcoh b hb2
            exact ⟨e, List.mem_cons_of_mem _ he, hf⟩
        · intro j hj
          rw [List.flatMap_cons] at hj
          have hj1 : j ∉ idxs := fun hm => hj (List.mem_append.mpr (Or.inl hm))
          have hj2 : j ∉ rest.flatMap (fun e => e.2) :=
            fun hm => hj (List.mem_append.mpr (Or.inr hm))
          rw [ihuntouched j hj2]
          rw [assignDests_untouched _ _ _ _ _ _ _ _ _ (fun b hb hm => by
            apply hj1
            apply pcperm.mem_iff.mp
            rw [List.mem_flatMap]
            exact ⟨b, hb, hm⟩)]
          exact (pcframe j).2.2.2.2
        · intro hu j hj
          rcases hj with hne | ⟨hm, hjl⟩
          · apply ihne hu
            left
            apply assignDests_nonempty _ _ _ _ _ _ _ _ _ hu
            left
            rw [(pcframe j).2.2.2.2]
            exact hne
          · rw [List.flatMap_cons, List.mem_append] at hm
            rcases hm with hm1 | hm2
            · apply ihne hu
              left
              apply assignDests_nonempty _ _ _ _ _ _ _ _ _ hu
              right
              have hjb : j ∈ binsPlan.flatMap Prod.snd := pcperm.mem_iff.mpr hm1
              rw [List.mem_flatMap] at hjb
              obtain ⟨b, hb, hjb⟩ := hjb
              exact ⟨⟨b, hb, hjb⟩, by rw [pclen]; exact hjl⟩
            · apply ihne hu
              right
              exact ⟨hm2, by rw [hlen2']; exact hjl⟩

/-! ## Totality and transitivity of the code-point string order -/

theorem listCharLe_total : ∀ a b : List Char, listCharLe a b = false → listCharLe b a = true := by
  intro a
  induction a with
  | nil => intro b h; simp [listCharLe] at h
  | cons x xs ih =>
    intro b h
    cases b with
    | nil => rfl
    | cons y ys =>
      simp only [listCharLe] at h ⊢
      by_cases hxy : x.toNat < y.toNat
      · rw [if_pos hxy] at h
        exact absurd h (by simp)
      · rw [if_neg hxy] at h
        by_cases hyx : y.toNat < x.toNat
        · rw [if_pos hyx]
        · rw [if_neg hyx] at h
          rw [if_neg hyx, if_neg hxy]
          exact ih ys h

theorem listCharLe_trans : ∀ a b c : List Char,
    listCharLe a b = true → listCharLe b c = true → listCharLe a c = true := by
  intro a
  induction a with
  | nil => intro b c _ _; rfl
  | cons x xs ih =>
    intro b c hab hbc
    cases b with
    | nil => simp [listCharLe] at hab
    | cons y ys =>
      cases c with
      | nil => simp [listCharLe] at hbc
      | cons z zs =>
        simp only [listCharLe] at hab hbc ⊢
        by_cases hxy : x.toNat < y.toNat
        · by_cases hyz : y.toNat < z.toNat
          · rw [if_pos (by omega)]
          · rw [if_neg hyz] at hbc
            by_cases hzy : z.toNat < y.toNat
            · rw [if_pos hzy] at hbc
              exact absurd hbc (by simp)
            · rw [if_pos (by omega)]
        · rw [if_neg hxy] at hab
          by_cases hyx : y.toNat < x.toNat
          · rw [if_pos hyx] at hab
            exact absurd hab (by simp)
          · rw [if_neg hyx] at hab
            by_cases hyz : y.toNat < z.toNat
            · rw [if_pos (by omega)]
            · rw [if_neg hyz] at hbc
              by_cases hzy : z.toNat < y.toNat
              · rw [if_pos hzy] at hbc
                exact absurd hbc (by simp)
              · rw [if_neg hzy] at hbc
                rw [if_neg (by omega), if_neg (by omega)]
                exact ih ys zs hab hbc

theorem strLe_total (a b : String) (h : strLe a b = false) : strLe b a = true :=
  listCharLe_total a.data b.data h

theorem strLe_trans (a b c : String) (hab : strLe a b = true) (hbc : strLe b c = true) :
    strLe a c = true :=
  listCharLe_trans a.data b.data c.data hab hbc

/-- A string starting with a non-empty prefix shares its head character. -/
theorem strStarts_headChar {s pre : String} (h : strStarts s pre = true)
    (hpre : pre.data ≠ []) : headChar s = headChar pre := by
  rw [strStarts] at h
  cases hp : pre.data with
  | nil => exact absurd hp hpre
  | cons c cs =>
    rw [hp] at h
    cases hs : s.data with
    | nil =>
      rw [hs] at h
      simp [listStarts] at h
    | cons x xs =>
      rw [hs] at h
      simp only [listStarts, Bool.and_eq_true, decide_eq_true_eq] at h
      rw [headChar, headChar, hs, hp]
      simp [h.1]

/-! ## Untouched records across the split and a cohort's undated placement -/

theorem splitStep_untouched (acc : List Rec × List (Nat × Ts) × List Nat) (i j : Nat)
    (hji : j ≠ i) : getRec (splitStep acc i).1 j = getRec acc.1 j := by
  obtain ⟨rs, d, u⟩ := acc
  simp only [splitStep]
  repeat' split
  all_goals first
  | rfl
  | · rw [getRec_set_ne]
      intro he
      exact hji he.symm

theorem splitFold_untouched : ∀ (todo : List Nat) (acc : List Rec × List (Nat × Ts) × List Nat)
    (j : Nat), j ∉ todo → getRec (todo.foldl splitStep acc).1 j = getRec acc.1 j := by
  intro todo
  induction todo with
  | nil => intro acc j _; rfl
  | cons a t ih =>
    intro acc j hj
    simp only [List.foldl_cons]
    rw [ih _ _ (fun hm => hj (List.mem_cons_of_mem a hm))]
    exact splitStep_untouched acc a j (fun he => hj (he ▸ List.mem_cons_self a t))

/-- The cohort-planning facts behind C8: a cohort member with no resolved
instant lands in an `undated-…` bucket, and every `undated-…` bucket is a
cap-respecting, path-sorted chunk of cohort members. -/
theorem planCohort_c8 (fuel cap : Nat) (rs : List Rec) (idxs : List Nat)
    (rs1 : List Rec) (bins : List LBin) (hnd : idxs.Nodup)
    (h : planCohort fuel cap rs idxs = some (rs1, bins)) :
    (∀ i ∈ idxs, resolvedTs (getRec rs i) = none →
      ∃ b ∈ bins, i ∈ b.2 ∧ strStarts b.1 "undated-" = true) ∧
    (∀ b ∈ bins, strStarts b.1 "undated-" = true →
      b.2.length ≤ cap ∧
      List.Pairwise (fun a c =>
        strLe (getRec rs a).source_path (getRec rs c).source_path = true) b.2 ∧
      ∀ i ∈ b.2, i ∈ idxs) := by
  rcases hsd : splitDated rs idxs with ⟨rsW, dated0, unknown0⟩
  obtain ⟨hdf, huf⟩ := splitFold_spec rs idxs rs [] [] hnd (fun _ _ => rfl)
  rw [show idxs.foldl splitStep (rs, [], []) = splitDated rs idxs from rfl, hsd] at hdf huf
  simp only [List.nil_append] at hdf huf
  simp only [planCohort, hsd] at h
  cases hdb : datedBins fuel cap rsW (sortBy (fun a b => tsLeB a.2 b.2) dated0) with
  | none => rw [hdb] at h; exact Option.noConfusion h
  | some db =>
    rw [hdb] at h
    cases hub : undatedBins cap (sortBy
        (fun a b => strLe (getRec rsW a).source_path (getRec rsW b).source_path) unknown0) with
    | none => rw [hub] at h; exact Option.noConfusion h
    | some ub =>
      rw [hub] at h
      rw [Option.some.injEq, Prod.mk.injEq] at h
      obtain ⟨hrs1, hbins⟩ := h
      subst hrs1
      subst hbins
      obtain ⟨huflat, huprops⟩ := undatedBins_spec cap _ ub hub
      have hpathW : ∀ j, (getRec rsW j).source_path = (getRec rs j).source_path := by
        intro j
        have := splitFold_frame idxs (rs, [], []) j
        rw [show idxs.foldl splitStep (rs, [], []) = splitDated rs idxs from rfl, hsd] at this
        exact this.1
      have hsorted : List.Pairwise (fun a c =>
          strLe (getRec rs a).source_path (getRec rs c).source_path = true)
          (sortBy (fun a b => strLe (getRec rsW a).source_path (getRec rsW b).source_path)
            unknown0) := by
        have hp := sortBy_pairwise
          (fun a b => strLe (getRec rsW a).source_path (getRec rsW b).source_path)
          (fun x y hxy => strLe_total _ _ hxy)
          (fun x y z hxy hyz => strLe_trans _ _ _ hxy hyz) unknown0
        refine hp.imp ?_
        intro a c hac
        rw [hpathW a, hpathW c] at hac
        exact hac
      have hsub : ∀ i ∈ (sortBy
          (fun a b => strLe (getRec rsW a).source_path (getRec rsW b).source_path)
            unknown0), i ∈ idxs := by
        intro i hi
        have := (sortBy_perm _ unknown0).mem_iff.mp hi
        rw [huf, List.mem_filter] at this
        exact this.1
      constructor
      · intro i hi hres
        have hiu : i ∈ unknown0 := by
          rw [huf, List.mem_filter]
          exact ⟨hi, by simp [hres]⟩
        have his : i ∈ ub.flatMap Prod.snd := by
          rw [huflat]
          exact (sortBy_perm _ unknown0).mem_iff.mpr hiu
        rw [List.mem_flatMap] at his
        obtain ⟨b, hb, hib⟩ := his
        exact ⟨b, List.mem_append.mpr (Or.inr hb), hib, (huprops b hb).2.1⟩
      · intro b hb hundated
        rcases List.mem_append.mp hb with hb1 | hb2
        · exfalso
          obtain ⟨hddig, hdprops⟩ := datedBins_spec fuel cap rsW _ db hdb
          obtain ⟨hbne, hbdig⟩ := (hdprops b hb1).2
          have hh := strStarts_headChar hundated (by simp [String.data])
          rw [hh] at hbdig
          exact absurd hbdig (by decide)
        · obtain ⟨hsz, _, hsl⟩ := huprops b hb2
          refine ⟨hsz, hsorted.sublist hsl, ?_⟩
          intro i hib
          exact hsub i (hsl.mem hib)

/-- When the grouped values are duplicate-free overall, distinct entries of
`groupPairs` have disjoint member lists. -/
theorem groupPairs_disjoint {κ : Type} [DecidableEq κ] {ps : List (κ × Nat)}
    (hnd : (ps.map Prod.snd).Nodup) :
    List.Pairwise (fun e1 e2 => ∀ i, i ∈ e1.2 → i ∉ e2.2) (groupPairs ps) := by
  have hknd := groupPairs_keys_nodup ps
  have hkpw : List.Pairwise (fun e1 e2 : κ × List Nat => e1.1 ≠ e2.1) (groupPairs ps) :=
    List.pairwise_map.mp hknd
  refine List.Pairwise.imp_of_mem ?_ hkpw
  intro e1 e2 he1 he2 hne i hi1 hi2
  have hv1 := groupPairs_val he1
  have hv2 := groupPairs_val he2
  rw [hv1, List.mem_map] at hi1
  rw [hv2, List.mem_map] at hi2
  obtain ⟨p1, hp1, hp1i⟩ := hi1
  obtain ⟨p2, hp2, hp2i⟩ := hi2
  rw [List.mem_filter] at hp1 hp2
  have hpe : p1 = p2 :=
    List.inj_on_of_nodup_map hnd hp1.1 hp2.1 (by rw [hp1i, hp2i])
  apply hne
  have h1 : p1.1 = e1.1 := by simpa using hp1.2
  have h2 : p2.1 = e2.1 := by simpa using hp2.2
  rw [← h1, ← h2, hpe]

/-- Indices outside the cohort are completely untouched by `planCohort`. -/
theorem planCohort_untouched (fuel cap : Nat) (rs : List Rec) (idxs : List Nat)
    (rs1 : List Rec) (bins : List LBin) (h : planCohort fuel cap rs idxs = some (rs1, bins))
    (j : Nat) (hj : j ∉ idxs) : getRec rs1 j = getRec rs j := by
  rcases hsd : splitDated rs idxs with ⟨rsW, dated0, unknown0⟩
  simp only [planCohort, hsd] at h
  cases hdb : datedBins fuel cap rsW (sortBy (fun a b => tsLeB a.2 b.2) dated0) with
  | none => rw [hdb] at h; exact Option.noConfusion h
  | some db =>
    rw [hdb] at h
    cases hub : undatedBins cap (sortBy
        (fun a b => strLe (getRec rsW a).source_path (getRec rsW b).source_path) unknown0) with
    | none => rw [hub] at h; exact Option.noConfusion h
    | some ub =>
      rw [hub] at h
      rw [Option.some.injEq, Prod.mk.injEq] at h
      obtain ⟨hrs1, _⟩ := h
      subst hrs1
      have := splitFold_untouched idxs (rs, [], []) j hj
      rw [show idxs.foldl splitStep (rs, [], []) = splitDated rs idxs from rfl, hsd] at this
      exact this

/-- The C8 content pushed through the cohort loop: unresolved-date members
land in `undated-…` buckets; those buckets are cap-respecting and
path-sorted; and every bucket label is `undated-…` or digit-headed. -/
theorem cohortsLoop_c8 (fuel : Nat) (cfg : PlanCfg) (rs0 : List Rec) :
    ∀ (entries : List ((String × String) × List Nat)) (rsC rsF : List Rec) (bins : List Bin),
      (∀ e ∈ entries, e.2.Nodup) →
      (∀ e ∈ entries, ∀ i ∈ e.2, getRec rsC i = getRec rs0 i) →
      List.Pairwise (fun e1 e2 => ∀ i, i ∈ e1.2 → i ∉ e2.2) entries →
      cohortsLoop fuel cfg entries rsC = some (rsF, bins) →
      (∀ i, (∃ e ∈ entries, i ∈ e.2) → resolvedTs (getRec rs0 i) = none →
        ∃ b ∈ bins, i ∈ b.members ∧ strStarts b.label "undated-" = true) ∧
      (∀ b ∈ bins, strStarts b.label "undated-" = true →
        b.members.length ≤ cfg.max_per_bin ∧
        List.Pairwise (fun a c =>
          strLe (getRec rs0 a).source_path (getRec rs0 c).source_path = true) b.members) ∧
      (∀ b ∈ bins, strStarts b.label "undated-" = true ∨ (headChar b.label).isDigit = true) := by
  intro entries
  induction entries with
  | nil =>
    intro rsC rsF bins _ _ _ h
    simp only [cohortsLoop, Option.some.injEq, Prod.mk.injEq] at h
    obtain ⟨h1, h2⟩ := h
    subst h1
    subst h2
    refine ⟨?_, by simp, by simp⟩
    intro i hi _
    obtain ⟨e, he, _⟩ := hi
    simp at he
  | cons ent rest ih =>
    obtain ⟨k, idxs⟩ := ent
    intro rsC rsF bins hents hagree hdisj h
    simp only [cohortsLoop] at h
    cases hpc : planCohort fuel cfg.max_per_bin rsC idxs with
    | none => rw [hpc] at h; exact Option.noConfusion h
    | some pr =>
      obtain ⟨rs1, binsPlan⟩ := pr
      rw [hpc] at h
      simp only [] at h
      cases hcl : cohortsLoop fuel cfg rest
          (assignDests cfg.uniquify cfg.rename cfg.genName cfg.dest k.1 k.2 rs1 binsPlan) with
      | none => rw [hcl] at h; exact Option.noConfusion h
      | some prF =>
        obtain ⟨rsF', binsF⟩ := prF
        rw [hcl] at h
        simp only [Option.some.injEq, Prod.mk.injEq] at h
        obtain ⟨h1, h2⟩ := h
        subst h1
        subst h2
        have hnd : idxs.Nodup := hents (k, idxs) (List.mem_cons_self _ _)
        have hagreeHead : ∀ i ∈ idxs, getRec rsC i = getRec rs0 i :=
          fun i hi => hagree (k, idxs) (List.mem_cons_self _ _) i hi
        obtain ⟨pcperm, _, _, _, pclabels⟩ :=
          planCohort_spec fuel cfg.max_per_bin rsC idxs rs1 binsPlan hnd hpc
        obtain ⟨pcex, pcund⟩ :=
          planCohort_c8 fuel cfg.max_per_bin rsC idxs rs1 binsPlan hnd hpc
        have hdisjHead : ∀ e ∈ rest, ∀ i ∈ e.2, i ∉ idxs := by
          intro e he i hie hi
          rw [List.pairwise_cons] at hdisj
          exact hdisj.1 e he i hi hie
        have hagreeRest : ∀ e ∈ rest, ∀ i ∈ e.2,
            getRec (assignDests cfg.uniquify cfg.rename cfg.genName cfg.dest
              k.1 k.2 rs1 binsPlan) i = getRec rs0 i := by
          intro e he i hie
          rw [assignDests_untouched _ _ _ _ _ _ _ _ _ (fun b hb hm => by
            apply hdisjHead e he i hie
            apply pcperm.mem_iff.mp
            rw [List.mem_flatMap]
            exact ⟨b, hb, hm⟩)]
          rw [planCohort_untouched fuel cfg.max_per_bin rsC idxs rs1 binsPlan hpc i
            (hdisjHead e he i hie)]
          exact hagree e (List.mem_cons_of_mem _ he) i hie
        obtain ⟨ihex, ihund, ihdich⟩ := ih _ rsF' binsF
          (fun e he => hents e (List.mem_cons_of_mem _ he)) hagreeRest
          ((List.pairwise_cons.mp hdisj).2) hcl
        refine ⟨?_, ?_, ?_⟩
        · intro i hi hres
          obtain ⟨e, he, hie⟩ := hi
          rcases List.mem_cons.mp he with rfl | herest
          · have hres2 : resolvedTs (getRec rsC i) = none := by
              rw [hagreeHead i hie]
              exact hres
            obtain ⟨lb, hlb, hilb, hu⟩ := pcex i hie hres2
            refine ⟨Bin.mk k.1 k.2 lb.1 lb.2, ?_, hilb, hu⟩
            exact List.mem_append.mpr (Or.inl (List.mem_map_of_mem _ hlb))
          · obtain ⟨b, hb, hib, hu⟩ := ihex i ⟨e, herest, hie⟩ hres
            exact ⟨b, List.mem_append.mpr (Or.inr hb), hib, hu⟩
        · intro b hb hu
          rcases List.mem_append.mp hb with hb1 | hb2
          · rw [List.mem_map] at hb1
            obtain ⟨lb, hlb, rfl⟩ := hb1
            obtain ⟨hsz, hpw, hsub⟩ := pcund lb hlb hu
            refine ⟨hsz, ?_⟩
            refine hpw.imp_of_mem ?_
            intro a c ha hc hac
            rw [hagreeHead a (hsub a ha), hagreeHead c (hsub c hc)] at hac
            exact hac
          · exact ihund b hb2 hu
        · intro b hb
          rcases List.mem_append.mp hb with hb1 | hb2
          · rw [List.mem_map] at hb1
            obtain ⟨lb, hlb, rfl⟩ := hb1
            rcases pclabels lb hlb with hd | hu
            · exact Or.inr hd.2
            · exact Or.inl hu
          · exact ihdich b hb2

theorem planBins_as_loop (fuel : Nat) (cfg : PlanCfg) (rs : List Rec) :
    planBins fuel cfg rs =
      cohortsLoop fuel cfg (groupPairs (cohortPairs (planRecs cfg rs))) (planRecs cfg rs) := rfl

theorem planRecs_len (cfg : PlanCfg) (rs : List Rec) :
    (planRecs cfg rs).length = rs.length := by
  rw [planRecs, imageRewrite_len, promote_len]

theorem planRecs_frame (cfg : PlanCfg) (rs : List Rec) (j : Nat) :
    (getRec (planRecs cfg rs) j).source_path = (getRec rs j).source_path ∧
    (getRec (planRecs cfg rs) j).integrity = (getRec rs j).integrity ∧
    (getRec (planRecs cfg rs) j).dest_path = (getRec rs j).dest_path := by
  obtain ⟨h1, h2, h3⟩ := imageRewrite_frame cfg.promote_make_threshold
    cfg.promote_model_threshold (promoteOtherTypes cfg.promote_threshold rs) j
  obtain ⟨g1, g2, g3⟩ := promote_frame cfg.promote_threshold rs j
  exact ⟨h1.trans g1, h2.trans g2, h3.trans g3⟩

theorem flushDays_nil (fuel cap : Nat) (dt : List (K3 × List Nat)) :
    flushDays fuel cap dt [] = some [] := by
  rw [flushDays]
  simp

theorem flushMonths_nil (fuel cap y : Nat) (mt : List (K2 × List Nat)) :
    flushMonths fuel cap y mt [] = some [] := by
  rw [flushMonths]
  simp

theorem flushYears_nil (fuel cap : Nat) (yt : List (Nat × List Nat)) :
    flushYears fuel cap yt [] = some [] := by
  rw [flushYears]
  simp

theorem minutePhase_none (fuel cap : Nat) (rs : List Rec) (ds : List (Nat × Ts)) (y m d : Nat)
    (h : greedyMerge fuel (sortBy k5Le (((minutesTable ds).map Prod.fst).filter
        (fun k => decide (k.1 = y) && decide (k.2.1 = m) && decide (k.2.2.1 = d))))
      (fun k => (glook (minutesTable ds) k).length) cap = none) :
    minutePhase fuel cap rs ds y m d = none := by
  simp only [minutePhase]
  rw [h]

theorem dayLoop_single_heavy (fuel cap : Nat) (rs : List Rec) (ds : List (Nat × Ts))
    (dt : List (K3 × List Nat)) (k : K3) (hheavy : cap < (glook dt k).length)
    (hmp : minutePhase fuel cap rs ds k.1 k.2.1 k.2.2 = none) :
    dayLoop fuel cap rs ds dt [k] [] = none := by
  simp only [dayLoop]
  rw [if_pos hheavy, flushDays_nil, hmp]

theorem dayPhase_none (fuel cap : Nat) (rs : List Rec) (ds : List (Nat × Ts)) (y m : Nat)
    (h : dayLoop fuel cap rs ds (daysTable ds)
      (sortBy k3Le (((daysTable ds).map Prod.fst).filter
        (fun k => decide (k.1 = y) && decide (k.2.1 = m)))) [] = none) :
    dayPhase fuel cap rs ds y m = none := by
  simp only [dayPhase]
  exact h

theorem monthLoop_single_heavy (fuel cap : Nat) (rs : List Rec) (ds : List (Nat × Ts))
    (y : Nat) (mt : List (K2 × List Nat)) (k : K2) (hheavy : cap < (glook mt k).length)
    (hdp : dayPhase fuel cap rs ds k.1 k.2 = none) :
    monthLoop fuel cap rs ds y mt [k] [] = none := by
  simp only [monthLoop]
  rw [if_pos hheavy, flushMonths_nil, hdp]

theorem monthPhase_none (fuel cap : Nat) (rs : List Rec) (ds : List (Nat × Ts)) (y : Nat)
    (h : monthLoop fuel cap rs ds y (monthsTable ds)
      (sortBy k2Le (((monthsTable ds).map Prod.fst).filter (fun k => decide (k.1 = y)))) [] =
      none) :
    monthPhase fuel cap rs ds y = none := by
  simp only [monthPhase]
  exact h

theorem heavyYears_single_none (fuel cap : Nat) (rs : List Rec) (ds : List (Nat × Ts)) (y : Nat)
    (h : monthPhase fuel cap rs ds y = none) :
    heavyYearsLoop fuel cap rs ds [y] = none := by
  simp only [heavyYearsLoop]
  rw [h]

theorem yearRun_single_heavy (fuel cap : Nat) (yt : List (Nat × List Nat)) (y : Nat)
    (hheavy : cap < (glook yt y).length) :
    yearRunLoop fuel cap yt [y] [] = some [] := by
  simp only [yearRunLoop]
  rw [if_pos hheavy, flushYears_nil]
  rfl

theorem datedBins_none_single (fuel cap : Nat) (rs : List Rec) (ds : List (Nat × Ts)) (y : Nat)
    (hyk : sortBy (fun a b => decide (a ≤ b)) ((yearsTable ds).map Prod.fst) = [y])
    (hheavy : cap < (glook (yearsTable ds) y).length)
    (hhv : heavyYearsLoop fuel cap rs ds [y] = none) :
    datedBins fuel cap rs ds = none := by
  simp only [datedBins]
  rw [hyk, yearRun_single_heavy fuel cap _ y hheavy]
  rw [show ([y].filter (fun y2 => decide (cap < (glook (yearsTable ds) y2).length))) = [y]
    from by simp [List.filter_cons, hheavy]]
  rw [hhv]

theorem planCohort_none (fuel cap : Nat) (rs : List Rec) (idxs : List Nat)
    (h : ∀ rsW dated0 unknown0, splitDated rs idxs = (rsW, dated0, unknown0) →
      datedBins fuel cap rsW (sortBy (fun a b => tsLeB a.2 b.2) dated0) = none) :
    planCohort fuel cap rs idxs = none := by
  rcases hsd : splitDated rs idxs with ⟨rsW, dated0, unknown0⟩
  simp only [planCohort, hsd]
  rw [h rsW dated0 unknown0 hsd]

theorem cohortsLoop_head_none (fuel : Nat) (cfg : PlanCfg) (k : String × String)
    (idxs : List Nat) (rest : List ((String × String) × List Nat)) (rs : List Rec)
    (h : planCohort fuel cfg.max_per_bin rs idxs = none) :
    cohortsLoop fuel cfg ((k, idxs) :: rest) rs = none := by
  simp only [cohortsLoop]
  rw [h]

/-- C2: the claim says `plan_bins` terminates for every cohort of
`ok`-integrity records and every cap ≥ 1, splitting an over-cap minute into
fixed-size chunks.  But when a single minute's population exceeds the cap,
`_greedy_merge`'s inner `while` makes no progress and its outer loop appends
empty spans forever: with two records in the same minute and
`max_per_bin = 1`, `plan_bins` never returns, for any amount of fuel — the
minute-chunking branch (core.py 516-520) is never reached. -/
theorem c2_minute_overflow_divergence :
    ∀ fuel, planBins fuel cfgC2 [recD1, recD2] = none := by
  intro fuel
  rw [planBins_as_loop]
  rw [show groupPairs (cohortPairs (planRecs cfgC2 [recD1, recD2])) =
    [(("Images", "JPG"), [0, 1])] from by decide]
  apply cohortsLoop_head_none
  apply planCohort_none
  intro rsW dated0 unknown0 hsd
  have h1 := congrArg (fun t => t.2.1) hsd
  simp only [] at h1
  have hd : dated0 = [(0, tsMin), (1, tsMin)] := by
    rw [← h1]
    decide
  rw [hd]
  apply datedBins_none_single _ _ rsW _ 2020 (by decide) (by decide)
  apply heavyYears_single_none
  apply monthPhase_none
  rw [show (sortBy k2Le (((monthsTable (sortBy (fun a b => tsLeB a.2 b.2)
        [(0, tsMin), (1, tsMin)])).map Prod.fst).filter (fun k => decide (k.1 = 2020)))) =
    [(2020, 1)] from by decide]
  apply monthLoop_single_heavy _ _ _ _ _ _ _ (by decide)
  apply dayPhase_none
  rw [show (sortBy k3Le (((daysTable (sortBy (fun a b => tsLeB a.2 b.2)
        [(0, tsMin), (1, tsMin)])).map Prod.fst).filter
        (fun k => decide (k.1 = 2020) && decide (k.2.1 = 1)))) =
    [(2020, 1, 1)] from by decide]
  apply dayLoop_single_heavy _ _ _ _ _ _ (by decide)
  apply minutePhase_none
  rw [greedyMerge]
  exact greedyLoop_stall _ _ _ 0 (by decide) (by decide) fuel

/-- Three same-minute records with `max_per_bin = 2`: `plan_bins` produces no
plan at any fuel bound — the outer `_greedy_merge` loop never terminates. -/
theorem planBins_capTwo_stall :
    ∀ fuel, planBins fuel cfgC1 [recD "/y/a.jpg", recD "/y/b.jpg", recD "/y/c.jpg"] = none := by
  intro fuel
  rw [planBins_as_loop]
  rw [show groupPairs (cohortPairs
      (planRecs cfgC1 [recD "/y/a.jpg", recD "/y/b.jpg", recD "/y/c.jpg"])) =
    [(("Images", "JPG"), [0, 1, 2])] from by decide]
  apply cohortsLoop_head_none
  apply planCohort_none
  intro rsW dated0 unknown0 hsd
  have h1 := congrArg (fun t => t.2.1) hsd
  simp only [] at h1
  have hd : dated0 = [(0, tsMin), (1, tsMin), (2, tsMin)] := by
    rw [← h1]
    decide
  rw [hd]
  apply datedBins_none_single _ _ rsW _ 2020 (by decide) (by decide)
  apply heavyYears_single_none
  apply monthPhase_none
  rw [show (sortBy k2Le (((monthsTable (sortBy (fun a b => tsLeB a.2 b.2)
        [(0, tsMin), (1, tsMin), (2, tsMin)])).map Prod.fst).filter
        (fun k => decide (k.1 = 2020)))) = [(2020, 1)] from by decide]
  apply monthLoop_single_heavy _ _ _ _ _ _ _ (by decide)
  apply dayPhase_none
  rw [show (sortBy k3Le (((daysTable (sortBy (fun a b => tsLeB a.2 b.2)
        [(0, tsMin), (1, tsMin), (2, tsMin)])).map Prod.fst).filter
        (fun k => decide (k.1 = 2020) && decide (k.2.1 = 1)))) =
    [(2020, 1, 1)] from by decide]
  apply dayLoop_single_heavy _ _ _ _ _ _ (by decide)
  apply minutePhase_none
  rw [greedyMerge]
  exact greedyLoop_stall _ _ _ 0 (by decide) (by decide) fuel

/-- C1 counterexample: the claim says that with a cap of at least 1 every
planned bucket respects the cap, with the terminal minute-level overflow
split into numbered chunks.  But a minute whose population exceeds the cap
never reaches the chunking branch: `plan_bins` hangs in `_greedy_merge`
instead, so on three same-minute records with `max_per_bin = 2` no plan
(chunked or otherwise) is ever produced — not even after a million
iterations of the outer loop. -/
theorem c1_counterexample :
    planBins 1000000 cfgC1 [recD "/y/a.jpg", recD "/y/b.jpg", recD "/y/c.jpg"] = none :=
  planBins_capTwo_stall 1000000

/-- C1 (amended): on every run of `plan_bins` that returns a plan, every
bucket of every cohort holds at most `max_per_bin` records.  (The claim's
"terminal minute-level overflow" case never completes — see the
counterexample — so the invariant needs no chunking exception.) -/
theorem c1_cap_invariant_amended (fuel : Nat) (cfg : PlanCfg) (rs rsF : List Rec)
    (bins : List Bin) (h : planBins fuel cfg rs = some (rsF, bins)) :
    ∀ b ∈ bins, b.members.length ≤ cfg.max_per_bin := by
  obtain ⟨_, _, hsz, _⟩ := cohortsLoop_spec fuel cfg
    (groupPairs (cohortPairs (planRecs cfg rs))) (planRecs cfg rs) rsF bins
    (fun e he => (cohortEntry_facts he).1) h
  exact hsz

/-- Witness for the amended C1 on a concrete completed run. -/
theorem c1_witness :
    (((planBins 5 cfgC2 [recD1]).getD ([], [])).2.getD 0
      (Bin.mk "" "" "" [])).members.length ≤ cfgC2.max_per_bin := by
  have h : planBins 5 cfgC2 [recD1] =
      some (((planBins 5 cfgC2 [recD1]).getD ([], [])).1,
        ((planBins 5 cfgC2 [recD1]).getD ([], [])).2) := by decide
  exact c1_cap_invariant_amended 5 cfgC2 [recD1] _ _ h _ (by decide)

/-- C3: the buckets planned by `plan_bins` partition each (family, subtype)
cohort exactly — every `ok`-integrity record appears in the member list of
exactly one bucket, that bucket belongs to the record's own cohort, and a
record of any other integrity status appears in no bucket. -/
theorem c3_cohort_partition (fuel : Nat) (cfg : PlanCfg) (rs rsF : List Rec) (bins : List Bin)
    (h : planBins fuel cfg rs = some (rsF, bins)) (i : Nat) :
    ((getRec (planRecs cfg rs) i).integrity = "ok" ∧ i < rs.length →
      ((bins.flatMap Bin.members).count i = 1 ∧
        ∀ b ∈ bins, i ∈ b.members →
          b.family = (getRec (planRecs cfg rs) i).family ∧
          b.subtype = (getRec (planRecs cfg rs) i).subtype)) ∧
    (¬ ((getRec (planRecs cfg rs) i).integrity = "ok" ∧ i < rs.length) →
      ∀ b ∈ bins, i ∉ b.members) := by
  obtain ⟨_, hperm, _, hcoh, _, _⟩ := cohortsLoop_spec fuel cfg
    (groupPairs (cohortPairs (planRecs cfg rs))) (planRecs cfg rs) rsF bins
    (fun e he => (cohortEntry_facts he).1) h
  have hflat : (bins.flatMap Bin.members).Perm
      ((List.range (planRecs cfg rs).length).filter
        (fun j => decide ((getRec (planRecs cfg rs) j).integrity = "ok"))) := by
    refine hperm.trans ?_
    refine (groupPairs_flat (cohortPairs (planRecs cfg rs))).trans ?_
    rw [cohortPairs_snd]
  have hmemflat : ∀ j, j ∈ bins.flatMap Bin.members ↔
      (j < (planRecs cfg rs).length ∧ (getRec (planRecs cfg rs) j).integrity = "ok") := by
    intro j
    rw [hflat.mem_iff, List.mem_filter, List.mem_range]
    simp
  constructor
  · rintro ⟨hok, hlen⟩
    have hlen2 : i < (planRecs cfg rs).length := by rw [planRecs_len]; exact hlen
    constructor
    · rw [hflat.count_eq]
      exact List.count_eq_one_of_mem ((List.nodup_range _).filter _)
        (by rw [List.mem_filter, List.mem_range]; exact ⟨hlen2, by simpa using hok⟩)
    · intro b hb hib
      obtain ⟨e, he, hfam, hst, hsub⟩ := hcoh b hb
      obtain ⟨_, hall⟩ := cohortEntry_facts he
      obtain ⟨_, _, hf, hs⟩ := hall i (hsub i hib)
      exact ⟨by rw [hfam, ← hf], by rw [hst, ← hs]⟩
  · intro hno b hb hib
    have hmem : i ∈ bins.flatMap Bin.members := List.mem_flatMap.mpr ⟨b, hb, hib⟩
    rw [hmemflat] at hmem
    exact hno ⟨hmem.2, by rw [← planRecs_len cfg rs]; exact hmem.1⟩

/-- Witness for C3: a concrete three-record run (one dated `ok`, one
undated `ok`, one corrupt) places the dated record into exactly one
bucket. -/
theorem c3_witness :
    (((planBins 5 cfgC2 [recD1, recU, recN]).getD ([], [])).2.flatMap Bin.members).count 0 =
      1 := by
  have h : planBins 5 cfgC2 [recD1, recU, recN] =
      some (((planBins 5 cfgC2 [recD1, recU, recN]).getD ([], [])).1,
        ((planBins 5 cfgC2 [recD1, recU, recN]).getD ([], [])).2) := by decide
  exact ((c3_cohort_partition 5 cfgC2 [recD1, recU, recN] _ _ h 0).1 ⟨by decide, by decide⟩).1

/-- Every in-range `ok` record belongs to some cohort entry. -/
theorem cohort_covers {rs2 : List Rec} {i : Nat} (hlen : i < rs2.length)
    (hok : (getRec rs2 i).integrity = "ok") :
    ∃ e ∈ groupPairs (cohortPairs rs2), i ∈ e.2 := by
  have hp : (((getRec rs2 i).family, (getRec rs2 i).subtype), i) ∈ cohortPairs rs2 := by
    rw [cohortPairs, List.mem_filterMap]
    exact ⟨i, List.mem_range.mpr hlen, by rw [if_pos hok]⟩
  have hk := groupPairs_covers hp
  rw [List.mem_map] at hk
  obtain ⟨e, he, hke⟩ := hk
  refine ⟨e, he, ?_⟩
  rw [groupPairs_val he, List.mem_map]
  refine ⟨(((getRec rs2 i).family, (getRec rs2 i).subtype), i), ?_, rfl⟩
  rw [List.mem_filter]
  exact ⟨hp, by simp [hke]⟩

/-- C9: after `plan_bins`, every record that is not of `ok` integrity still
has an empty `dest_path`, while every in-range `ok`-integrity record —
including records whose `duplicate_of` is set, which `plan_bins` does not
inspect — has a non-empty `dest_path` assigned. -/
theorem c9_dest_assignment (fuel : Nat) (cfg : PlanCfg) (rs rsF : List Rec) (bins : List Bin)
    (h : planBins fuel cfg rs = some (rsF, bins))
    (hinit : ∀ r ∈ rs, r.dest_path = "")
    (huniq : ∀ s, s ≠ "" → cfg.uniquify s ≠ "") (i : Nat) :
    ((getRec (planRecs cfg rs) i).integrity = "ok" ∧ i < rs.length →
      (getRec rsF i).dest_path ≠ "") ∧
    ((getRec (planRecs cfg rs) i).integrity ≠ "ok" → (getRec rsF i).dest_path = "") := by
  obtain ⟨_, hperm, _, _, huntouched, hne⟩ := cohortsLoop_spec fuel cfg
    (groupPairs (cohortPairs (planRecs cfg rs))) (planRecs cfg rs) rsF bins
    (fun e he => (cohortEntry_facts he).1) h
  constructor
  · rintro ⟨hok, hlen⟩
    have hlen2 : i < (planRecs cfg rs).length := by rw [planRecs_len]; exact hlen
    apply hne huniq i
    right
    refine ⟨?_, hlen2⟩
    rw [List.mem_flatMap]
    exact cohort_covers hlen2 hok
  · intro hnok
    have hnotm : i ∉ (groupPairs (cohortPairs (planRecs cfg rs))).flatMap (fun e => e.2) := by
      intro hm
      rw [List.mem_flatMap] at hm
      obtain ⟨e, he, hie⟩ := hm
      exact hnok ((cohortEntry_facts he).2 i hie).2.1
    rw [huntouched i hnotm]
    rw [(planRecs_frame cfg rs i).2.2]
    by_cases hl : i < rs.length
    · exact hinit _ (getRec_mem hl)
    · rw [getRec, List.getD_eq_default _ _ (Nat.le_of_not_lt hl)]
      rfl

/-- Witness for C9: on the concrete run, the dated `ok` record gets a
non-empty destination and the corrupt record keeps an empty one. -/
theorem c9_witness :
    (getRec ((planBins 5 cfgC2 [recD1, recU, recN]).getD ([], [])).1 0).dest_path ≠ "" ∧
    (getRec ((planBins 5 cfgC2 [recD1, recU, recN]).getD ([], [])).1 2).dest_path = "" := by
  have h : planBins 5 cfgC2 [recD1, recU, recN] =
      some (((planBins 5 cfgC2 [recD1, recU, recN]).getD ([], [])).1,
        ((planBins 5 cfgC2 [recD1, recU, recN]).getD ([], [])).2) := by decide
  constructor
  · exact (c9_dest_assignment 5 cfgC2 [recD1, recU, recN] _ _ h (by decide)
      (fun s hs => hs) 0).1 ⟨by decide, by decide⟩
  · exact (c9_dest_assignment 5 cfgC2 [recD1, recU, recN] _ _ h (by decide)
      (fun s hs => hs) 2).2 (by decide)

/-- C8: within each cohort, every `ok` record with no resolved date instant
is placed into a bucket whose label starts with `undated-`; undated buckets
are path-ordered chunks of at most `max_per_bin` records; every bucket label
is either an `undated-…` label or a digit-headed calendar label; and no
undated bucket label ever equals a dated (digit-headed) bucket's label. -/
theorem c8_undated_buckets (fuel : Nat) (cfg : PlanCfg) (rs rsF : List Rec) (bins : List Bin)
    (h : planBins fuel cfg rs = some (rsF, bins)) :
    (∀ i, i < rs.length → (getRec (planRecs cfg rs) i).integrity = "ok" →
      resolvedTs (getRec (planRecs cfg rs) i) = none →
      ∃ b ∈ bins, i ∈ b.members ∧ strStarts b.label "undated-" = true) ∧
    (∀ b ∈ bins, strStarts b.label "undated-" = true →
      b.members.length ≤ cfg.max_per_bin ∧
      List.Pairwise (fun a c => strLe (getRec (planRecs cfg rs) a).source_path
        (getRec (planRecs cfg rs) c).source_path = true) b.members) ∧
    (∀ b ∈ bins, strStarts b.label "undated-" = true ∨ (headChar b.label).isDigit = true) ∧
    (∀ b ∈ bins, ∀ b2 ∈ bins, strStarts b.label "undated-" = true →
      (headChar b2.label).isDigit = true → b.label ≠ b2.label) := by
  obtain ⟨hex, hund, hdich⟩ := cohortsLoop_c8 fuel cfg (planRecs cfg rs)
    (groupPairs (cohortPairs (planRecs cfg rs))) (planRecs cfg rs) rsF bins
    (fun e he => (cohortEntry_facts he).1)
    (fun _ _ _ _ => rfl)
    (groupPairs_disjoint (cohortPairs_snd_nodup (planRecs cfg rs))) h
  refine ⟨?_, hund, hdich, ?_⟩
  · intro i hlen hok hres
    have hlen2 : i < (planRecs cfg rs).length := by rw [planRecs_len]; exact hlen
    exact hex i (cohort_covers hlen2 hok) hres
  · intro b _ b2 _ hu hdig hlab
    have hh := strStarts_headChar hu (by simp [String.data])
    rw [← hlab, hh] at hdig
    exact absurd hdig (by decide)

/-- Witness for C8: on the concrete run, the undated bucket containing the
unresolved record respects the cap. -/
theorem c8_witness :
    (((planBins 5 cfgC2 [recD1, recU, recN]).getD ([], [])).2.getD 1
      (Bin.mk "" "" "" [])).members.length ≤ cfgC2.max_per_bin := by
  have h : planBins 5 cfgC2 [recD1, recU, recN] =
      some (((planBins 5 cfgC2 [recD1, recU, recN]).getD ([], [])).1,
        ((planBins 5 cfgC2 [recD1, recU, recN]).getD ([], [])).2) := by decide
  exact ((c8_undated_buckets 5 cfgC2 [recD1, recU, recN] _ _ h).2.1 _
    (by decide) (by decide)).1

end Beachcomb
